import Mathlib

/-!
# gapp: request-handling core (router, response helpers, struct validator)

A shallow embedding of the Go sources under `app/` and the properties of the
specification proved about it.

Conventions of the embedding.

* A Go `string` is a Lean `String`; the `strings` helpers used by the sources
  are defined on the character list of the string.
* A Go `map[string]T` is an association list `GoMap T`; `get` reads the first
  binding of a key and `set` overwrites it in place (or appends a new binding),
  so a map built by the program never holds a key twice.
* A Go `error` is a `GoError`: a coded `*errors.Error`, an aggregate
  `errors.Errors`, or any other error, known by its `Error()` text.  The nil
  error is `none` of `Option GoError`.
* Code with effects is written in state-passing style.
-/

namespace Gapp

/-! ## Strings (package `strings`) -/

/-- Pieces of a character list between the occurrences of `sep`. -/
def splitChars (sep : Char) : List Char → List (List Char)
  | [] => [[]]
  | c :: cs =>
    if c = sep then [] :: splitChars sep cs
    else
      match splitChars sep cs with
      | [] => [[c]]
      | h :: t => (c :: h) :: t

/-- Go `strings.Split(s, sep)` for a one-character separator (every call in the
sources splits on `","` or `"/"`). -/
def Split (s : String) (sep : Char) : List String :=
  (splitChars sep s.data).map String.mk

/-- Go `unicode.IsSpace`. -/
def isSpace (c : Char) : Bool :=
  let n := c.toNat
  n = 0x20 || (0x09 ≤ n && n ≤ 0x0D) || n = 0x85 || n = 0xA0 || n = 0x1680 ||
    (0x2000 ≤ n && n ≤ 0x200A) || n = 0x2028 || n = 0x2029 || n = 0x202F ||
    n = 0x205F || n = 0x3000

/-- Go `strings.TrimSpace`: leading and trailing white space removed. -/
def TrimSpace (s : String) : String :=
  String.mk ((s.data.dropWhile isSpace).reverse.dropWhile isSpace).reverse

/-- Text before the first `sep` and, when there is one, the text after it. -/
def cutChars (sep : Char) : List Char → List Char × Option (List Char)
  | [] => ([], none)
  | c :: cs =>
    if c = sep then ([], some cs)
    else ((c :: (cutChars sep cs).1), (cutChars sep cs).2)

/-- Go `strings.SplitN(s, sep, 2)` for a one-character separator: the first
part, and the second part when `sep` occurs. -/
def SplitN2 (s : String) (sep : Char) : String × Option String :=
  (String.mk (cutChars sep s.data).1, (cutChars sep s.data).2.map String.mk)

/-- Go `strings.HasPrefix(s, p)`. -/
def HasPrefix (s p : String) : Bool :=
  p.data.isPrefixOf s.data

/-- Go slice expression `s[1:]` on a string whose first character is one byte
long (the sources apply it after `HasPrefix(s, ":")`). -/
def dropFirst (s : String) : String :=
  String.mk (s.data.drop 1)

/-! ## Maps -/

/-- Go `map[string]T`. -/
abbrev GoMap (α : Type) := List (String × α)

namespace GoMap

variable {α : Type}

/-- Map read `m[k]` with the comma-ok result. -/
def get : GoMap α → String → Option α
  | [], _ => none
  | (k', v) :: rest, k => if k' = k then some v else get rest k

/-- Map write `m[k] = v`. -/
def set : GoMap α → String → α → GoMap α
  | [], k, v => [(k, v)]
  | (k', v') :: rest, k, v =>
    if k' = k then (k, v) :: rest else (k', v') :: set rest k v

/-- Comma-ok test `_, ok := m[k]`. -/
def has (m : GoMap α) (k : String) : Bool :=
  (m.get k).isSome

/-- Keys of the map. -/
def keys (m : GoMap α) : List String :=
  m.map Prod.fst

end GoMap

/-! ## Errors (package `errors`) -/

/-- Type `locale.Tag`. -/
abbrev Tag := String

/-- Value `locale.English` (`language.English.String()`). -/
def English : Tag := "en"

/-- Value `locale.Bahasa` (`language.Indonesian.String()`). -/
def Bahasa : Tag := "id"

/-- Struct `errors.Error`: `err` holds the text of the wrapped error, `none`
when the wrapped error is nil. -/
structure Error where
  code : Int
  err : Option String
  httpStatus : Int
  localMessages : GoMap String
  deriving DecidableEq, Repr

/-- Values of the Go interface `error` other than nil. -/
inductive GoError where
  /-- A non-nil `*errors.Error`. -/
  | coded (e : Error)
  /-- An `errors.Errors` map. -/
  | aggregate (errs : List (String × GoError))
  /-- An error of any other type, with the text of its `Error()` method. -/
  | plain (text : String)

/-- Type `errors.Errors`. -/
abbrev Errors := GoMap GoError

/-! ## Values seen by the validator -/

/-- Values of struct fields, as `reflect` presents them to the validator. -/
inductive GoValue where
  /-- The nil interface value. -/
  | nil
  /-- Signed integer kinds. -/
  | int (n : Int)
  /-- Unsigned integer kinds. -/
  | uint (n : Nat)
  /-- Kind `bool`. -/
  | bool (b : Bool)
  /-- The native `string` type. -/
  | str (s : String)
  /-- A named type whose underlying type is `string`, such as `types.Integer`. -/
  | named (typ : String) (s : String)
  /-- A nil pointer. -/
  | nilPtr
  /-- A non-nil pointer and the value it points to. -/
  | ptrTo (elem : GoValue)
  deriving DecidableEq, Repr

namespace GoValue

/-- Go `reflect.Zero(val.Type())`: the zero value of the type of `val`. -/
def zero : GoValue → GoValue
  | nil => nil
  | int _ => int 0
  | uint _ => uint 0
  | bool _ => bool false
  | str _ => str ""
  | named typ _ => named typ ""
  | nilPtr => nilPtr
  | ptrTo _ => nilPtr

end GoValue

/-- Function `isZero` of `validator/utils.go`: `reflect.DeepEqual` of the value
and the zero value of its type. -/
def isZero (val : GoValue) : Bool :=
  decide (val = val.zero)

/-! ## Validation rules and the rule registry -/

/-- Type `validator.RuleFunc`. -/
abbrev RuleFunc := GoValue → String → Option GoError

/-- Function `requiredRule`; `ErrFieldRequired` is the package variable of that
name, built at start-up from the error catalog. -/
def requiredRule (ErrFieldRequired : GoError) : RuleFunc := fun value _ =>
  if value = GoValue.nil then some ErrFieldRequired
  else if value = GoValue.nilPtr then some ErrFieldRequired
  else if isZero value then some ErrFieldRequired
  else none

/-- Function `GetValidator`, reading the registry `validators`. -/
def GetValidator (validators : GoMap RuleFunc) (name : String) : Option RuleFunc :=
  validators.get name

/-- Function `RegisterValidator`. -/
def RegisterValidator (validators : GoMap RuleFunc) (name : String) (fn : RuleFunc) :
    GoMap RuleFunc :=
  validators.set name fn

/-- Function `ruleContains`. -/
def ruleContains : List String → String → Bool
  | [], _ => false
  | rule :: rest, target =>
    let rule := TrimSpace rule
    if HasPrefix rule (target ++ "=") || rule = target then true
    else ruleContains rest target

/-! ## ValidateStruct -/

/-- One field of the validated struct: what `typ.Field(i)` and `val.Field(i)`
give. `jsonTag` and `validationTag` are `Tag.Get("json")` and
`Tag.Get("validation")`. -/
structure StructField where
  Name : String
  PkgPath : String
  jsonTag : String
  validationTag : String
  value : GoValue
  deriving DecidableEq, Repr

/-- One invocation of a rule function: the index of the field it was invoked
for and the arguments. -/
structure RuleCall where
  field : Nat
  name : String
  value : GoValue
  param : String
  deriving DecidableEq, Repr

/-- Key under which the errors of a field are recorded (`fieldName`). -/
def fieldName (f : StructField) : String :=
  if f.jsonTag = "" ∨ f.jsonTag = "-" then f.Name
  else (Split f.jsonTag ',').headD ""

/-- Name part of a rule token: `strings.SplitN(strings.TrimSpace(rule), "=", 2)[0]`. -/
def ruleName (rule : String) : String :=
  (SplitN2 (TrimSpace rule) '=').1

/-- Parameter part of a rule token: `parts[1]` when there are two parts, else `""`. -/
def ruleParam (rule : String) : String :=
  ((SplitN2 (TrimSpace rule) '=').2).getD ""

/-- The loop over the rules of one present field. The state is the error map
and the log of rule invocations so far. -/
def runRules (validators : GoMap RuleFunc) (i : Nat) (name : String) (fieldValue : GoValue) :
    List String → Errors × List RuleCall → Errors × List RuleCall
  | [], st => st
  | rule :: rest, (errors, calls) =>
    if errors.has name then (errors, calls)
    else
      match GetValidator validators (ruleName rule) with
      | none => runRules validators i name fieldValue rest (errors, calls)
      | some fn =>
        let calls := calls ++ [⟨i, ruleName rule, fieldValue, ruleParam rule⟩]
        match fn fieldValue (ruleParam rule) with
        | some err => runRules validators i name fieldValue rest (errors.set name err, calls)
        | none => runRules validators i name fieldValue rest (errors, calls)

/-- The value the rules of a present field are given: the field itself, or what
it points to when it is a pointer (`fieldValue`). -/
def fieldValue (f : StructField) : GoValue :=
  match f.value with
  | GoValue.ptrTo elem => elem
  | v => v

/-- Body of the loop over the fields, for field number `i`. -/
def validateField (validators : GoMap RuleFunc) (i : Nat) (f : StructField)
    (st : Errors × List RuleCall) : Errors × List RuleCall :=
  if f.PkgPath ≠ "" then st
  else
    let rules := Split f.validationTag ','
    if f.value = GoValue.nilPtr then
      if ruleContains rules "required" then
        match GetValidator validators "required" with
        | some fn =>
          let calls := st.2 ++ [⟨i, "required", GoValue.nil, ""⟩]
          match fn GoValue.nil "" with
          | some err => (st.1.set (fieldName f) err, calls)
          | none => (st.1, calls)
        | none => st
      else st
    else runRules validators i (fieldName f) (fieldValue f) rules st

/-- The loop over the fields, from field number `i` on. -/
def validateFields (validators : GoMap RuleFunc) :
    Nat → List StructField → Errors × List RuleCall → Errors × List RuleCall
  | _, [], st => st
  | i, f :: rest, st => validateFields validators (i + 1) rest (validateField validators i f st)

/-- State at the end of the loop of `ValidateStruct`: the error map and the rule
invocations made. -/
def validateLoop (validators : GoMap RuleFunc) (dest : List StructField) :
    Errors × List RuleCall :=
  validateFields validators 0 dest ([], [])

/-- Function `ValidateStruct`: nil when the error map is empty, else the map. -/
def ValidateStruct (validators : GoMap RuleFunc) (dest : List StructField) : Option GoError :=
  let errors := (validateLoop validators dest).1
  if errors.length > 0 then some (GoError.aggregate errors) else none

/-- Rule invocations made by `ValidateStruct`, in order. -/
def ruleCalls (validators : GoMap RuleFunc) (dest : List StructField) : List RuleCall :=
  (validateLoop validators dest).2

/-- Entry of a validation result under a key: none for a nil result. -/
def entryOf (result : Option GoError) (key : String) : Option GoError :=
  match result with
  | some (GoError.aggregate errs) => GoMap.get errs key
  | _ => none

/-- Keys of a validation result: none for a nil result. -/
def keysOf (result : Option GoError) : List String :=
  match result with
  | some (GoError.aggregate errs) => GoMap.keys errs
  | _ => []

/-! ## Error texts (package `errors`) -/

/-- Method `Error.Code`. -/
def Error.Code (err : Gapp.Error) : Int := err.code

/-- Method `Error.HttpStatus`. -/
def Error.HttpStatus (err : Gapp.Error) : Int := err.httpStatus

set_option linter.dupNamespace false in
/-- Method `Error.Error`. -/
def Error.Error (err : Gapp.Error) : String :=
  match err.err with
  | some text =>
    match err.localMessages.get English with
    | some message => message
    | none => text
  | none => "something went wrong (code " ++ toString err.code ++ ")"

/-- Method `Error.LocalizedError`. -/
def Error.LocalizedError (err : Gapp.Error) (tag : Tag) : String :=
  match err.localMessages.get tag with
  | some msg => msg
  | none => err.Error

/-- Go string comparison `a < b` (byte-wise, which on UTF-8 text is the order of
the code points). -/
def ltChars : List Char → List Char → Bool
  | [], [] => false
  | [], _ :: _ => true
  | _ :: _, [] => false
  | a :: as, b :: bs =>
    if a.toNat < b.toNat then true
    else if b.toNat < a.toNat then false
    else ltChars as bs

/-- Insertion of a key into a key list sorted in ascending order. -/
def insertKey (k : String × String) : List (String × String) → List (String × String)
  | [] => [k]
  | a :: rest => if ltChars k.1.data a.1.data then k :: a :: rest else a :: insertKey k rest

/-- The entries ordered by key, as `sort.Strings(keys)` orders the keys. -/
def sortByKey : List (String × String) → List (String × String)
  | [] => []
  | a :: rest => insertKey a (sortByKey rest)

/-- The entries of `Errors.Error` joined by `"; "`. -/
def joinEntries : List String → String
  | [] => ""
  | [a] => a
  | a :: rest => a ++ "; " ++ joinEntries rest

mutual

/-- Method `Error()` of an error value; for an aggregate this is `Errors.Error`:
empty text for the empty map, else the entries in ascending key order, joined
by `"; "` and closed by `"."`. -/
def GoError.Error : GoError → String
  | GoError.coded e => e.Error
  | GoError.plain text => text
  | GoError.aggregate errs =>
    match errs with
    | [] => ""
    | entry :: rest =>
      joinEntries ((sortByKey (errorEntries (entry :: rest))).map Prod.snd) ++ "."

/-- The text `Errors.Error` writes for each key of the map. -/
def errorEntries : List (String × GoError) → List (String × String)
  | [] => []
  | (key, GoError.aggregate ers) :: rest =>
    (key, key ++ ": (" ++ (GoError.aggregate ers).Error ++ ")") :: errorEntries rest
  | (key, GoError.coded er) :: rest =>
    (key, key ++ ": " ++
      (match er.localMessages.get English with
       | some message => message
       | none => er.Error)) :: errorEntries rest
  | (key, GoError.plain text) :: rest =>
    (key, key ++ ": " ++ text) :: errorEntries rest

end

/-! ## JSON documents and responses -/

/-- What `json.NewEncoder(w).Encode` is given, as a JSON document. -/
inductive Json where
  | null
  | bool (b : Bool)
  | num (n : Int)
  | str (s : String)
  | arr (items : List Json)
  | obj (members : List (String × Json))

mutual

/-- The value stored for one error by `Errors.LocalizedError`. -/
def localizeValue (tag : Tag) : GoError → Json
  | GoError.aggregate ers => Json.obj (localizeLoop tag ers [])
  | GoError.coded er => Json.str (er.LocalizedError tag)
  | GoError.plain text => Json.str text

/-- The loop `for key, err := range errs` of `Errors.LocalizedError`, writing
`result[key]`. -/
def localizeLoop (tag : Tag) : List (String × GoError) → GoMap Json → GoMap Json
  | [], result => result
  | (key, err) :: rest, result => localizeLoop tag rest (result.set key (localizeValue tag err))

end

/-- Method `Errors.LocalizedError`. -/
def Errors.LocalizedError (errs : Errors) (tag : Tag) : GoMap Json :=
  localizeLoop tag errs []

/-! ## Request context and response helpers (`app.go`) -/

/-- Body written to the response writer. -/
inductive Body where
  | json (doc : Json)
  | text (s : String)

/-- One response written to the `http.ResponseWriter`: the status given to
`WriteHeader`, the `Content-Type` header and the body. -/
structure Response where
  status : Int
  contentType : String
  body : Body

/-- Struct `Context`. `writer` is the list of responses written so far. `ran` is
a ghost field: the labels of the pipeline stages that have run, in order. -/
structure Context where
  writer : List Response
  httpStatus : Int
  locale : Tag
  Params : GoMap String
  ran : List String

namespace Context

/-- Method `Context.UseLocale`. -/
def UseLocale (c : Context) (l : Tag) : Context := { c with locale := l }

/-- Method `Context.Locale`. -/
def Locale (c : Context) : Tag := c.locale

/-- Method `Context.HttpStatus`. -/
def HttpStatus (c : Context) : Int := c.httpStatus

/-- Method `Context.JSON`: header, status line and encoded document. -/
def JSON (c : Context) (code : Int) (data : Json) : Context :=
  { c with writer := c.writer ++ [⟨code, "application/json", Body.json data⟩] }

/-- Method `Context.mapError`. -/
def mapError (c : Context) (err : Error) : Context :=
  let c := { c with httpStatus := err.HttpStatus }
  c.JSON err.HttpStatus
    (Json.obj [("code", Json.num err.Code),
      ("data", Json.obj [("description", Json.str (err.LocalizedError c.locale))])])

/-- The generic branch shared by the helpers: the fixed status, the status as
text under `code`, and the description under the key `key`. -/
def generic (c : Context) (status : Int) (key : String) (description : String) : Context :=
  let c := { c with httpStatus := status }
  c.JSON c.httpStatus
    (Json.obj [("code", Json.str (toString c.httpStatus)),
      (key, Json.obj [("description", Json.str description)])])

/-- Method `Context.Unauthorized`. -/
def Unauthorized (c : Context) (err : GoError) : Context × GoError :=
  match err with
  | GoError.coded er => (c.mapError er, err)
  | _ => (c.generic 401 "data" ("general unautorized error: " ++ err.Error), err)

/-- Method `Context.BadInput`. -/
def BadInput (c : Context) (err : GoError) : Context × GoError :=
  match err with
  | GoError.coded er => (c.mapError er, err)
  | GoError.aggregate ers =>
    let c := { c with httpStatus := 400 }
    (c.JSON c.httpStatus
      (Json.obj [("code", Json.str (toString c.httpStatus)),
        ("data", Json.obj (Errors.LocalizedError ers c.locale))]), err)
  | _ => (c.generic 400 "data" ("general input error: " ++ err.Error), err)

/-- Method `Context.NotAllowed`. -/
def NotAllowed (c : Context) (err : GoError) : Context × GoError :=
  match err with
  | GoError.coded er => (c.mapError er, err)
  | _ => (c.generic 405 "data" ("general not allowed error: " ++ err.Error), err)

/-- Method `Context.BadGateway`. -/
def BadGateway (c : Context) (err : GoError) : Context × GoError :=
  match err with
  | GoError.coded er => (c.mapError er, err)
  | _ => (c.generic 502 "data" ("general bad gateway error: " ++ err.Error), err)

/-- Method `Context.ServerError`. -/
def ServerError (c : Context) (err : GoError) : Context × GoError :=
  match err with
  | GoError.coded er => (c.mapError er, err)
  | _ => (c.generic 500 "error" ("general server error: " ++ err.Error), err)

end Context

/-! ## Router and dispatch (`app.go`) -/

/-- The loop of `matchRoute` over the pattern segments, with the path segments
at the same positions. -/
def matchParts : List String → List String → GoMap String → Option (GoMap String)
  | [], _, params => some params
  | _ :: _, [], _ => none
  | part :: parts, pathPart :: pathParts, params =>
    if HasPrefix part ":" then matchParts parts pathParts (params.set (dropFirst part) pathPart)
    else if part ≠ pathPart then none
    else matchParts parts pathParts params

/-- Function `matchRoute`: the parameters when the pattern matches the path. -/
def matchRoute (pattern path : String) : Option (GoMap String) :=
  let parts := Split pattern '/'
  let pathParts := Split path '/'
  if parts.length ≠ pathParts.length then none
  else matchParts parts pathParts []

/-- Type `HandlerFunc`: the context after the call and the error returned. -/
abbrev HandlerFunc := Context → Context × Option GoError

/-- Type `MiddlewareFunc`. -/
abbrev MiddlewareFunc := HandlerFunc → HandlerFunc

/-- Struct `routeEntry`. -/
structure routeEntry where
  handler : HandlerFunc
  middleware : List MiddlewareFunc

/-- Struct `Router`, without the `routes` map, which every router of an
application shares and which is kept in `App`. -/
structure Router where
  routePrefix : String
  middleware : List MiddlewareFunc

/-- Struct `App`, with the `routes` map of its routers. -/
structure App where
  routes : GoMap (GoMap routeEntry)
  router : Router
  mw : List MiddlewareFunc

/-- Function `New`. -/
def New : App :=
  { routes := [], router := { routePrefix := "", middleware := [] }, mw := [] }

/-- Method `App.Use`. -/
def App.Use (app : App) (mw : List MiddlewareFunc) : App :=
  { app with mw := app.mw ++ mw }

/-- Method `Router.Group`. -/
def Router.Group (r : Router) (pfx : String) (mws : List MiddlewareFunc) : Router :=
  { routePrefix := r.routePrefix ++ pfx, middleware := [] ++ (r.middleware ++ mws) }

/-- Method `Router.Use`. -/
def Router.Use (r : Router) (mws : List MiddlewareFunc) : Router :=
  { r with middleware := r.middleware ++ mws }

/-- Method `Router.handle`, writing the shared `routes` map. -/
def Router.handle (r : Router) (app : App) (method path : String) (h : HandlerFunc)
    (mws : List MiddlewareFunc) : App :=
  let allMiddleware := ([] ++ r.middleware) ++ mws
  { app with
    routes := app.routes.set method
      (((app.routes.get method).getD []).set path ⟨h, allMiddleware⟩) }

/-- Method `Router.GET`. -/
def Router.GET (r : Router) (app : App) (path : String) (h : HandlerFunc)
    (mws : List MiddlewareFunc) : App :=
  r.handle app "GET" (r.routePrefix ++ path) h mws

/-- Method `Router.POST`. -/
def Router.POST (r : Router) (app : App) (path : String) (h : HandlerFunc)
    (mws : List MiddlewareFunc) : App :=
  r.handle app "POST" (r.routePrefix ++ path) h mws

/-- The loops of `ServeHTTP` that run `final = mws[i](final)` for `i` from
`len(mws) - 1` down to `0`. -/
def wrap (mws : List MiddlewareFunc) (final : HandlerFunc) : HandlerFunc :=
  mws.reverse.foldl (fun final mw => mw final) final

/-- The route search of `ServeHTTP` over the routes of one method, in the order
the map is ranged over: the first route whose pattern matches. -/
def findRoute : GoMap routeEntry → String → Option (GoMap String × routeEntry)
  | [], _ => none
  | (route, e) :: rest, path =>
    match matchRoute route path with
    | some params => some (params, e)
    | none => findRoute rest path

/-- The context `ServeHTTP` creates for a request. -/
def freshContext : Context :=
  { writer := [], httpStatus := 0, locale := "", Params := [], ran := [] }

/-- Method `App.ServeHTTP` for a request with the given method and path: the
context at the end and the error the chain returned (the log line is left out). -/
def App.ServeHTTP (app : App) (method path : String) : Context × Option GoError :=
  let ctx := freshContext
  match findRoute ((app.routes.get method).getD []) path with
  | none =>
    ({ ctx with writer := ctx.writer ++
        [⟨404, "text/plain; charset=utf-8", Body.text "404 page not found\n"⟩] }, none)
  | some (params, entry) =>
    let ctx := { ctx with Params := params }
    let final := wrap entry.middleware entry.handler
    let final := wrap app.mw final
    final ctx

/-! ## Reading the router's behaviour -/

/-- A pattern segment that is a capture `:name`. -/
def isCapture (part : String) : Bool :=
  HasPrefix part ":"

/-- The capture names of a list of pattern segments, in order. -/
def captureNames (parts : List String) : List String :=
  (parts.filter isCapture).map dropFirst

/-- A pipeline stage that records its label and then invokes its successor, or
returns without invoking it. -/
def stage (s : String × Bool) : MiddlewareFunc := fun next ctx =>
  let ctx := { ctx with ran := ctx.ran ++ [s.1] }
  if s.2 then next ctx else (ctx, none)

/-- A handler that records its label. -/
def labelled (h : String) : HandlerFunc := fun ctx =>
  ({ ctx with ran := ctx.ran ++ [h] }, none)

/-- The labels a sequence of stages is expected to record: those of the stages
up to and including the first one that does not invoke its successor, followed
by `tail` when every stage invokes its successor. -/
def expectedRun : List (String × Bool) → List String → List String
  | [], tail => tail
  | (l, true) :: rest, tail => l :: expectedRun rest tail
  | (l, false) :: _, _ => [l]

/-! ## Reading the response helpers' behaviour -/

/-- The envelope of a coded error: `code` is the error's code, `data` holds the
description localized in the given locale. -/
def codedEnvelope (e : Gapp.Error) (tag : Tag) : Json :=
  Json.obj [("code", Json.num e.Code),
    ("data", Json.obj [("description", Json.str (e.LocalizedError tag))])]

/-- The context after a helper has set the status and written one JSON
response with that status. -/
def responded (c : Context) (status : Int) (doc : Json) : Context :=
  { c with httpStatus := status,
           writer := c.writer ++ [⟨status, "application/json", Body.json doc⟩] }

/-- The value the specification gives a key of the localized field map: the
localized message of a coded error, the localized map of a nested aggregate,
the text of any other error. -/
def localizedEntry (tag : Tag) : Option GoError → Option Json
  | none => none
  | some (GoError.coded e) => some (Json.str (e.LocalizedError tag))
  | some (GoError.aggregate a) => some (Json.obj (Errors.LocalizedError a tag))
  | some (GoError.plain text) => some (Json.str text)

/-! ## Reading the validator's behaviour -/

/-- The error a rule token yields on a value: that of its rule function when the
name is registered and the function fails, none otherwise. -/
def ruleError (validators : GoMap RuleFunc) (v : GoValue) (rule : String) : Option GoError :=
  match GetValidator validators (ruleName rule) with
  | some fn => fn v (ruleParam rule)
  | none => none

/-- The invocations that running every registered token of a rule list on the
value of field `i` makes, in order. -/
def callsFor (validators : GoMap RuleFunc) (i : Nat) (v : GoValue) : List String → List RuleCall
  | [] => []
  | rule :: rest =>
    match GetValidator validators (ruleName rule) with
    | some _ => ⟨i, ruleName rule, v, ruleParam rule⟩ :: callsFor validators i v rest
    | none => callsFor validators i v rest

/-- An exported field. -/
def exported (f : StructField) : Bool :=
  decide (f.PkgPath = "")

/-- Whether the registered `required` rule fails on the absent value. -/
def requiredFailsOnNil (validators : GoMap RuleFunc) : Bool :=
  match GetValidator validators "required" with
  | some fn => (fn GoValue.nil "").isSome
  | none => false

/-- A field has a failing rule, in the words of the specification: an absent
optional field when `required` is among its rules and fails on the absent
value; a present field when one of its rules is registered and fails on the
field's value. -/
def hasFailingRule (validators : GoMap RuleFunc) (f : StructField) : Bool :=
  if f.value = GoValue.nilPtr then
    (Split f.validationTag ',').any (fun rule => decide (ruleName rule = "required")) &&
      requiredFailsOnNil validators
  else
    (Split f.validationTag ',').any
      (fun rule => (ruleError validators (fieldValue f) rule).isSome)

/-- The value of a field is the zero value of its type, or a non-nil pointer to
the zero value of the type pointed to (the condition of the specification for
`required` to fail). -/
def zeroOrPointsToZero (v : GoValue) : Bool :=
  decide (v = v.zero) ||
    match v with
    | GoValue.ptrTo elem => decide (elem = elem.zero)
    | _ => false

/-! ## Success helper (`app.go`) -/

/-- Method `Context.Success`; `data` is the payload as the encoder is given it. -/
def Context.Success (c : Context) (data : Json) : Context :=
  let c := { c with httpStatus := 200 }
  c.JSON c.httpStatus (Json.obj [("code", Json.str (toString c.httpStatus)), ("data", data)])

/-- The envelope of the generic branch of a helper: `code` is the status as
text, and the description stands under the key `key`. -/
def genericEnvelope (code key description : String) : Json :=
  Json.obj [("code", Json.str code), (key, Json.obj [("description", Json.str description)])]

/-- The member of a JSON object under a key, none when there is none or the
document is no object. -/
def Json.member (doc : Json) (key : String) : Option Json :=
  match doc with
  | Json.obj members => GoMap.get members key
  | _ => none

/-! ## Numbers in text (package `strconv`) -/

/-- Test of a decimal digit `'0' <= c && c <= '9'`. -/
def isDigit (c : Char) : Bool :=
  48 ≤ c.toNat && c.toNat ≤ 57

/-- The number a list of decimal digits denotes, read as the parsing loop reads
it: `n = n*10 + (c - '0')` for each digit in turn. -/
def decimal (digits : List Char) : Nat :=
  digits.foldl (fun n c => n * 10 + (c.toNat - 48)) 0

/-- The digits of `strconv.Atoi` after the sign: a syntax error gives 0, a value
out of the range of a 64-bit `int` gives the nearest bound; the flag tells
whether the error is nil. -/
def atoiDigits (negative : Bool) (digits : List Char) : Int × Bool :=
  if digits = [] ∨ ¬ digits.all isDigit = true then (0, false)
  else if negative then
    if decimal digits > 2 ^ 63 then (-(2 ^ 63 : Int), false) else (-(decimal digits : Int), true)
  else
    if decimal digits ≥ 2 ^ 63 then ((2 ^ 63 : Int) - 1, false) else ((decimal digits : Int), true)

/-- Go `strconv.Atoi(s)` with a 64-bit `int`: the value and whether the error is nil. -/
def Atoi (s : String) : Int × Bool :=
  match s.data with
  | '-' :: digits => atoiDigits true digits
  | '+' :: digits => atoiDigits false digits
  | digits => atoiDigits false digits

/-- Go `len(s)` of a string: its length in bytes. -/
def len (s : String) : Nat :=
  s.utf8ByteSize

/-! ## Error catalog and constructors (package `errors`) -/

/-- Struct `locale.LangPackage`. -/
structure LangPackage where
  Tag : Gapp.Tag
  Message : String
  deriving DecidableEq, Repr

/-- Struct `errors.ErrAttr`. -/
structure ErrAttr where
  HttpStatus : Int
  Code : Int
  Messages : List LangPackage
  deriving DecidableEq, Repr

/-- Struct `rawYAMLErrors`: a catalog file as `yaml.Unmarshal` decodes it. -/
structure rawYAMLErrors where
  HttpStatus : Int
  Errors : GoMap (GoMap String)

/-- The loop of `collectBuildinErrors` over the records of a catalog file,
writing `errorLangPack[key]`. A map read `val[k]` of a key that is not there
gives the empty string. -/
def collectLoop (httpStatus : Int) :
    List (String × GoMap String) → GoMap ErrAttr → GoMap ErrAttr
  | [], errorLangPack => errorLangPack
  | (key, val) :: rest, errorLangPack =>
    collectLoop httpStatus rest
      (errorLangPack.set key
        { HttpStatus := httpStatus,
          Code := (Atoi ((val.get "code").getD "")).1,
          Messages := [⟨English, (val.get English).getD ""⟩,
                       ⟨Bahasa, (val.get Bahasa).getD ""⟩] })

/-- Function `collectBuildinErrors`, on the decoded file. -/
def collectBuildinErrors (raw : rawYAMLErrors) (errorLangPack : GoMap ErrAttr) :
    GoMap ErrAttr :=
  collectLoop raw.HttpStatus raw.Errors errorLangPack

/-- The catalog `errorLangPack` after the catalog files have been loaded in turn
by the `init` functions of the package. -/
def loadCatalog (files : List rawYAMLErrors) : GoMap ErrAttr :=
  files.foldl (fun errorLangPack raw => collectBuildinErrors raw errorLangPack) []

/-- The loops `for _, msg := range messages` of the constructors, writing
`localMessages[msg.Tag]` with the message passed through `f`. -/
def setMessages (f : String → String) : List LangPackage → GoMap String → GoMap String
  | [], localMessages => localMessages
  | msg :: rest, localMessages =>
    setMessages f rest (localMessages.set msg.Tag (f msg.Message))

/-- Function `registerBuiltinError`; none stands for the panic of `log.Panic`.
`sprintf` is `fmt.Sprintf`. -/
def registerBuiltinError (sprintf : String → List GoValue → String)
    (errorLangPack : GoMap ErrAttr) (key : String) (args : List GoValue) : Option Gapp.Error :=
  match errorLangPack.get key with
  | some langPack =>
    let localMessages := setMessages (fun m => sprintf m args) langPack.Messages []
    some
      { code := langPack.Code,
        httpStatus := langPack.HttpStatus,
        localMessages := localMessages,
        err := some ((localMessages.get English).getD "") }
  | none => none

/-- Function `New` of package `errors`; `attr` is none for a nil pointer.
`sprintf` is `fmt.Sprintf`. -/
def errpkg.New (sprintf : String → List GoValue → String) (errorLangPack : GoMap ErrAttr)
    (key : String) (attr : Option ErrAttr) (args : List GoValue) : Gapp.Error :=
  match errorLangPack.get key with
  | some langPack =>
    { err := some key,
      httpStatus := langPack.HttpStatus,
      code := langPack.Code,
      localMessages := setMessages (fun m => sprintf m args) langPack.Messages [] }
  | none =>
    match attr with
    | some attr =>
      { err := some key,
        httpStatus := if attr.HttpStatus ≠ 0 then attr.HttpStatus else 500,
        code := if attr.Code ≠ 0 then attr.Code else 500,
        localMessages := setMessages (fun m => m) attr.Messages [] }
    | none => { err := some key, httpStatus := 500, code := 500, localMessages := [] }

/-! ## Reading the error package's behaviour -/

/-- The message a list of language packages gives for a tag: that of the last
package carrying the tag. -/
def messageFor : List LangPackage → Tag → Option String
  | [], _ => none
  | msg :: rest, tag =>
    match messageFor rest tag with
    | some m => some m
    | none => if msg.Tag = tag then some msg.Message else none

/-- The resolution of the specification: the message for the tag, else the
message for English, else the given raw text. -/
def resolveMessage (messages : GoMap String) (tag : Tag) (raw : String) : String :=
  match messages.get tag with
  | some m => m
  | none =>
    match messages.get English with
    | some m => m
    | none => raw

/-- A catalog entry as `collectBuildinErrors` writes it: one language package
for English followed by one for Bahasa. -/
def loadedEntry (a : ErrAttr) : Prop :=
  ∃ en id, a.Messages = [⟨English, en⟩, ⟨Bahasa, id⟩]

/-- The status or code `New` gives an error whose identifier is not in the
catalog: the caller's when attributes are given and it is not zero, else 500. -/
def suppliedOr500 (attr : Option ErrAttr) (pick : ErrAttr → Int) : Int :=
  match attr with
  | some a => if pick a ≠ 0 then pick a else 500
  | none => 500

/-- The messages the caller supplies to `New`: none without attributes. -/
def suppliedMessage (attr : Option ErrAttr) (tag : Tag) : Option String :=
  match attr with
  | some a => messageFor a.Messages tag
  | none => none

/-! ## Sample catalog -/

/-- Text of an operand under the verbs `%d`, `%s` and `%v`. -/
def operandText : GoValue → String
  | GoValue.int n => toString n
  | GoValue.uint n => toString n
  | GoValue.str s => s
  | GoValue.named _ s => s
  | GoValue.bool b => toString b
  | _ => "<nil>"

/-- Formatting of a template, character by character. -/
def formatChars : List Char → List GoValue → List Char
  | [], _ => []
  | '%' :: '%' :: rest, args => '%' :: formatChars rest args
  | '%' :: _ :: rest, a :: args => (operandText a).data ++ formatChars rest args
  | c :: rest, args => c :: formatChars rest args

/-- A formatter that agrees with `fmt.Sprintf` on templates whose verbs are
`%d`, `%s`, `%v` and `%%`, given one integer, string or boolean operand of the
fitting kind for each verb. -/
def sampleSprintf (template : String) (args : List GoValue) : String :=
  String.mk (formatChars template.data args)

/-- A catalog file of status 400: `ErrFieldRequired` has an English message
only, `ErrFieldBelowMinimum` has a template in both languages. -/
def sampleFile : rawYAMLErrors :=
  { HttpStatus := 400,
    Errors :=
      [("ErrFieldRequired", [("code", "4001"), ("en", "field is required")]),
       ("ErrFieldBelowMinimum",
        [("code", "4002"), ("en", "must be at least %d"), ("id", "minimal %d")])] }

/-! ## Regular expressions (package `regexp`) -/

/-- The syntax of the patterns the rules compile: character classes,
concatenation, alternation and repetition. -/
inductive Regex where
  /-- Matches no text. -/
  | never
  /-- Matches the empty text. -/
  | empty
  /-- One character of a class, given by its membership test. -/
  | cls (p : Char → Bool)
  /-- The pattern `r s`. -/
  | seq (r s : Regex)
  /-- The pattern `r|s`. -/
  | alt (r s : Regex)
  /-- The pattern `r*`. -/
  | star (r : Regex)

namespace Regex

/-- The pattern `r+`. -/
def plus (r : Regex) : Regex := seq r (star r)

/-- The pattern `r{2,}`. -/
def atLeastTwo (r : Regex) : Regex := seq r (seq r (star r))

/-- Whether the pattern matches the empty text. -/
def nullable : Regex → Bool
  | never => false
  | empty => true
  | cls _ => false
  | seq r s => r.nullable && s.nullable
  | alt r s => r.nullable || s.nullable
  | star _ => true

/-- The pattern matching what is left of a match after the character `c`. -/
def deriv : Regex → Char → Regex
  | never, _ => never
  | empty, _ => never
  | cls p, c => if p c then empty else never
  | seq r s, c =>
    if r.nullable then alt (seq (r.deriv c) s) (s.deriv c) else seq (r.deriv c) s
  | alt r s, c => alt (r.deriv c) (s.deriv c)
  | star r, c => seq (r.deriv c) (star r)

/-- Whether the pattern matches the whole of a text. -/
def matchChars : Regex → List Char → Bool
  | r, [] => r.nullable
  | r, c :: cs => matchChars (r.deriv c) cs

/-- Method `MatchString` of a pattern that is anchored by `^` and `$`: the
pattern between the anchors has to match the whole string. -/
def MatchString (re : Regex) (s : String) : Bool :=
  re.matchChars s.data

/-- The texts a pattern matches. -/
def lang : Regex → List Char → Prop
  | never, _ => False
  | empty, w => w = []
  | cls p, w => ∃ c, w = [c] ∧ p c = true
  | seq r s, w => ∃ u v, w = u ++ v ∧ r.lang u ∧ s.lang v
  | alt r s, w => r.lang w ∨ s.lang w
  | star r, w => ∃ ws : List (List Char), w = ws.flatten ∧ ∀ u ∈ ws, u ≠ [] ∧ r.lang u

end Regex

/-- Class `[a-zA-Z]`. -/
def isLetter (c : Char) : Bool :=
  (97 ≤ c.toNat && c.toNat ≤ 122) || (65 ≤ c.toNat && c.toNat ≤ 90)

/-- Class `[a-zA-Z0-9._%+\-]`. -/
def isLocalChar (c : Char) : Bool :=
  isLetter c || isDigit c || c = '.' || c = '_' || c = '%' || c = '+' || c = '-'

/-- Class `[a-zA-Z0-9.\-]`. -/
def isDomainChar (c : Char) : Bool :=
  isLetter c || isDigit c || c = '.' || c = '-'

/-- Pattern `emailRe`: `^[a-zA-Z0-9._%+\-]+@[a-zA-Z0-9.\-]+\.[a-zA-Z]{2,}$`. -/
def emailRe : Regex :=
  Regex.seq (Regex.plus (Regex.cls isLocalChar))
    (Regex.seq (Regex.cls (fun c => c = '@'))
      (Regex.seq (Regex.plus (Regex.cls isDomainChar))
        (Regex.seq (Regex.cls (fun c => c = '.'))
          (Regex.atLeastTwo (Regex.cls isLetter)))))

/-! ## Length and format rules (`validator/rules.go`) -/

/-- Function `minlenRule`; `ErrFieldBelowMinimum` is the package variable of that
name, a function building the error from the catalog. -/
def minlenRule (ErrFieldBelowMinimum : Int → GoError) : RuleFunc := fun value param =>
  let min := (Atoi param).1
  match value with
  | GoValue.str s => if (len s : Int) < min then some (ErrFieldBelowMinimum min) else none
  | _ => none

/-- Function `maxlenRule`; `ErrFieldAboveMaximum` is the package variable of that
name, a function building the error from the catalog. -/
def maxlenRule (ErrFieldAboveMaximum : Int → GoError) : RuleFunc := fun value param =>
  let max := (Atoi param).1
  match value with
  | GoValue.str s => if (len s : Int) > max then some (ErrFieldAboveMaximum max) else none
  | _ => none

/-- Function `emailRule`; `ErrFieldMustBeEmail` is the package variable of that name. -/
def emailRule (ErrFieldMustBeEmail : GoError) : RuleFunc := fun value _ =>
  match value with
  | GoValue.str s => if !emailRe.MatchString s then some ErrFieldMustBeEmail else none
  | _ => none

/-! ## Reading the rules' behaviour -/

/-- The text `param` is a decimal numeral of the integer `n`: an optional sign
followed by one or more decimal digits. -/
def denotes (param : String) (n : Int) : Prop :=
  ∃ digits : List Char, digits ≠ [] ∧ digits.all isDigit = true ∧
    ((param.data = digits ∧ n = (decimal digits : Int)) ∨
     (param.data = '+' :: digits ∧ n = (decimal digits : Int)) ∨
     (param.data = '-' :: digits ∧ n = -(decimal digits : Int)))

/-- The form `local@domain.tld` of the specification: one or more characters of
`[A-Za-z0-9._%+-]`, an `@`, one or more characters of `[A-Za-z0-9.-]`, a dot,
and two or more ASCII letters, with nothing before or after. -/
def emailForm (w : List Char) : Prop :=
  ∃ l d t : List Char, w = l ++ '@' :: (d ++ '.' :: t) ∧
    l ≠ [] ∧ (∀ c ∈ l, isLocalChar c = true) ∧
    d ≠ [] ∧ (∀ c ∈ d, isDomainChar c = true) ∧
    2 ≤ t.length ∧ (∀ c ∈ t, isLetter c = true)

/-- The error function `ErrFieldBelowMinimum` over the sample catalog. -/
def sampleBelowMinimum (min : Int) : GoError :=
  match registerBuiltinError sampleSprintf (loadCatalog [sampleFile]) "ErrFieldBelowMinimum"
      [GoValue.int min] with
  | some e => GoError.coded e
  | none => GoError.plain "panic"

/-- An error function standing for `ErrFieldAboveMaximum`. -/
def sampleAboveMaximum (max : Int) : GoError :=
  GoError.plain ("must be at most " ++ toString max)

/-- The `code` member of the JSON document written last to the response writer. -/
def lastCode (c : Context) : Option Json :=
  match c.writer.getLast? with
  | some ⟨_, _, Body.json doc⟩ => doc.member "code"
  | _ => none

/-! ## Character class rules (`validator/rules.go`) -/

/-- Class `[a-zA-Z0-9]`. -/
def isAlphanum (c : Char) : Bool :=
  isLetter c || isDigit c

/-- Pattern `digitRe`: `^\d+$`, the class `\d` being `[0-9]`. -/
def digitRe : Regex := Regex.plus (Regex.cls isDigit)

/-- Pattern `alphanumRe`: `^[a-zA-Z0-9]+$`. -/
def alphanumRe : Regex := Regex.plus (Regex.cls isAlphanum)

/-- Pattern `alphaRe`: `^[a-zA-Z]+$`. -/
def alphaRe : Regex := Regex.plus (Regex.cls isLetter)

/-- Function `digitRule`; `ErrFieldMustBeDigit` is the package variable of that name. -/
def digitRule (ErrFieldMustBeDigit : GoError) : RuleFunc := fun value _ =>
  match value with
  | GoValue.str s => if !digitRe.MatchString s then some ErrFieldMustBeDigit else none
  | _ => some ErrFieldMustBeDigit

/-- Function `alphanunRule`; `ErrFieldMustBeAlphanum` is the package variable of
that name. -/
def alphanunRule (ErrFieldMustBeAlphanum : GoError) : RuleFunc := fun value _ =>
  match value with
  | GoValue.str s => if !alphanumRe.MatchString s then some ErrFieldMustBeAlphanum else none
  | _ => some ErrFieldMustBeAlphanum

/-- Function `alphabetRule`; `ErrFieldMustBeAlphabet` is the package variable of
that name. -/
def alphabetRule (ErrFieldMustBeAlphabet : GoError) : RuleFunc := fun value _ =>
  match value with
  | GoValue.str s => if !alphaRe.MatchString s then some ErrFieldMustBeAlphabet else none
  | _ => some ErrFieldMustBeAlphabet

/-! ## Locale middleware (`middleware/locale_wrapper.go`) -/

/-- Function `LocaleWrapper`; `lang` is the value of `ctx.Query("lang")`, the
empty string when the request has no such parameter. -/
def LocaleWrapper (lang : String) (next : HandlerFunc) : HandlerFunc := fun ctx =>
  let locale := lang
  if locale = Bahasa ∨ locale = English then next (ctx.UseLocale locale) else next ctx

/-- The description in the JSON document written last to the response writer. -/
def lastDescription (c : Context) : Option Json :=
  match c.writer.getLast? with
  | some ⟨_, _, Body.json doc⟩ =>
    match doc.member "data" with
    | some data => data.member "description"
    | none => none
  | _ => none

/-- A handler that answers with a response helper given a coded error. -/
def answerWith (helper : Context → GoError → Context × GoError) (e : Gapp.Error) :
    HandlerFunc := fun ctx =>
  ((helper ctx (GoError.coded e)).1, some (helper ctx (GoError.coded e)).2)

/-- A handler that records the locale of its context. -/
def reportLocale : HandlerFunc := fun ctx =>
  ({ ctx with ran := ctx.ran ++ [ctx.Locale] }, none)

/-! ## Text of an aggregate, as the specification describes it -/

/-- The entry `key: message` of one key in the text of an aggregate; the text of
a nested aggregate stands in parentheses, the message of a coded error is its
English message. -/
def expectedEntry (key : String) : GoError → String
  | GoError.aggregate ers => key ++ ": (" ++ (GoError.aggregate ers).Error ++ ")"
  | GoError.coded er =>
    key ++ ": " ++
      (match er.localMessages.get English with
       | some message => message
       | none => er.Error)
  | GoError.plain text => key ++ ": " ++ text

/-- Ascending order of two entries by key. -/
def keyLt (a b : String × String) : Prop :=
  ltChars a.1.data b.1.data = true

/-! ## Form binding (`bindFormValues` in `app.go`) -/

/-- Go `strconv.ParseInt(s, 10, 64)`: the value and whether the error is nil; the
numerals and results are those of `Atoi` with a 64-bit `int`. -/
def ParseInt (s : String) : Int × Bool :=
  Atoi s

/-- Go `strconv.ParseBool(s)`: the value and whether the error is nil. -/
def ParseBool (s : String) : Bool × Bool :=
  if s = "1" ∨ s = "t" ∨ s = "T" ∨ s = "TRUE" ∨ s = "true" ∨ s = "True" then (true, true)
  else if s = "0" ∨ s = "f" ∨ s = "F" ∨ s = "FALSE" ∨ s = "false" ∨ s = "False" then
    (false, true)
  else (false, false)

/-- The kinds `bindFormValues` tells apart with `reflect.Kind`; `other` stands
for every remaining kind. -/
inductive FormKind where
  | string
  | int
  | int64
  | float64
  | bool
  | other
  deriving DecidableEq, Repr

/-- The type of a destination field: of one of the kinds, or a pointer to a type
of one of the kinds. -/
inductive FormType where
  | scalar (kind : FormKind)
  | ptr (elem : FormKind)
  deriving DecidableEq, Repr

/-- The value of a destination field; `F` is the type of `float64` values and
`other n` a value of a type of another kind, `other 0` being its zero value. -/
inductive FormValue (F : Type) where
  | str (s : String)
  | int (i : Int)
  | float (f : F)
  | bool (b : Bool)
  | other (n : Nat)
  | nilPtr
  | ptr (elem : FormValue F)
  deriving DecidableEq, Repr

/-- A field of the destination record, with its `form` tag. -/
structure FormField (F : Type) where
  Name : String
  exported : Bool
  formTag : String
  typ : FormType
  value : FormValue F
  deriving DecidableEq, Repr

/-- The setters of `reflect.Value` on a field of the record (`SetString`,
`SetInt`, `SetFloat`, `SetBool`, `Set`): they panic, here `none`, on a field
that is not exported. -/
def FormField.set {F : Type} (field : FormField F) (v : FormValue F) : Option (FormField F) :=
  if field.exported then some { field with value := v } else none

/-- The body of the loop of `bindFormValues` for one field. -/
def bindFormField {F : Type} (ParseFloat : String → F × Bool)
    (values : GoMap (List String)) (field : FormField F) : Option (FormField F) :=
  let formKey := field.formTag
  if formKey = "" then some field
  else
    match values.get formKey with
    | some (val0 :: _) =>
      match field.typ with
      | FormType.scalar FormKind.string => field.set (FormValue.str val0)
      | FormType.scalar FormKind.int => field.set (FormValue.int (ParseInt val0).1)
      | FormType.scalar FormKind.int64 => field.set (FormValue.int (ParseInt val0).1)
      | FormType.scalar FormKind.float64 => field.set (FormValue.float (ParseFloat val0).1)
      | FormType.scalar FormKind.bool => field.set (FormValue.bool (ParseBool val0).1)
      | FormType.scalar FormKind.other => some field
      | FormType.ptr elem =>
        let ptr : FormValue F :=
          match elem with
          | FormKind.string => FormValue.str val0
          | FormKind.int => FormValue.int (ParseInt val0).1
          | FormKind.int64 => FormValue.int (ParseInt val0).1
          | FormKind.float64 => FormValue.float (ParseFloat val0).1
          | FormKind.bool => FormValue.bool (ParseBool val0).1
          | FormKind.other => FormValue.other 0
        field.set (FormValue.ptr ptr)
    | _ => some field

/-- The loop of `bindFormValues` over the fields of the record. -/
def bindFormFields {F : Type} (ParseFloat : String → F × Bool)
    (values : GoMap (List String)) : List (FormField F) → Option (List (FormField F))
  | [] => some []
  | field :: rest =>
    match bindFormField ParseFloat values field with
    | none => none
    | some field => (bindFormFields ParseFloat values rest).map (fun r => field :: r)

/-- Function `bindFormValues`: the record after the loop and the error returned,
which is that of the validation pass `validate` on the record; `none` when a
setter panics. -/
def bindFormValues {F : Type} (ParseFloat : String → F × Bool)
    (validate : List (FormField F) → Option GoError)
    (values : GoMap (List String)) (dest : List (FormField F)) :
    Option (List (FormField F) × Option GoError) :=
  match bindFormFields ParseFloat values dest with
  | none => none
  | some bound => some (bound, validate bound)

/-! ## Form binding, as the specification describes it -/

/-- The first value the form holds for a key, when it holds one. -/
def formValue (values : GoMap (List String)) (key : String) : Option String :=
  match values.get key with
  | some (v :: _) => some v
  | _ => none

/-- The result of coercing a raw text to a kind, whether or not the text denotes
a value of the kind; there is no coercion to a type of another kind. -/
def coerced {F : Type} (ParseFloat : String → F × Bool) : FormKind → String → Option (FormValue F)
  | FormKind.string, raw => some (FormValue.str raw)
  | FormKind.int, raw => some (FormValue.int (ParseInt raw).1)
  | FormKind.int64, raw => some (FormValue.int (ParseInt raw).1)
  | FormKind.float64, raw => some (FormValue.float (ParseFloat raw).1)
  | FormKind.bool, raw => some (FormValue.bool (ParseBool raw).1)
  | FormKind.other, _ => none

/-- The value of a field of type `typ` bound to the raw text: the coerced text,
behind a fresh pointer for an optional field; a field of another kind keeps its
value and an optional field of another kind points to a zero value. -/
def boundValue {F : Type} (ParseFloat : String → F × Bool) (typ : FormType) (raw : String)
    (old : FormValue F) : FormValue F :=
  match typ with
  | FormType.scalar kind => (coerced ParseFloat kind raw).getD old
  | FormType.ptr elem => FormValue.ptr ((coerced ParseFloat elem raw).getD (FormValue.other 0))

/-- The field after binding: unchanged without a form tag or without a value in
the form, else holding the bound value. -/
def boundField {F : Type} (ParseFloat : String → F × Bool) (values : GoMap (List String))
    (field : FormField F) : FormField F :=
  if field.formTag = "" then field
  else
    match formValue values field.formTag with
    | none => field
    | some raw => { field with value := boundValue ParseFloat field.typ raw field.value }

/-- A record with an integer field and an optional boolean field, both bound by
form keys; it has no `float64` field. -/
def sampleForm : List (FormField Unit) :=
  [⟨"Age", true, "age", FormType.scalar FormKind.int, FormValue.int 7⟩,
   ⟨"Active", true, "active", FormType.ptr FormKind.bool, FormValue.nilPtr⟩,
   ⟨"Note", true, "", FormType.scalar FormKind.string, FormValue.str "n"⟩]

/-- A form with values for the keys `age` and `active` that are no integer and
no boolean. -/
def sampleValues : GoMap (List String) :=
  [("age", ["abc"]), ("active", ["maybe"])]

/-! ## Parsing of dates and times (package `time`)

Texts are read by characters. The parser consumes a character only when it is
a decimal digit, a space or a separator of the layout, all of which are single
bytes, so reading by characters accepts the same texts as reading by bytes. -/

/-- Function `isDigit(s, i)` of package `time`: whether `s[i]` is in bounds and a
decimal digit. -/
def time.isDigit (s : List Char) (i : Nat) : Bool :=
  match s.get? i with
  | some c => Gapp.isDigit c
  | none => false

/-- The value `c - '0'` of a digit. -/
def time.digit (c : Char) : Int :=
  (c.toNat : Int) - 48

/-- Function `getnum`: a number of two digits, or of one digit when `fixed` is
false and no second digit follows. -/
def time.getnum (s : List Char) (fixed : Bool) : Option (Int × List Char) :=
  match s with
  | [] => none
  | a :: rest =>
    if !Gapp.isDigit a then none
    else
      match rest with
      | [] => if fixed then none else some (time.digit a, rest)
      | b :: rest2 =>
        if !Gapp.isDigit b then (if fixed then none else some (time.digit a, rest))
        else some (time.digit a * 10 + time.digit b, rest2)

/-- Function `cutspace`: the text without its leading spaces. -/
def time.cutspace : List Char → List Char
  | [] => []
  | c :: rest => if c = ' ' then time.cutspace rest else c :: rest

/-- The loop of `skip`; each round shortens `pre`, so `fuel` rounds are enough
when `fuel` is the length of `pre`. -/
def time.skipLoop : Nat → List Char → List Char → Option (List Char)
  | _, value, [] => some value
  | 0, _, _ :: _ => none
  | fuel + 1, value, p :: pre =>
    if p = ' ' then
      if value ≠ [] ∧ value.head? ≠ some ' ' then none
      else time.skipLoop fuel (time.cutspace value) (time.cutspace (p :: pre))
    else
      match value with
      | [] => none
      | v :: value => if v ≠ p then none else time.skipLoop fuel value pre

/-- Function `skip`: the value after the literal text `pre` of the layout, a run
of spaces of the layout matching a run of spaces of the value. -/
def time.skip (value pre : List Char) : Option (List Char) :=
  time.skipLoop pre.length value pre

/-- The loop of `leadingInt`: the leading digits as a number and the rest; an
error, here `none`, when the number exceeds `1<<63`. -/
def time.leadingIntLoop : List Char → Nat → Option (Nat × List Char)
  | [], x => some (x, [])
  | c :: rest, x =>
    if !Gapp.isDigit c then some (x, c :: rest)
    else if x > 2 ^ 63 / 10 then none
    else if x * 10 + (c.toNat - 48) > 2 ^ 63 then none
    else time.leadingIntLoop rest (x * 10 + (c.toNat - 48))

/-- Function `leadingInt`. -/
def time.leadingInt (s : List Char) : Option (Nat × List Char) :=
  time.leadingIntLoop s 0

/-- A 64-bit `int` after an arithmetic overflow. -/
def time.wrap (z : Int) : Int :=
  (z + 2 ^ 63) % 2 ^ 64 - 2 ^ 63

/-- Function `atoi` of package `time`: an optional sign and digits only. -/
def time.atoi (s : List Char) : Option Int :=
  let neg := decide (s.head? = some '-')
  let s := if s.head? = some '-' ∨ s.head? = some '+' then s.drop 1 else s
  match time.leadingInt s with
  | none => none
  | some (q, rem) =>
    if rem ≠ [] then none
    else
      let x := time.wrap q
      some (if neg then time.wrap (-x) else x)

/-- Function `commaOrPeriod`. -/
def time.commaOrPeriod (c : Char) : Bool :=
  c = '.' || c = ','

/-- Function `parseNanoseconds`: the fraction of a second in the first `nbytes`
characters of the value, which start with the separator. -/
def time.parseNanoseconds (value : List Char) (nbytes : Nat) : Option Int :=
  if !time.commaOrPeriod (value.headD ' ') then none
  else
    let value := if nbytes > 10 then value.take 10 else value
    let nbytes := if nbytes > 10 then 10 else nbytes
    match time.atoi ((value.take nbytes).drop 1) with
    | none => none
    | some ns => if ns < 0 then none else some (ns * 10 ^ (10 - nbytes))

/-- Function `isLeap`. -/
def time.isLeap (year : Int) : Bool :=
  year % 4 = 0 && (year % 100 ≠ 0 || year % 400 = 0)

/-- Table `daysBefore`: the days of a non-leap year before the end of month `m`. -/
def time.daysBefore : List Int :=
  [0, 31, 59, 90, 120, 151, 181, 212, 243, 273, 304, 334, 365]

/-- Function `daysIn`. -/
def time.daysIn (m year : Int) : Int :=
  if m = 2 ∧ time.isLeap year = true then 29
  else time.daysBefore.getD m.toNat 0 - time.daysBefore.getD (m.toNat - 1) 0

/-- The fields of the time `parse` builds. -/
structure time.Time where
  year : Int
  month : Int
  day : Int
  hour : Int
  min : Int
  sec : Int
  nsec : Int
  deriving DecidableEq, Repr

/-- The standard elements `nextStdChunk` finds in the two layouts of the rules. -/
inductive time.Std where
  | stdLongYear
  | stdZeroMonth
  | stdZeroDay
  | stdHour
  | stdZeroMinute
  | stdZeroSecond
  deriving DecidableEq, Repr

/-- The switch of the loop of `parse` on one standard element: the fields and
the rest of the value. No layout here has an element for the fraction of a
second, so a fraction found after the seconds is read as the code reads it
when the layout has none. -/
def time.parseStd (std : time.Std) (value : List Char) (t : time.Time) :
    Option (time.Time × List Char) :=
  match std with
  | time.Std.stdLongYear =>
    if value.length < 4 ∨ time.isDigit value 0 = false then none
    else
      match time.atoi (value.take 4) with
      | none => none
      | some year => some ({ t with year := year }, value.drop 4)
  | time.Std.stdZeroMonth =>
    match time.getnum value true with
    | none => none
    | some (month, value) =>
      if month ≤ 0 ∨ 12 < month then none else some ({ t with month := month }, value)
  | time.Std.stdZeroDay =>
    match time.getnum value true with
    | none => none
    | some (day, value) => some ({ t with day := day }, value)
  | time.Std.stdHour =>
    match time.getnum value false with
    | none => none
    | some (hour, value) =>
      if hour < 0 ∨ 24 ≤ hour then none else some ({ t with hour := hour }, value)
  | time.Std.stdZeroMinute =>
    match time.getnum value true with
    | none => none
    | some (min, value) =>
      if min < 0 ∨ 60 ≤ min then none else some ({ t with min := min }, value)
  | time.Std.stdZeroSecond =>
    match time.getnum value true with
    | none => none
    | some (sec, value) =>
      if sec < 0 ∨ 60 ≤ sec then none
      else if value.length ≥ 2 ∧ time.commaOrPeriod (value.headD ' ') = true ∧
          time.isDigit value 1 = true then
        let n := 2 + ((value.drop 2).takeWhile Gapp.isDigit).length
        match time.parseNanoseconds value n with
        | none => none
        | some nsec => some ({ t with sec := sec, nsec := nsec }, value.drop n)
      else some ({ t with sec := sec }, value)

/-- The loop of `parse` over the layout, given as the chunks `nextStdChunk` cuts
it into: each standard element with the literal text before it. -/
def time.parseLoop : List (List Char × time.Std) → List Char → time.Time →
    Option (time.Time × List Char)
  | [], value, t => some (t, value)
  | (pre, std) :: layout, value, t =>
    match time.skip value pre with
    | none => none
    | some value =>
      match time.parseStd std value t with
      | none => none
      | some (t, value) => time.parseLoop layout value t

/-- Function `time.Parse` on a layout that ends with its last standard element:
`none` when it returns an error. After the loop, text left in the value is
extra text, and the day must exist in the month. -/
def time.Parse (layout : List (List Char × time.Std)) (value : String) : Option time.Time :=
  match time.parseLoop layout value.data ⟨0, -1, -1, 0, 0, 0, 0⟩ with
  | none => none
  | some (t, value) =>
    if value ≠ [] then none
    else
      let month := if t.month < 0 then 1 else t.month
      let day := if t.day < 0 then 1 else t.day
      if day < 1 ∨ day > time.daysIn month t.year then none
      else some { t with month := month, day := day }

/-- The layout `2006-01-02`. -/
def dateLayout : List (List Char × time.Std) :=
  [([], time.Std.stdLongYear), (['-'], time.Std.stdZeroMonth), (['-'], time.Std.stdZeroDay)]

/-- The layout `2006-01-02 15:04:05`. -/
def datetimeLayout : List (List Char × time.Std) :=
  dateLayout ++ [([' '], time.Std.stdHour), ([':'], time.Std.stdZeroMinute),
    ([':'], time.Std.stdZeroSecond)]

/-- Rule `dateRule`. The type switch is modelled by `rendering`, which gives the
text of `String()` for a value whose type implements `fmt.Stringer`. -/
def dateRule (ErrFieldMustBeDate : GoError) (rendering : GoValue → Option String) : RuleFunc :=
  fun value _ =>
    let check := fun (s : String) =>
      if (time.Parse dateLayout s).isNone then some ErrFieldMustBeDate else none
    match value with
    | GoValue.str v => check v
    | v =>
      match rendering v with
      | some s => check s
      | none => some ErrFieldMustBeDate

/-- Rule `datetimeRule`, with the type switch of `dateRule`. -/
def datetimeRule (ErrFieldMustBeDatetime : GoError) (rendering : GoValue → Option String) :
    RuleFunc :=
  fun value _ =>
    let check := fun (s : String) =>
      if (time.Parse datetimeLayout s).isNone then some ErrFieldMustBeDatetime else none
    match value with
    | GoValue.str v => check v
    | v =>
      match rendering v with
      | some s => check s
      | none => some ErrFieldMustBeDatetime

/-- Method `String()` of the string-backed types of package `types`, on values
and on non-nil pointers to them; other values have no such method. -/
def typesRendering : GoValue → Option String
  | GoValue.named typ s =>
    if typ = "types.Date" ∨ typ = "types.Datetime" ∨ typ = "types.Integer" ∨
        typ = "types.Float" then some s else none
  | GoValue.ptrTo (GoValue.named typ s) =>
    if typ = "types.Date" ∨ typ = "types.Datetime" ∨ typ = "types.Integer" ∨
        typ = "types.Float" then some s else none
  | _ => none

/-! ## Dates and times, as the specification describes them -/

/-- The character of a decimal digit. -/
def digitChar (n : Nat) : Char :=
  Char.ofNat (48 + n)

/-- A number below 100 written with two digits. -/
def pad2 (n : Nat) : List Char :=
  [digitChar (n / 10), digitChar (n % 10)]

/-- A number below 10000 written with four digits. -/
def pad4 (n : Nat) : List Char :=
  [digitChar (n / 1000), digitChar (n / 100 % 10), digitChar (n / 10 % 10), digitChar (n % 10)]

/-- The number of days of a month of the Gregorian calendar. -/
def calendarDays (year month : Nat) : Nat :=
  if month = 2 then
    (if year % 4 = 0 ∧ (year % 100 ≠ 0 ∨ year % 400 = 0) then 29 else 28)
  else if month = 4 ∨ month = 6 ∨ month = 9 ∨ month = 11 then 30
  else 31

/-- A calendar date with a year of four digits. -/
def validDate (y m d : Nat) : Prop :=
  y ≤ 9999 ∧ 1 ≤ m ∧ m ≤ 12 ∧ 1 ≤ d ∧ d ≤ calendarDays y m

/-- A time of day. -/
def validClock (h mi sec : Nat) : Prop :=
  h < 24 ∧ mi < 60 ∧ sec < 60

/-- The date written `YYYY-MM-DD`. -/
def dateText (y m d : Nat) : List Char :=
  pad4 y ++ '-' :: pad2 m ++ '-' :: pad2 d

/-- The text is exactly a valid calendar date written `YYYY-MM-DD`. -/
def isDate (s : String) : Prop :=
  ∃ y m d, validDate y m d ∧ s.data = dateText y m d

/-- The text is exactly a valid date and time written `YYYY-MM-DD hh:mm:ss`. -/
def isDatetime (s : String) : Prop :=
  ∃ y m d h mi sec, validDate y m d ∧ validClock h mi sec ∧
    s.data = dateText y m d ++ ' ' :: pad2 h ++ ':' :: pad2 mi ++ ':' :: pad2 sec

/-- The hour written with two digits, or with one digit when it is below 10. -/
def hourText (h : Nat) (text : List Char) : Prop :=
  text = pad2 h ∨ (h < 10 ∧ text = [digitChar h])

/-- Nothing, or a fraction of a second: a period or comma and one or more digits. -/
def fractionText (text : List Char) : Prop :=
  text = [] ∨ ∃ sep digits, (sep = '.' ∨ sep = ',') ∧ digits ≠ [] ∧
    digits.all isDigit = true ∧ text = sep :: digits

/-- The texts `time.Parse` accepts for the layout of `datetimeRule`: a valid date
`YYYY-MM-DD`, one or more spaces, the hour with one or two digits, minute and
second with two digits, and an optional fraction of a second. -/
def isLenientDatetime (s : String) : Prop :=
  ∃ y m d k h mi sec ht frac, validDate y m d ∧ validClock h mi sec ∧ hourText h ht ∧
    fractionText frac ∧
    s.data = dateText y m d ++ List.replicate (k + 1) ' ' ++ ht ++ ':' :: pad2 mi ++
      ':' :: pad2 sec ++ frac

/-- The text a rule reads from a value: the value itself when it is a native
string, else its `String()` rendering. -/
def rendersAs (rendering : GoValue → Option String) (v : GoValue) (s : String) : Prop :=
  v = GoValue.str s ∨ ((∀ t, v ≠ GoValue.str t) ∧ rendering v = some s)

/-! ## Rule lists, as the specification describes them -/

/-- The name of a rule token `name` or `name=parameter`, white space around the
token set aside: the text before the first `=`. -/
def tokenName (rule : String) : String :=
  String.mk ((TrimSpace rule).data.takeWhile (fun c => c != '='))

/-- The parameter of a rule token `name=parameter`: the text after the first
`=`; empty for a token `name`. -/
def tokenParam (rule : String) : String :=
  String.mk (((TrimSpace rule).data.dropWhile (fun c => c != '=')).drop 1)

/-- The value the rules of a present field are evaluated on: what the field
points to when it is a pointer, else the value of the field. -/
def seenValue : GoValue → GoValue
  | GoValue.ptrTo elem => elem
  | v => v

/-- The error of a rule token on a value: that of the rule function the
registry holds under the name of the token, given the value and the parameter
of the token; none when the registry holds no function under the name or the
function returns no error. -/
def tokenError (validators : GoMap RuleFunc) (v : GoValue) (rule : String) : Option GoError :=
  match GoMap.get validators (tokenName rule) with
  | some fn => fn v (tokenParam rule)
  | none => none

/-- The invocations expected for a rule list on the value of field `i`: one for
each token whose name the registry holds, in the order of the list, with the
name and the parameter of the token. -/
def expectedCalls (validators : GoMap RuleFunc) (i : Nat) (v : GoValue) :
    List String → List RuleCall
  | [] => []
  | rule :: rest =>
    match GoMap.get validators (tokenName rule) with
    | some _ => ⟨i, tokenName rule, v, tokenParam rule⟩ :: expectedCalls validators i v rest
    | none => expectedCalls validators i v rest

/-- A field has a failing rule: an absent optional field when a token named
`required` is among its rules and the rule registered as `required` returns an
error on the absent value; a present field when one of its tokens has an error
on the value the rules are evaluated on. -/
def fieldFails (validators : GoMap RuleFunc) (f : StructField) : Bool :=
  if f.value = GoValue.nilPtr then
    (Split f.validationTag ',').any (fun rule => decide (tokenName rule = "required")) &&
      (match GoMap.get validators "required" with
       | some fn => (fn GoValue.nil "").isSome
       | none => false)
  else
    (Split f.validationTag ',').any
      (fun rule => (tokenError validators (seenValue f.value) rule).isSome)

/-! ## Sample data -/

/-- A coded error shaped like the catalog's `ErrFieldRequired`. -/
def sampleRequired : GoError :=
  GoError.coded
    { code := 4001, err := some "field is required", httpStatus := 400,
      localMessages := [("en", "field is required"), ("id", "kolom wajib diisi")] }

/-- A coded error shaped like the catalog's `ErrExpiredToken`. -/
def sampleExpired : Gapp.Error :=
  { code := 4012, err := some "token expired", httpStatus := 401,
    localMessages := [("en", "token expired"), ("id", "token kedaluwarsa")] }

/-- A custom rule that fails on every value. -/
def denyRule : RuleFunc := fun _ _ => some (GoError.plain "denied")

/-- A registry holding the built-in `required` rule and the custom rule `deny`. -/
def sampleValidators : GoMap RuleFunc :=
  RegisterValidator (RegisterValidator [] "required" (requiredRule sampleRequired)) "deny" denyRule

/-- An exported field with the given identifier, `json` tag, `validation` tag and value. -/
def sampleField (name json rules : String) (value : GoValue) : StructField :=
  { Name := name, PkgPath := "", jsonTag := json, validationTag := rules, value := value }

/-- An error shaped like the catalog's `ErrFieldBelowMinimum`, carrying the
minimum as its code. -/
def sampleShort (min : Int) : GoError :=
  GoError.coded { code := min, err := some "too short", httpStatus := 400, localMessages := [] }

/-- The sample registry with the built-in `minlen` rule added. -/
def paramValidators : GoMap RuleFunc :=
  RegisterValidator sampleValidators "minlen" (minlenRule sampleShort)

/-- A record with a failing parameter rule on a pointer field, a passing
parameter rule, an unexported field whose rule would fail, and an absent
required field. -/
def failingRecord : List StructField :=
  [sampleField "Name" "name" "required, minlen=3,deny" (GoValue.ptrTo (GoValue.str "ab")),
   sampleField "Nick" "nick" "minlen=2" (GoValue.str "ab"),
   { Name := "secret", PkgPath := "main", jsonTag := "", validationTag := "deny",
     value := GoValue.str "x" },
   sampleField "Opt" "opt" "required" GoValue.nilPtr]

/-- A record none of whose exported fields has a failing rule: the unexported
field has a rule that would fail and the absent field is not required. -/
def passingRecord : List StructField :=
  [sampleField "Name" "name" "required, minlen=2" (GoValue.ptrTo (GoValue.str "ab")),
   { Name := "secret", PkgPath := "main", jsonTag := "", validationTag := "deny",
     value := GoValue.str "x" },
   sampleField "Opt" "opt" "minlen=5" GoValue.nilPtr]

/-! # Theorems -/

/-! ## Strings -/

theorem cutChars_fst_eq_iff (sep : Char) (s t : List Char) (ht : sep ∉ t) :
    (cutChars sep s).1 = t ↔ s = t ∨ (t ++ [sep]).isPrefixOf s = true := by
  induction s generalizing t with
  | nil =>
    cases t with
    | nil => simp [cutChars]
    | cons a t => simp [cutChars, List.isPrefixOf]
  | cons c cs ih =>
    by_cases hc : c = sep
    · subst hc
      cases t with
      | nil => simp [cutChars, List.isPrefixOf]
      | cons a t =>
        have : a ≠ c := fun h => ht (by simp [h])
        simp [cutChars, List.isPrefixOf, this, Ne.symm this]
    · cases t with
      | nil => simp [cutChars, hc, List.isPrefixOf, Ne.symm hc]
      | cons a t =>
        have ht' : sep ∉ t := fun h => ht (List.mem_cons_of_mem a h)
        simp only [cutChars, hc, if_false, List.cons.injEq, List.cons_append, List.isPrefixOf,
          Bool.and_eq_true, beq_iff_eq]
        rw [ih t ht']
        constructor
        · rintro ⟨rfl, h | h⟩
          · exact Or.inl ⟨rfl, h⟩
          · exact Or.inr ⟨rfl, h⟩
        · rintro (⟨rfl, h⟩ | ⟨rfl, h⟩)
          · exact ⟨rfl, Or.inl h⟩
          · exact ⟨rfl, Or.inr h⟩

/-- The test of `ruleContains` for `required` holds of a rule token exactly when
the name the rule loop parses from the token is `required`. -/
theorem ruleMatches_iff (rule : String) :
    (HasPrefix (TrimSpace rule) ("required" ++ "=") || decide (TrimSpace rule = "required"))
        = true ↔ ruleName rule = "required" := by
  have hsep : '=' ∉ "required".data := by decide
  have h := cutChars_fst_eq_iff '=' (TrimSpace rule).data "required".data hsep
  have hname : ruleName rule = "required" ↔
      (cutChars '=' (TrimSpace rule).data).1 = "required".data := by
    unfold ruleName SplitN2
    constructor
    · intro h'
      exact congrArg String.data h'
    · intro h'
      simp only [h']
  rw [hname, h]
  have hdata : ("required" ++ "=").data = "required".data ++ ['='] := rfl
  simp only [HasPrefix, hdata, Bool.or_eq_true, decide_eq_true_eq, String.ext_iff]
  exact or_comm

theorem ruleContains_iff (rules : List String) :
    ruleContains rules "required" = true ↔ ∃ rule ∈ rules, ruleName rule = "required" := by
  induction rules with
  | nil => simp [ruleContains]
  | cons r rest ih =>
    have hm : (HasPrefix (TrimSpace r) "required=" = true ∨ TrimSpace r = "required") ↔
        ruleName r = "required" := by
      have := ruleMatches_iff r
      simpa using this
    by_cases hn : ruleName r = "required"
    · simp [ruleContains, hm, hn]
    · simp [ruleContains, hm, hn, ih]

theorem ruleContains_eq_any (rules : List String) :
    ruleContains rules "required"
      = rules.any (fun rule => decide (ruleName rule = "required")) := by
  rw [Bool.eq_iff_iff, ruleContains_iff, List.any_eq_true]
  simp

/-! ## Maps -/

namespace GoMap

variable {α : Type}

theorem get_set_self (m : GoMap α) (k : String) (v : α) : (m.set k v).get k = some v := by
  induction m with
  | nil => simp [set, get]
  | cons p rest ih =>
    obtain ⟨k', v'⟩ := p
    by_cases h : k' = k
    · simp [set, get, h]
    · simp [set, get, h, ih]

theorem get_set_ne (m : GoMap α) {k k' : String} (v : α) (h : k' ≠ k) :
    (m.set k v).get k' = m.get k' := by
  induction m with
  | nil => simp [set, get, Ne.symm h]
  | cons p rest ih =>
    obtain ⟨k₀, v₀⟩ := p
    by_cases h₀ : k₀ = k
    · subst h₀
      simp [set, get, Ne.symm h]
    · by_cases h₁ : k₀ = k'
      · subst h₁
        simp [set, get, h₀]
      · simp [set, get, h₀, h₁, ih]

theorem has_iff_mem_keys (m : GoMap α) (k : String) : m.has k = true ↔ k ∈ m.keys := by
  induction m with
  | nil => simp [has, get, keys]
  | cons p rest ih =>
    obtain ⟨k₀, v₀⟩ := p
    by_cases h₀ : k₀ = k
    · simp [has, get, keys, h₀]
    · have ih' : (get rest k).isSome = true ↔ k ∈ List.map Prod.fst rest := ih
      simp [has, get, keys, h₀, ih', Ne.symm h₀]

theorem has_set (m : GoMap α) (k k' : String) (v : α) :
    (m.set k v).has k' = true ↔ k' = k ∨ m.has k' = true := by
  by_cases h : k' = k
  · subst h
    simp [has, get_set_self]
  · simp [has, get_set_ne m v h, h]

theorem keys_set (m : GoMap α) (k : String) (v : α) :
    (m.set k v).keys = if m.has k = true then m.keys else m.keys ++ [k] := by
  induction m with
  | nil => simp [set, keys, has, get]
  | cons p rest ih =>
    obtain ⟨k₀, v₀⟩ := p
    by_cases h₀ : k₀ = k
    · simp [set, keys, has, get, h₀]
    · have ih' : List.map Prod.fst (set rest k v)
          = if (get rest k).isSome = true then List.map Prod.fst rest
            else List.map Prod.fst rest ++ [k] := ih
      simp only [set, keys, has, get, h₀, if_false, List.map_cons, ih']
      split <;> simp

theorem nodup_keys_set (m : GoMap α) (k : String) (v : α) (h : m.keys.Nodup) :
    (m.set k v).keys.Nodup := by
  rw [keys_set]
  split
  · exact h
  · rename_i hk
    rw [has_iff_mem_keys] at hk
    exact List.Nodup.append h (List.nodup_singleton k) (by simpa using hk)

end GoMap

/-! ## The rule loop of one field -/

theorem runRules_of_has (validators : GoMap RuleFunc) (i : Nat) (name : String) (v : GoValue)
    (rules : List String) (errors : Errors) (calls : List RuleCall)
    (h : errors.has name = true) :
    runRules validators i name v rules (errors, calls) = (errors, calls) := by
  cases rules <;> simp [runRules, h]

theorem runRules_all_pass (validators : GoMap RuleFunc) (i : Nat) (name : String) (v : GoValue)
    (rules : List String) (errors : Errors) (calls : List RuleCall)
    (hno : errors.has name = false)
    (hall : ∀ rule ∈ rules, ruleError validators v rule = none) :
    runRules validators i name v rules (errors, calls)
      = (errors, calls ++ callsFor validators i v rules) := by
  induction rules generalizing calls with
  | nil => simp [runRules, callsFor]
  | cons r rest ih =>
    have hr := hall r (List.mem_cons_self r rest)
    have hrest : ∀ rule ∈ rest, ruleError validators v rule = none :=
      fun rule h => hall rule (List.mem_cons_of_mem r h)
    unfold ruleError at hr
    cases hg : GetValidator validators (ruleName r) with
    | none => simp [runRules, callsFor, hno, hg, ih calls hrest]
    | some fn =>
      rw [hg] at hr
      replace hr : fn v (ruleParam r) = none := hr
      simp [runRules, callsFor, hno, hg, hr, ih _ hrest]

theorem runRules_first_fail (validators : GoMap RuleFunc) (i : Nat) (name : String)
    (v : GoValue) (rules : List String) (errors : Errors) (calls : List RuleCall)
    (hno : errors.has name = false) (k : Nat) (rule : String) (e : GoError)
    (hk : rules[k]? = some rule) (he : ruleError validators v rule = some e)
    (hbefore : ∀ j rule', j < k → rules[j]? = some rule' →
      ruleError validators v rule' = none) :
    runRules validators i name v rules (errors, calls)
      = (errors.set name e, calls ++ callsFor validators i v (rules.take (k + 1))) := by
  induction rules generalizing k calls with
  | nil => simp at hk
  | cons r rest ih =>
    cases k with
    | zero =>
      simp at hk
      subst hk
      unfold ruleError at he
      cases hg : GetValidator validators (ruleName r) with
      | none => simp [hg] at he
      | some fn =>
        rw [hg] at he
        replace he : fn v (ruleParam r) = some e := he
        have hset : (GoMap.set errors name e).has name = true :=
          (GoMap.has_set errors name name e).2 (Or.inl rfl)
        simp [runRules, callsFor, hno, hg, he, runRules_of_has _ _ _ _ _ _ _ hset]
    | succ k =>
      have hr : ruleError validators v r = none := hbefore 0 r (Nat.succ_pos k) (by simp)
      have hk' : rest[k]? = some rule := by simpa using hk
      have hb' : ∀ j rule', j < k → rest[j]? = some rule' →
          ruleError validators v rule' = none :=
        fun j rule' hj hr' => hbefore (j + 1) rule' (Nat.succ_lt_succ hj) (by simpa using hr')
      unfold ruleError at hr
      cases hg : GetValidator validators (ruleName r) with
      | none => simp [runRules, callsFor, hno, hg, ih calls k hk' hb']
      | some fn =>
        rw [hg] at hr
        replace hr : fn v (ruleParam r) = none := hr
        simp [runRules, callsFor, hno, hg, hr, ih _ k hk' hb']

theorem runRules_get_ne (validators : GoMap RuleFunc) (i : Nat) (name : String) (v : GoValue)
    (rules : List String) (st : Errors × List RuleCall) (k : String) (hk : k ≠ name) :
    (runRules validators i name v rules st).1.get k = st.1.get k := by
  induction rules generalizing st with
  | nil => simp [runRules]
  | cons r rest ih =>
    obtain ⟨errors, calls⟩ := st
    simp only [runRules]
    split
    · rfl
    · split
      · exact ih _
      · split
        · rw [ih]
          exact GoMap.get_set_ne errors _ hk
        · exact ih _

theorem runRules_has (validators : GoMap RuleFunc) (i : Nat) (name : String) (v : GoValue)
    (rules : List String) (st : Errors × List RuleCall) :
    (runRules validators i name v rules st).1.has name = true ↔
      st.1.has name = true ∨ ∃ rule ∈ rules, ruleError validators v rule ≠ none := by
  induction rules generalizing st with
  | nil => simp [runRules]
  | cons r rest ih =>
    obtain ⟨errors, calls⟩ := st
    by_cases hhas : errors.has name = true
    · simp [runRules_of_has _ _ _ _ _ _ _ hhas, hhas]
    · simp only [runRules, hhas, Bool.false_eq_true, if_false, false_or]
      cases hg : GetValidator validators (ruleName r) with
      | none =>
        have hr : ruleError validators v r = none := by simp [ruleError, hg]
        simp [ih, hhas, hr]
      | some fn =>
        cases hf : fn v (ruleParam r) with
        | none =>
          have hr : ruleError validators v r = none := by simp [ruleError, hg, hf]
          simp [ih, hhas, hr, hf]
        | some err =>
          have hr : ruleError validators v r = some err := by simp [ruleError, hg, hf]
          have hset : (GoMap.set errors name err).has name = true :=
            (GoMap.has_set errors name name err).2 (Or.inl rfl)
          simp [ih, hset, hr, hf]

theorem runRules_calls (validators : GoMap RuleFunc) (i : Nat) (name : String) (v : GoValue)
    (rules : List String) (st : Errors × List RuleCall) :
    ∃ extra, (runRules validators i name v rules st).2 = st.2 ++ extra ∧
      ∀ c ∈ extra, c.field = i := by
  induction rules generalizing st with
  | nil => exact ⟨[], by simp [runRules]⟩
  | cons r rest ih =>
    obtain ⟨errors, calls⟩ := st
    simp only [runRules]
    split
    · exact ⟨[], by simp⟩
    · split
      · exact ih _
      · split
        · rename_i err _
          obtain ⟨extra, h₁, h₂⟩ :=
            ih (GoMap.set errors name err, calls ++ [⟨i, ruleName r, v, ruleParam r⟩])
          refine ⟨⟨i, ruleName r, v, ruleParam r⟩ :: extra, ?_, ?_⟩
          · rw [h₁]; simp
          · intro c hc
            rcases List.mem_cons.1 hc with h | h
            · rw [h]
            · exact h₂ c h
        · obtain ⟨extra, h₁, h₂⟩ :=
            ih (errors, calls ++ [⟨i, ruleName r, v, ruleParam r⟩])
          refine ⟨⟨i, ruleName r, v, ruleParam r⟩ :: extra, ?_, ?_⟩
          · rw [h₁]; simp
          · intro c hc
            rcases List.mem_cons.1 hc with h | h
            · rw [h]
            · exact h₂ c h

theorem runRules_nodup (validators : GoMap RuleFunc) (i : Nat) (name : String) (v : GoValue)
    (rules : List String) (st : Errors × List RuleCall) (h : st.1.keys.Nodup) :
    (runRules validators i name v rules st).1.keys.Nodup := by
  induction rules generalizing st with
  | nil => simpa [runRules] using h
  | cons r rest ih =>
    obtain ⟨errors, calls⟩ := st
    simp only [runRules]
    split
    · exact h
    · split
      · exact ih _ h
      · split
        · exact ih _ (GoMap.nodup_keys_set errors _ _ h)
        · exact ih _ h

theorem callsFor_field (validators : GoMap RuleFunc) (i : Nat) (v : GoValue)
    (rules : List String) : ∀ c ∈ callsFor validators i v rules, c.field = i := by
  induction rules with
  | nil => simp [callsFor]
  | cons r rest ih =>
    simp only [callsFor]
    split
    · intro c hc
      rcases List.mem_cons.1 hc with h | h
      · rw [h]
      · exact ih c h
    · exact ih

theorem runRules_fst_congr (validators : GoMap RuleFunc) (i j : Nat) (name : String)
    (v : GoValue) (rules : List String) (errors : Errors) (calls calls' : List RuleCall) :
    (runRules validators i name v rules (errors, calls)).1
      = (runRules validators j name v rules (errors, calls')).1 := by
  induction rules generalizing errors calls calls' with
  | nil => simp [runRules]
  | cons r rest ih =>
    simp only [runRules]
    split
    · rfl
    · split
      · exact ih _ _ _
      · split
        · exact ih _ _ _
        · exact ih _ _ _

/-! ## The loop over the fields -/

theorem validateField_unexported (validators : GoMap RuleFunc) (i : Nat) (f : StructField)
    (st : Errors × List RuleCall) (h : exported f = false) :
    validateField validators i f st = st := by
  have h' : f.PkgPath ≠ "" := by simpa [exported] using h
  simp [validateField, h']

theorem validateField_present (validators : GoMap RuleFunc) (i : Nat) (f : StructField)
    (st : Errors × List RuleCall) (h : exported f = true) (hp : f.value ≠ GoValue.nilPtr) :
    validateField validators i f st
      = runRules validators i (fieldName f) (fieldValue f) (Split f.validationTag ',') st := by
  have h' : f.PkgPath = "" := by simpa [exported] using h
  simp [validateField, h', hp]

theorem validateField_fst_congr (validators : GoMap RuleFunc) (i j : Nat) (f : StructField)
    (st st' : Errors × List RuleCall) (h : st.1 = st'.1) :
    (validateField validators i f st).1 = (validateField validators j f st').1 := by
  obtain ⟨errors, calls⟩ := st
  obtain ⟨errors', calls'⟩ := st'
  simp only at h
  subst h
  unfold validateField
  split
  · rfl
  · simp only
    split
    · split
      · split
        · split <;> rfl
        · rfl
      · rfl
    · exact runRules_fst_congr _ _ _ _ _ _ _ _ _

theorem validateField_get_ne (validators : GoMap RuleFunc) (i : Nat) (f : StructField)
    (st : Errors × List RuleCall) (k : String) (hk : exported f = true → fieldName f ≠ k) :
    (validateField validators i f st).1.get k = st.1.get k := by
  cases hexp : exported f with
  | false => rw [validateField_unexported _ _ _ _ hexp]
  | true =>
    have hne : k ≠ fieldName f := Ne.symm (hk hexp)
    have h' : f.PkgPath = "" := by simpa [exported] using hexp
    unfold validateField
    simp only [h', ne_eq, not_true_eq_false, if_false]
    split
    · split
      · split
        · split
          · exact GoMap.get_set_ne _ _ hne
          · rfl
        · rfl
      · rfl
    · exact runRules_get_ne _ _ _ _ _ _ _ hne

theorem validateField_has (validators : GoMap RuleFunc) (i : Nat) (f : StructField)
    (st : Errors × List RuleCall) (k : String) :
    (validateField validators i f st).1.has k = true ↔
      st.1.has k = true ∨
        (exported f = true ∧ fieldName f = k ∧ hasFailingRule validators f = true) := by
  by_cases hk : exported f = true ∧ fieldName f = k
  · obtain ⟨hexp, rfl⟩ := hk
    have h' : f.PkgPath = "" := by simpa [exported] using hexp
    by_cases hp : f.value = GoValue.nilPtr
    · unfold validateField hasFailingRule requiredFailsOnNil
      rw [← ruleContains_eq_any]
      simp only [h', ne_eq, not_true_eq_false, if_false, hp, if_true, hexp, true_and]
      cases hc : ruleContains (Split f.validationTag ',') "required" with
      | false => simp
      | true =>
        cases hg : GetValidator validators "required" with
        | none => simp
        | some fn =>
          cases hf : fn GoValue.nil "" with
          | none => simp [hf]
          | some err => simp [hf, GoMap.has_set]
    · rw [validateField_present _ _ _ _ hexp hp, runRules_has]
      simp [hasFailingRule, hp, hexp, List.any_eq_true, Option.isSome_iff_ne_none]
  · have hget : (validateField validators i f st).1.get k = st.1.get k :=
      validateField_get_ne _ _ _ _ _ (fun h₁ h₂ => hk ⟨h₁, h₂⟩)
    have : ¬ (exported f = true ∧ fieldName f = k ∧ hasFailingRule validators f = true) :=
      fun h => hk ⟨h.1, h.2.1⟩
    simp only [GoMap.has, hget, this, or_false]

theorem validateField_calls (validators : GoMap RuleFunc) (i : Nat) (f : StructField)
    (st : Errors × List RuleCall) :
    ∃ extra, (validateField validators i f st).2 = st.2 ++ extra ∧
      ∀ c ∈ extra, c.field = i := by
  unfold validateField
  split
  · exact ⟨[], by simp⟩
  · simp only
    split
    · split
      · split
        · split
          · exact ⟨[⟨i, "required", GoValue.nil, ""⟩], by simp⟩
          · exact ⟨[⟨i, "required", GoValue.nil, ""⟩], by simp⟩
        · exact ⟨[], by simp⟩
      · exact ⟨[], by simp⟩
    · exact runRules_calls _ _ _ _ _ _

theorem validateField_nodup (validators : GoMap RuleFunc) (i : Nat) (f : StructField)
    (st : Errors × List RuleCall) (h : st.1.keys.Nodup) :
    (validateField validators i f st).1.keys.Nodup := by
  unfold validateField
  split
  · exact h
  · simp only
    split
    · split
      · split
        · split
          · exact GoMap.nodup_keys_set _ _ _ h
          · exact h
        · exact h
      · exact h
    · exact runRules_nodup _ _ _ _ _ _ h

theorem validateFields_append (validators : GoMap RuleFunc) (i : Nat)
    (pre post : List StructField) (st : Errors × List RuleCall) :
    validateFields validators i (pre ++ post) st
      = validateFields validators (i + pre.length) post (validateFields validators i pre st) := by
  induction pre generalizing i st with
  | nil => simp [validateFields]
  | cons f rest ih =>
    have h := ih (i + 1) (validateField validators i f st)
    have hi : i + 1 + rest.length = i + (rest.length + 1) := by omega
    rw [hi] at h
    simpa [validateFields] using h

theorem validateFields_get_ne (validators : GoMap RuleFunc) (i : Nat) (fs : List StructField)
    (st : Errors × List RuleCall) (k : String)
    (hk : ∀ f ∈ fs, exported f = true → fieldName f ≠ k) :
    (validateFields validators i fs st).1.get k = st.1.get k := by
  induction fs generalizing i st with
  | nil => simp [validateFields]
  | cons f rest ih =>
    simp only [validateFields]
    rw [ih _ _ (fun g hg => hk g (List.mem_cons_of_mem f hg))]
    exact validateField_get_ne _ _ _ _ _ (hk f (List.mem_cons_self f rest))

theorem validateFields_has (validators : GoMap RuleFunc) (i : Nat) (fs : List StructField)
    (st : Errors × List RuleCall) (k : String) :
    (validateFields validators i fs st).1.has k = true ↔
      st.1.has k = true ∨
        ∃ f ∈ fs, exported f = true ∧ fieldName f = k ∧ hasFailingRule validators f = true := by
  induction fs generalizing i st with
  | nil => simp [validateFields]
  | cons f rest ih =>
    simp only [validateFields]
    rw [ih, validateField_has]
    simp only [List.mem_cons, exists_eq_or_imp, or_assoc]

theorem validateFields_calls (validators : GoMap RuleFunc) (i : Nat) (fs : List StructField)
    (st : Errors × List RuleCall) :
    ∃ extra, (validateFields validators i fs st).2 = st.2 ++ extra ∧
      ∀ c ∈ extra, i ≤ c.field ∧ c.field < i + fs.length := by
  induction fs generalizing i st with
  | nil => exact ⟨[], by simp [validateFields]⟩
  | cons f rest ih =>
    simp only [validateFields]
    obtain ⟨e₁, h₁, hf₁⟩ := validateField_calls validators i f st
    obtain ⟨e₂, h₂, hf₂⟩ := ih (i + 1) (validateField validators i f st)
    refine ⟨e₁ ++ e₂, ?_, ?_⟩
    · rw [h₂, h₁, List.append_assoc]
    · intro c hc
      rcases List.mem_append.1 hc with h | h
      · have := hf₁ c h
        simp only [List.length_cons]
        omega
      · have := hf₂ c h
        simp only [List.length_cons]
        omega

theorem validateFields_nodup (validators : GoMap RuleFunc) (i : Nat) (fs : List StructField)
    (st : Errors × List RuleCall) (h : st.1.keys.Nodup) :
    (validateFields validators i fs st).1.keys.Nodup := by
  induction fs generalizing i st with
  | nil => simpa [validateFields] using h
  | cons f rest ih =>
    simp only [validateFields]
    exact ih _ _ (validateField_nodup _ _ _ _ h)

theorem validateFields_fst_congr (validators : GoMap RuleFunc) (i j : Nat)
    (fs : List StructField) (st st' : Errors × List RuleCall) (h : st.1 = st'.1) :
    (validateFields validators i fs st).1 = (validateFields validators j fs st').1 := by
  induction fs generalizing i j st st' with
  | nil => simpa [validateFields] using h
  | cons f rest ih =>
    simp only [validateFields]
    exact ih _ _ _ _ (validateField_fst_congr _ _ _ _ _ _ h)

theorem validateFields_fst_filter (validators : GoMap RuleFunc) (i j : Nat)
    (fs : List StructField) (st st' : Errors × List RuleCall) (h : st.1 = st'.1) :
    (validateFields validators i fs st).1
      = (validateFields validators j (fs.filter exported) st').1 := by
  induction fs generalizing i j st st' with
  | nil => simpa [validateFields] using h
  | cons f rest ih =>
    cases hexp : exported f with
    | false =>
      simp only [validateFields, List.filter_cons, hexp, Bool.false_eq_true, if_false]
      rw [validateField_unexported _ _ _ _ hexp]
      exact ih _ _ _ _ h
    | true =>
      simp only [validateFields, List.filter_cons, hexp, if_true]
      exact ih _ _ _ _ (validateField_fst_congr _ _ _ _ _ _ h)

theorem entryOf_ValidateStruct (validators : GoMap RuleFunc) (dest : List StructField)
    (k : String) :
    entryOf (ValidateStruct validators dest) k = (validateLoop validators dest).1.get k := by
  unfold ValidateStruct
  simp only
  split
  · rfl
  · rename_i h
    have : (validateLoop validators dest).1 = [] := by
      cases hl : (validateLoop validators dest).1 with
      | nil => rfl
      | cons a b => simp [hl] at h
    simp [entryOf, this, GoMap.get]

theorem keysOf_ValidateStruct (validators : GoMap RuleFunc) (dest : List StructField) :
    keysOf (ValidateStruct validators dest) = (validateLoop validators dest).1.keys := by
  unfold ValidateStruct
  simp only
  split
  · rfl
  · rename_i h
    have : (validateLoop validators dest).1 = [] := by
      cases hl : (validateLoop validators dest).1 with
      | nil => rfl
      | cons a b => simp [hl] at h
    simp [keysOf, this, GoMap.keys]

theorem split_at_index {α : Type} (l : List α) (i : Nat) (a : α) (h : l[i]? = some a) :
    ∃ pre post, l = pre ++ a :: post ∧ pre.length = i := by
  induction l generalizing i with
  | nil => simp at h
  | cons b rest ih =>
    cases i with
    | zero =>
      simp at h
      exact ⟨[], rest, by simp [h], rfl⟩
    | succ i =>
      obtain ⟨pre, post, h₁, h₂⟩ := ih i (by simpa using h)
      exact ⟨b :: pre, post, by simp [h₁], by simp [h₂]⟩

theorem distinct_split (pre post : List StructField) (f : StructField)
    (hexp : exported f = true)
    (hd : (((pre ++ f :: post).filter exported).map fieldName).Nodup) :
    (∀ g ∈ pre, exported g = true → fieldName g ≠ fieldName f) ∧
      (∀ g ∈ post, exported g = true → fieldName g ≠ fieldName f) := by
  simp only [List.filter_append, List.filter_cons, hexp, if_true, List.map_append,
    List.map_cons] at hd
  rw [List.nodup_append] at hd
  obtain ⟨_, h₂, h₃⟩ := hd
  constructor
  · intro g hg hge heq
    have hmem : fieldName g ∈ List.map fieldName (List.filter exported pre) :=
      List.mem_map.2 ⟨g, List.mem_filter.2 ⟨hg, hge⟩, rfl⟩
    exact h₃ hmem (by simp [heq]) 
  · intro g hg hge heq
    have hmem : fieldName g ∈ List.map fieldName (List.filter exported post) :=
      List.mem_map.2 ⟨g, List.mem_filter.2 ⟨hg, hge⟩, rfl⟩
    rw [List.nodup_cons] at h₂
    exact h₂.1 (heq ▸ hmem)

/-- The entry of a field whose display name no other exported field shares is
the one its own loop body leaves. -/
theorem validateLoop_get_at (validators : GoMap RuleFunc) (pre post : List StructField)
    (f : StructField)
    (hpost : ∀ g ∈ post, exported g = true → fieldName g ≠ fieldName f) :
    (validateLoop validators (pre ++ f :: post)).1.get (fieldName f)
      = (validateField validators pre.length f
          (validateFields validators 0 pre ([], []))).1.get (fieldName f) := by
  unfold validateLoop
  rw [validateFields_append]
  simp only [validateFields, Nat.zero_add]
  exact validateFields_get_ne _ _ _ _ _ hpost

theorem validateFields_pre_has (validators : GoMap RuleFunc) (pre : List StructField)
    (k : String) (hpre : ∀ g ∈ pre, exported g = true → fieldName g ≠ k) :
    (validateFields validators 0 pre ([], [])).1.has k = false := by
  have h := validateFields_get_ne validators 0 pre ([], []) k hpre
  simp [GoMap.has, h, GoMap.get]

theorem validateLoop_calls_at (validators : GoMap RuleFunc) (pre post : List StructField)
    (f : StructField) (extra : List RuleCall)
    (h₁ : (validateField validators pre.length f (validateFields validators 0 pre ([], []))).2
      = (validateFields validators 0 pre ([], [])).2 ++ extra)
    (h₂ : ∀ c ∈ extra, c.field = pre.length) :
    (validateLoop validators (pre ++ f :: post)).2.filter (fun c => c.field = pre.length)
      = extra := by
  unfold validateLoop
  rw [validateFields_append]
  simp only [validateFields, Nat.zero_add]
  obtain ⟨e₁, hp₁, hp₂⟩ := validateFields_calls validators 0 pre ([], [])
  obtain ⟨e₃, hq₁, hq₂⟩ := validateFields_calls validators (pre.length + 1) post
    (validateField validators pre.length f (validateFields validators 0 pre ([], [])))
  rw [hq₁, h₁, hp₁]
  simp only [List.nil_append, List.filter_append]
  have f₁ : List.filter (fun c => decide (c.field = pre.length)) e₁ = [] := by
    rw [List.filter_eq_nil_iff]
    intro c hc
    have := hp₂ c hc
    simp only [decide_eq_true_eq]
    omega
  have f₂ : List.filter (fun c => decide (c.field = pre.length)) extra = extra := by
    rw [List.filter_eq_self]
    intro c hc
    simp [h₂ c hc]
  have f₃ : List.filter (fun c => decide (c.field = pre.length)) e₃ = [] := by
    rw [List.filter_eq_nil_iff]
    intro c hc
    have := hq₂ c hc
    simp only [decide_eq_true_eq]
    omega
  rw [f₁, f₂, f₃]
  simp

/-! ## Claims about ValidateStruct -/

theorem firstFailing_run (validators : GoMap RuleFunc)
    (dest : List StructField) (i : Nat) (f : StructField)
    (hdistinct : ((dest.filter exported).map fieldName).Nodup)
    (hf : dest[i]? = some f) (hexp : exported f = true)
    (hpresent : f.value ≠ GoValue.nilPtr) :
    (∀ k rule e, (Split f.validationTag ',')[k]? = some rule →
        ruleError validators (fieldValue f) rule = some e →
        (∀ j rule', j < k → (Split f.validationTag ',')[j]? = some rule' →
          ruleError validators (fieldValue f) rule' = none) →
        entryOf (ValidateStruct validators dest) (fieldName f) = some e ∧
        (ruleCalls validators dest).filter (fun c => c.field = i)
          = callsFor validators i (fieldValue f) ((Split f.validationTag ',').take (k + 1))) ∧
    ((∀ rule ∈ Split f.validationTag ',', ruleError validators (fieldValue f) rule = none) →
        entryOf (ValidateStruct validators dest) (fieldName f) = none ∧
        (ruleCalls validators dest).filter (fun c => c.field = i)
          = callsFor validators i (fieldValue f) (Split f.validationTag ',')) ∧
    (keysOf (ValidateStruct validators dest)).Nodup := by
  obtain ⟨pre, post, rfl, rfl⟩ := split_at_index dest i f hf
  obtain ⟨hpre, hpost⟩ := distinct_split pre post f hexp hdistinct
  have hno := validateFields_pre_has validators pre (fieldName f) hpre
  have hstep := validateField_present validators pre.length f
    (validateFields validators 0 pre ([], [])) hexp hpresent
  refine ⟨?_, ?_, ?_⟩
  · intro k rule e hk he hbefore
    have hrun := runRules_first_fail validators pre.length (fieldName f) (fieldValue f)
      (Split f.validationTag ',') (validateFields validators 0 pre ([], [])).1
      (validateFields validators 0 pre ([], [])).2 hno k rule e hk he hbefore
    rw [Prod.mk.eta] at hrun
    constructor
    · rw [entryOf_ValidateStruct, validateLoop_get_at _ _ _ _ hpost, hstep, hrun]
      exact GoMap.get_set_self _ _ _
    · unfold ruleCalls
      apply validateLoop_calls_at
      · rw [hstep, hrun]
      · exact callsFor_field _ _ _ _
  · intro hall
    have hrun := runRules_all_pass validators pre.length (fieldName f) (fieldValue f)
      (Split f.validationTag ',') (validateFields validators 0 pre ([], [])).1
      (validateFields validators 0 pre ([], [])).2 hno hall
    rw [Prod.mk.eta] at hrun
    constructor
    · rw [entryOf_ValidateStruct, validateLoop_get_at _ _ _ _ hpost, hstep, hrun]
      simpa [GoMap.has] using hno
    · unfold ruleCalls
      apply validateLoop_calls_at
      · rw [hstep, hrun]
      · exact callsFor_field _ _ _ _
  · rw [keysOf_ValidateStruct]
    exact validateFields_nodup _ _ _ _ (by simp [GoMap.keys])

theorem cutChars_takeWhile (sep : Char) (l : List Char) :
    (cutChars sep l).1 = l.takeWhile (fun c => c != sep) ∧
    ((cutChars sep l).2.map String.mk).getD ""
      = String.mk ((l.dropWhile (fun c => c != sep)).drop 1) := by
  induction l with
  | nil => exact ⟨rfl, rfl⟩
  | cons c rest ih =>
    by_cases hc : c = sep
    · subst hc
      simp [cutChars, List.takeWhile, List.dropWhile]
    · have hb : (c != sep) = true := by simpa using hc
      simp only [cutChars, hc, if_false, List.takeWhile, List.dropWhile, hb]
      exact ⟨by rw [ih.1], ih.2⟩

theorem tokenName_eq (rule : String) : ruleName rule = tokenName rule := by
  unfold ruleName tokenName SplitN2
  rw [(cutChars_takeWhile '=' _).1]

theorem tokenParam_eq (rule : String) : ruleParam rule = tokenParam rule := by
  unfold ruleParam tokenParam SplitN2
  exact (cutChars_takeWhile '=' _).2

theorem tokenError_eq (validators : GoMap RuleFunc) (v : GoValue) (rule : String) :
    ruleError validators v rule = tokenError validators v rule := by
  unfold ruleError tokenError GetValidator
  rw [tokenName_eq, tokenParam_eq]

theorem expectedCalls_eq (validators : GoMap RuleFunc) (i : Nat) (v : GoValue)
    (rules : List String) : callsFor validators i v rules = expectedCalls validators i v rules := by
  induction rules with
  | nil => rfl
  | cons rule rest ih =>
    simp only [callsFor, expectedCalls, GetValidator, tokenName_eq, tokenParam_eq, ih]

theorem seenValue_eq (f : StructField) : fieldValue f = seenValue f.value := by
  unfold fieldValue seenValue
  cases f.value <;> rfl

theorem fieldFails_eq (validators : GoMap RuleFunc) (f : StructField) :
    hasFailingRule validators f = fieldFails validators f := by
  unfold hasFailingRule fieldFails requiredFailsOnNil GetValidator
  simp only [tokenName_eq, tokenError_eq, seenValue_eq]

/-- C1. In a record whose exported fields have distinct display names, a present
exported field gets, under its display name, the error of the first rule token
of its rule list, in declared order, whose registered rule function fails on
its value, given the parameter of the token; the rule functions invoked for
the field are those of the registered tokens up to and including that one, each
with its parameter, so none declared after it; if no rule fails the field has
no entry and every registered rule was invoked; the result holds no key twice. -/
theorem validateStruct_first_failing_rule (validators : GoMap RuleFunc)
    (dest : List StructField) (i : Nat) (f : StructField)
    (hdistinct : ((dest.filter exported).map fieldName).Nodup)
    (hf : dest[i]? = some f) (hexp : exported f = true)
    (hpresent : f.value ≠ GoValue.nilPtr) :
    (∀ k rule e, (Split f.validationTag ',')[k]? = some rule →
        tokenError validators (seenValue f.value) rule = some e →
        (∀ j rule', j < k → (Split f.validationTag ',')[j]? = some rule' →
          tokenError validators (seenValue f.value) rule' = none) →
        entryOf (ValidateStruct validators dest) (fieldName f) = some e ∧
        (ruleCalls validators dest).filter (fun c => c.field = i)
          = expectedCalls validators i (seenValue f.value)
              ((Split f.validationTag ',').take (k + 1))) ∧
    ((∀ rule ∈ Split f.validationTag ',',
          tokenError validators (seenValue f.value) rule = none) →
        entryOf (ValidateStruct validators dest) (fieldName f) = none ∧
        (ruleCalls validators dest).filter (fun c => c.field = i)
          = expectedCalls validators i (seenValue f.value) (Split f.validationTag ',')) ∧
    (keysOf (ValidateStruct validators dest)).Nodup := by
  have h := firstFailing_run validators dest i f hdistinct hf hexp hpresent
  simp only [tokenError_eq, expectedCalls_eq, seenValue_eq] at h
  exact h

/-- C1 at a record whose first field points to the text `ab` and has the rules
`required, minlen=3,deny`: `required` passes, `minlen` is given the parameter
`3` and fails, which makes it the second and last rule invoked for the field,
and its error is the entry of `name`. -/
theorem validateStruct_first_failing_rule_witness :
    entryOf (ValidateStruct paramValidators failingRecord) "name" = some (sampleShort 3) ∧
    (ruleCalls paramValidators failingRecord).filter (fun c => c.field = 0)
      = [⟨0, "required", GoValue.str "ab", ""⟩, ⟨0, "minlen", GoValue.str "ab", "3"⟩] :=
  (validateStruct_first_failing_rule paramValidators failingRecord 0
      (sampleField "Name" "name" "required, minlen=3,deny" (GoValue.ptrTo (GoValue.str "ab")))
      (by decide) rfl rfl (by decide)).1 1 " minlen=3" (sampleShort 3) rfl rfl
    (by
      intro j rule' hj hr
      have hj0 : j = 0 := by omega
      subst hj0
      have : rule' = "required" := by
        have h0 : (Split (sampleField "Name" "name" "required, minlen=3,deny"
            (GoValue.ptrTo (GoValue.str "ab"))).validationTag ',')[0]? = some "required" := rfl
        rw [h0] at hr
        exact (Option.some.inj hr).symm
      subst this
      rfl)

theorem requiredRule_eq (E : GoError) (v : GoValue) (p : String) :
    requiredRule E v p = if v = v.zero then some E else none := by
  unfold requiredRule isZero
  by_cases h₁ : v = GoValue.nil
  · subst h₁; simp [GoValue.zero]
  · by_cases h₂ : v = GoValue.nilPtr
    · subst h₂; simp [GoValue.zero]
    · rw [if_neg h₁, if_neg h₂]
      simp only [decide_eq_true_eq]

theorem fieldValue_zero_iff (f : StructField) (hp : f.value ≠ GoValue.nilPtr) :
    fieldValue f = (fieldValue f).zero ↔ zeroOrPointsToZero f.value = true := by
  unfold fieldValue zeroOrPointsToZero
  cases hv : f.value with
  | nilPtr => exact absurd hv hp
  | ptrTo elem => simp [GoValue.zero]
  | nil => simp [GoValue.zero]
  | int n => simp [GoValue.zero]
  | uint n => simp [GoValue.zero]
  | bool b => simp [GoValue.zero]
  | str s => simp [GoValue.zero]
  | named typ s => simp [GoValue.zero]

theorem ruleError_required (validators : GoMap RuleFunc) (E : GoError) (v : GoValue)
    (tok : String) (hreq : GetValidator validators "required" = some (requiredRule E))
    (hname : ruleName tok = "required") :
    ruleError validators v tok = if v = v.zero then some E else none := by
  unfold ruleError
  rw [hname, hreq]
  exact requiredRule_eq E v _

/-- C2 (amended). With the built-in `required` rule registered: for a present
exported field whose only rule is `required` and whose display name no other
exported field of the record shares, the result maps the display name to
ErrFieldRequired if and only if the value is the zero value of its type or a
non-nil pointer to such a value; otherwise the display name has no entry. -/
theorem validateStruct_required_iff_zero (validators : GoMap RuleFunc) (E : GoError)
    (pre post : List StructField) (f : StructField) (tok : String)
    (hreq : GetValidator validators "required" = some (requiredRule E))
    (hexp : exported f = true) (hpresent : f.value ≠ GoValue.nilPtr)
    (hrules : Split f.validationTag ',' = [tok]) (hname : ruleName tok = "required")
    (hsolo : ∀ g ∈ pre ++ post, exported g = true → fieldName g ≠ fieldName f) :
    (entryOf (ValidateStruct validators (pre ++ f :: post)) (fieldName f) = some E ↔
        zeroOrPointsToZero f.value = true) ∧
    (zeroOrPointsToZero f.value = false →
        entryOf (ValidateStruct validators (pre ++ f :: post)) (fieldName f) = none) := by
  have hpre : ∀ g ∈ pre, exported g = true → fieldName g ≠ fieldName f :=
    fun g hg => hsolo g (List.mem_append_left post hg)
  have hpost : ∀ g ∈ post, exported g = true → fieldName g ≠ fieldName f :=
    fun g hg => hsolo g (List.mem_append_right pre hg)
  have hno := validateFields_pre_has validators pre (fieldName f) hpre
  have hstep := validateField_present validators pre.length f
    (validateFields validators 0 pre ([], [])) hexp hpresent
  have herr := ruleError_required validators E (fieldValue f) tok hreq hname
  have hentry : entryOf (ValidateStruct validators (pre ++ f :: post)) (fieldName f)
      = if zeroOrPointsToZero f.value = true then some E else none := by
    rw [entryOf_ValidateStruct, validateLoop_get_at _ _ _ _ hpost, hstep, hrules]
    by_cases hz : zeroOrPointsToZero f.value = true
    · have hz' := (fieldValue_zero_iff f hpresent).2 hz
      rw [if_pos hz'] at herr
      have hrun := runRules_first_fail validators pre.length (fieldName f) (fieldValue f)
        [tok] (validateFields validators 0 pre ([], [])).1
        (validateFields validators 0 pre ([], [])).2 hno 0 tok E rfl herr
        (fun j _ hj => absurd hj (Nat.not_lt_zero j))
      rw [Prod.mk.eta] at hrun
      rw [hrun, if_pos hz]
      exact GoMap.get_set_self _ _ _
    · have hz' : ¬ fieldValue f = (fieldValue f).zero :=
        fun h => hz ((fieldValue_zero_iff f hpresent).1 h)
      rw [if_neg hz'] at herr
      have hrun := runRules_all_pass validators pre.length (fieldName f) (fieldValue f)
        [tok] (validateFields validators 0 pre ([], [])).1
        (validateFields validators 0 pre ([], [])).2 hno
        (fun rule hr => by rw [List.mem_singleton.1 hr]; exact herr)
      rw [Prod.mk.eta] at hrun
      rw [hrun, if_neg hz]
      simpa [GoMap.has] using hno
  rw [hentry]
  constructor
  · by_cases hz : zeroOrPointsToZero f.value = true <;> simp [hz]
  · intro hz
    simp [hz]

/-- C2 (amended) at a record whose only field is a pointer to the empty string. -/
theorem validateStruct_required_iff_zero_witness :
    entryOf (ValidateStruct sampleValidators
        [sampleField "Name" "name" " required " (GoValue.ptrTo (GoValue.str ""))]) "name"
      = some sampleRequired :=
  ((validateStruct_required_iff_zero sampleValidators sampleRequired [] []
      (sampleField "Name" "name" " required " (GoValue.ptrTo (GoValue.str ""))) " required "
      rfl rfl (by decide) rfl (by decide) (by simp)).1).2 (by decide)

/-- C2 as stated fails when two exported fields share a display name: the second
field is present, has `required` as its only rule and a non-zero value, yet the
result maps its display name to ErrFieldRequired (recorded for the first). -/
theorem validateStruct_required_counterexample :
    fieldName (sampleField "Alias" "name" "required" (GoValue.str "bob")) = "name" ∧
    zeroOrPointsToZero (GoValue.str "bob") = false ∧
    entryOf (ValidateStruct sampleValidators
        [sampleField "Name" "name" "required" (GoValue.str ""),
         sampleField "Alias" "name" "required" (GoValue.str "bob")]) "name"
      = some sampleRequired :=
  ⟨by decide, by decide, rfl⟩

theorem validateField_absent (validators : GoMap RuleFunc) (E : GoError) (i : Nat)
    (f : StructField) (st : Errors × List RuleCall)
    (hreq : GetValidator validators "required" = some (requiredRule E))
    (hexp : exported f = true) (habsent : f.value = GoValue.nilPtr) :
    validateField validators i f st
      = if ruleContains (Split f.validationTag ',') "required" = true then
          (st.1.set (fieldName f) E, st.2 ++ [⟨i, "required", GoValue.nil, ""⟩])
        else st := by
  have h' : f.PkgPath = "" := by simpa [exported] using hexp
  have hnil : requiredRule E GoValue.nil "" = some E := by
    rw [requiredRule_eq]; simp [GoValue.zero]
  unfold validateField
  simp only [h', ne_eq, not_true_eq_false, if_false, habsent, if_true, hreq, hnil]

theorem validateField_keeps (validators : GoMap RuleFunc) (E : GoError) (i : Nat)
    (g : StructField) (st : Errors × List RuleCall) (k : String)
    (hreq : GetValidator validators "required" = some (requiredRule E))
    (hk : st.1.get k = some E) :
    (validateField validators i g st).1.get k = some E := by
  by_cases hg : exported g = true ∧ fieldName g = k
  · obtain ⟨hexp, rfl⟩ := hg
    by_cases hp : g.value = GoValue.nilPtr
    · rw [validateField_absent validators E i g st hreq hexp hp]
      split
      · exact GoMap.get_set_self _ _ _
      · exact hk
    · rw [validateField_present _ _ _ _ hexp hp]
      obtain ⟨errors, calls⟩ := st
      rw [runRules_of_has _ _ _ _ _ _ _ (by simp [GoMap.has, hk])]
      exact hk
  · rw [validateField_get_ne _ _ _ _ _ (fun h₁ h₂ => hg ⟨h₁, h₂⟩)]
    exact hk

theorem validateFields_keeps (validators : GoMap RuleFunc) (E : GoError) (i : Nat)
    (fs : List StructField) (st : Errors × List RuleCall) (k : String)
    (hreq : GetValidator validators "required" = some (requiredRule E))
    (hk : st.1.get k = some E) :
    (validateFields validators i fs st).1.get k = some E := by
  induction fs generalizing i st with
  | nil => simpa [validateFields] using hk
  | cons g rest ih =>
    simp only [validateFields]
    exact ih _ _ (validateField_keeps _ _ _ _ _ _ hreq hk)

theorem validateStruct_congr (validators : GoMap RuleFunc) (dest dest' : List StructField)
    (h : (validateLoop validators dest).1 = (validateLoop validators dest').1) :
    ValidateStruct validators dest = ValidateStruct validators dest' := by
  unfold ValidateStruct
  rw [h]

/-- C3. With the built-in `required` rule registered, for an absent (nil pointer)
exported field: if a rule named `required` is among its rules the result maps
its display name to ErrFieldRequired; otherwise the loop body leaves every state
unchanged, so that no rule is invoked for the field, the result is that of the
record without the field, and the display name has no entry unless another
exported field carries the same display name. -/
theorem validateStruct_absent_field (validators : GoMap RuleFunc) (E : GoError)
    (pre post : List StructField) (f : StructField)
    (hreq : GetValidator validators "required" = some (requiredRule E))
    (hexp : exported f = true) (habsent : f.value = GoValue.nilPtr) :
    ((∃ rule ∈ Split f.validationTag ',', ruleName rule = "required") →
        entryOf (ValidateStruct validators (pre ++ f :: post)) (fieldName f) = some E) ∧
    ((¬ ∃ rule ∈ Split f.validationTag ',', ruleName rule = "required") →
        (∀ i st, validateField validators i f st = st) ∧
        (∀ c ∈ ruleCalls validators (pre ++ f :: post), c.field ≠ pre.length) ∧
        ValidateStruct validators (pre ++ f :: post) = ValidateStruct validators (pre ++ post) ∧
        ((∀ g ∈ pre ++ post, exported g = true → fieldName g ≠ fieldName f) →
          entryOf (ValidateStruct validators (pre ++ f :: post)) (fieldName f) = none)) := by
  constructor
  · intro hin
    have hc := (ruleContains_iff _).2 hin
    rw [entryOf_ValidateStruct]
    unfold validateLoop
    rw [validateFields_append]
    simp only [validateFields, Nat.zero_add]
    apply validateFields_keeps _ E _ _ _ _ hreq
    rw [validateField_absent validators E _ f _ hreq hexp habsent, if_pos hc]
    exact GoMap.get_set_self _ _ _
  · intro hnot
    have hc : ¬ ruleContains (Split f.validationTag ',') "required" = true :=
      fun h => hnot ((ruleContains_iff _).1 h)
    have hskip : ∀ i st, validateField validators i f st = st := by
      intro i st
      rw [validateField_absent validators E i f st hreq hexp habsent, if_neg hc]
    have hcalls : (validateLoop validators (pre ++ f :: post)).2.filter
        (fun c => c.field = pre.length) = [] :=
      validateLoop_calls_at validators pre post f [] (by rw [hskip]; simp) (by simp)
    have hloop : (validateLoop validators (pre ++ f :: post)).1
        = (validateLoop validators (pre ++ post)).1 := by
      unfold validateLoop
      rw [validateFields_append, validateFields_append]
      simp only [validateFields, Nat.zero_add]
      rw [hskip]
      exact validateFields_fst_congr _ _ _ _ _ _ rfl
    refine ⟨hskip, ?_, validateStruct_congr _ _ _ hloop, ?_⟩
    · intro c hc' heq
      have hmem : c ∈ (validateLoop validators (pre ++ f :: post)).2.filter
          (fun c => c.field = pre.length) :=
        List.mem_filter.2 ⟨hc', by simp [heq]⟩
      rw [hcalls] at hmem
      exact absurd hmem (List.not_mem_nil c)
    · intro hsolo
      rw [entryOf_ValidateStruct, hloop]
      have hget := validateFields_get_ne validators 0 (pre ++ post) ([], []) (fieldName f) hsolo
      unfold validateLoop
      rw [hget]
      rfl

/-- C3 at a record whose second field is an absent pointer with the rules
`deny, required=1`: the required error is recorded under its display name. -/
theorem validateStruct_absent_field_witness :
    entryOf (ValidateStruct sampleValidators
        [sampleField "Name" "name" "required" (GoValue.str "bob"),
         sampleField "Nick" "nick" "deny, required=1" GoValue.nilPtr]) "nick"
      = some sampleRequired :=
  (validateStruct_absent_field sampleValidators sampleRequired
      [sampleField "Name" "name" "required" (GoValue.str "bob")] []
      (sampleField "Nick" "nick" "deny, required=1" GoValue.nilPtr) rfl rfl rfl).1
    ⟨" required=1", by decide, by decide⟩

theorem nilIffKeys_run (validators : GoMap RuleFunc)
    (dest : List StructField) :
    (ValidateStruct validators dest = none ↔
        ∀ f ∈ dest, exported f = true → hasFailingRule validators f = false) ∧
    (∀ err, ValidateStruct validators dest = some err →
        ∃ errs, err = GoError.aggregate errs ∧ errs ≠ [] ∧
          ∀ k, k ∈ GoMap.keys errs ↔
            ∃ f ∈ dest, exported f = true ∧ fieldName f = k ∧
              hasFailingRule validators f = true) ∧
    ValidateStruct validators dest = ValidateStruct validators (dest.filter exported) := by
  have hkeys : ∀ k, k ∈ GoMap.keys (validateLoop validators dest).1 ↔
      ∃ f ∈ dest, exported f = true ∧ fieldName f = k ∧
        hasFailingRule validators f = true := by
    intro k
    rw [← GoMap.has_iff_mem_keys]
    unfold validateLoop
    rw [validateFields_has]
    simp [GoMap.has, GoMap.get]
  refine ⟨?_, ?_, ?_⟩
  · unfold ValidateStruct
    simp only
    constructor
    · intro h f hf hexp
      by_contra hfail
      have hfail' : hasFailingRule validators f = true := by simpa using hfail
      have hmem := (hkeys (fieldName f)).2 ⟨f, hf, hexp, rfl, hfail'⟩
      have hlen : (validateLoop validators dest).1.length > 0 := by
        cases hl : (validateLoop validators dest).1 with
        | nil => rw [hl] at hmem; simp [GoMap.keys] at hmem
        | cons a b => simp
      simp [hlen] at h
    · intro h
      have hnil : (validateLoop validators dest).1 = [] := by
        cases hl : (validateLoop validators dest).1 with
        | nil => rfl
        | cons a b =>
          have hmem : a.1 ∈ GoMap.keys (validateLoop validators dest).1 := by
            rw [hl]; simp [GoMap.keys]
          obtain ⟨f, hf, hexp, _, hfail⟩ := (hkeys a.1).1 hmem
          rw [h f hf hexp] at hfail
          exact absurd hfail (by simp)
      simp [hnil]
  · intro err herr
    unfold ValidateStruct at herr
    simp only at herr
    split at herr
    · rename_i hlen
      refine ⟨(validateLoop validators dest).1, (Option.some.inj herr).symm, ?_, hkeys⟩
      intro hnil
      rw [hnil] at hlen
      simp at hlen
    · exact absurd herr (by simp)
  · apply validateStruct_congr
    unfold validateLoop
    exact validateFields_fst_filter _ _ _ _ _ _ rfl

/-- C4. ValidateStruct returns nil exactly when no exported field has a failing
rule; any other result is a non-empty aggregate whose keys are exactly the
display names of the exported fields with a failing rule; and the result is
that of the record with its unexported fields removed. -/
theorem validateStruct_nil_iff_and_keys (validators : GoMap RuleFunc)
    (dest : List StructField) :
    (ValidateStruct validators dest = none ↔
        ∀ f ∈ dest, exported f = true → fieldFails validators f = false) ∧
    (∀ err, ValidateStruct validators dest = some err →
        ∃ errs, err = GoError.aggregate errs ∧ errs ≠ [] ∧
          ∀ k, k ∈ GoMap.keys errs ↔
            ∃ f ∈ dest, exported f = true ∧ fieldName f = k ∧
              fieldFails validators f = true) ∧
    ValidateStruct validators dest = ValidateStruct validators (dest.filter exported) := by
  have h := nilIffKeys_run validators dest
  simp only [fieldFails_eq] at h
  exact h

/-- C4 at two records. In the first no exported field has a failing rule (the
rule of the unexported field would fail, the absent field is not required) and
the result is nil. In the second `minlen=3` fails on the text `ab` the field
`name` points to and the absent field `opt` is required: the result is not nil
and its keys are `name` and `opt`, not `nick`, whose rule `minlen=2` passes, nor
the unexported field. -/
theorem validateStruct_nil_iff_and_keys_witness :
    ValidateStruct paramValidators passingRecord = none ∧
    ValidateStruct paramValidators failingRecord ≠ none ∧
    keysOf (ValidateStruct paramValidators failingRecord) = ["name", "opt"] :=
  ⟨(validateStruct_nil_iff_and_keys paramValidators passingRecord).1.2 (by decide),
   fun h => absurd
     ((validateStruct_nil_iff_and_keys paramValidators failingRecord).1.1 h
       (sampleField "Opt" "opt" "required" GoValue.nilPtr) (by decide) rfl) (by decide),
   by decide⟩

theorem runRules_insert_unregistered (validators : GoMap RuleFunc) (i : Nat) (name : String)
    (v : GoValue) (l₁ l₂ : List String) (tok : String) (st : Errors × List RuleCall)
    (hun : GetValidator validators (ruleName tok) = none) :
    runRules validators i name v (l₁ ++ tok :: l₂) st
      = runRules validators i name v (l₁ ++ l₂) st := by
  induction l₁ generalizing st with
  | nil =>
    obtain ⟨errors, calls⟩ := st
    simp only [List.nil_append, runRules, hun]
    split
    · rename_i h
      exact (runRules_of_has _ _ _ _ _ _ _ h).symm
    · rfl
  | cons r rest ih =>
    obtain ⟨errors, calls⟩ := st
    simp only [List.cons_append, runRules]
    split
    · rfl
    · split
      · exact ih _
      · split
        · exact ih _
        · exact ih _

theorem ruleContains_insert (l₁ l₂ : List String) (tok : String)
    (hne : ruleName tok ≠ "required") :
    ruleContains (l₁ ++ tok :: l₂) "required" = ruleContains (l₁ ++ l₂) "required" := by
  rw [Bool.eq_iff_iff, ruleContains_iff, ruleContains_iff]
  constructor
  · rintro ⟨rule, hmem, hrule⟩
    refine ⟨rule, ?_, hrule⟩
    rcases List.mem_append.1 hmem with h | h
    · exact List.mem_append_left _ h
    · rcases List.mem_cons.1 h with h | h
      · exact absurd (h ▸ hrule) hne
      · exact List.mem_append_right _ h
  · rintro ⟨rule, hmem, hrule⟩
    refine ⟨rule, ?_, hrule⟩
    rcases List.mem_append.1 hmem with h | h
    · exact List.mem_append_left _ h
    · exact List.mem_append_right _ (List.mem_cons_of_mem _ h)

theorem validateField_insert_unregistered (validators : GoMap RuleFunc) (i : Nat)
    (f : StructField) (tag' tok : String) (l₁ l₂ : List String)
    (st : Errors × List RuleCall)
    (h₁ : Split f.validationTag ',' = l₁ ++ l₂) (h₂ : Split tag' ',' = l₁ ++ tok :: l₂)
    (hun : GetValidator validators (ruleName tok) = none) :
    validateField validators i { f with validationTag := tag' } st
      = validateField validators i f st := by
  unfold validateField
  have hname : fieldName { f with validationTag := tag' } = fieldName f := rfl
  have hval : fieldValue { f with validationTag := tag' } = fieldValue f := rfl
  simp only [hname, hval, h₁, h₂]
  split
  · rfl
  · split
    · cases hg : GetValidator validators "required" with
      | none => simp
      | some fn =>
        have hne : ruleName tok ≠ "required" := by
          intro h
          rw [h, hg] at hun
          exact absurd hun (by simp)
        rw [ruleContains_insert l₁ l₂ tok hne]
    · exact runRules_insert_unregistered _ _ _ _ _ _ _ _ hun

/-- C5. Inserting into the rule list of a field, at any position, a rule token
whose name is not registered (with or without a parameter) changes neither the
result of ValidateStruct nor the rule invocations it makes; read from right to
left, removing such a token changes nothing either. -/
theorem validateStruct_unregistered_rule (validators : GoMap RuleFunc)
    (pre post : List StructField) (f : StructField) (tag' tok : String)
    (l₁ l₂ : List String)
    (h₁ : Split f.validationTag ',' = l₁ ++ l₂) (h₂ : Split tag' ',' = l₁ ++ tok :: l₂)
    (hun : GetValidator validators (ruleName tok) = none) :
    ValidateStruct validators (pre ++ { f with validationTag := tag' } :: post)
        = ValidateStruct validators (pre ++ f :: post) ∧
      ruleCalls validators (pre ++ { f with validationTag := tag' } :: post)
        = ruleCalls validators (pre ++ f :: post) := by
  have hloop : validateLoop validators (pre ++ { f with validationTag := tag' } :: post)
      = validateLoop validators (pre ++ f :: post) := by
    unfold validateLoop
    rw [validateFields_append, validateFields_append]
    simp only [validateFields]
    rw [validateField_insert_unregistered validators _ f tag' tok l₁ l₂ _ h₁ h₂ hun]
  exact ⟨validateStruct_congr _ _ _ (by rw [hloop]), by unfold ruleCalls; rw [hloop]⟩

/-- C5 at a field with the rules `required,deny`, into which the unregistered
token `bogus=3` is inserted between the two. -/
theorem validateStruct_unregistered_rule_witness :
    ValidateStruct sampleValidators
        [sampleField "Name" "name" "required,bogus=3,deny" (GoValue.str "bob")]
      = ValidateStruct sampleValidators
        [sampleField "Name" "name" "required,deny" (GoValue.str "bob")] :=
  (validateStruct_unregistered_rule sampleValidators [] []
      (sampleField "Name" "name" "required,deny" (GoValue.str "bob"))
      "required,bogus=3,deny" "bogus=3" ["required"] ["deny"] rfl rfl rfl).1

/-! ## Claims about matchRoute -/

theorem matchParts_isSome_iff (parts pathParts : List String) (params : GoMap String)
    (hlen : parts.length = pathParts.length) :
    (matchParts parts pathParts params).isSome = true ↔
      ∀ (i : Nat) (p q : String), parts[i]? = some p → pathParts[i]? = some q → isCapture p = false → p = q := by
  induction parts generalizing pathParts params with
  | nil => simp [matchParts]
  | cons part parts ih =>
    cases pathParts with
    | nil => simp at hlen
    | cons pathPart pathParts =>
      have hlen' : parts.length = pathParts.length := by simpa using hlen
      simp only [matchParts]
      by_cases hc : HasPrefix part ":" = true
      · rw [if_pos hc, ih _ _ hlen']
        constructor
        · intro h i p q hp hq hcap
          cases i with
          | zero =>
            simp only [List.getElem?_cons_zero, Option.some.injEq] at hp
            subst hp
            simp [isCapture, hc] at hcap
          | succ i => exact h i p q (by simpa using hp) (by simpa using hq) hcap
        · intro h i p q hp hq hcap
          exact h (i + 1) p q (by simpa using hp) (by simpa using hq) hcap
      · rw [if_neg hc]
        by_cases hne : part = pathPart
        · subst hne
          simp only [ne_eq, not_true_eq_false, if_false]
          rw [ih _ _ hlen']
          constructor
          · intro h i p q hp hq hcap
            cases i with
            | zero =>
              simp only [List.getElem?_cons_zero, Option.some.injEq] at hp hq
              rw [← hp, ← hq]
            | succ i => exact h i p q (by simpa using hp) (by simpa using hq) hcap
          · intro h i p q hp hq hcap
            exact h (i + 1) p q (by simpa using hp) (by simpa using hq) hcap
        · simp only [ne_eq, hne, not_false_eq_true, if_true, Option.isSome_none,
            Bool.false_eq_true, false_iff]
          intro h
          exact hne (h 0 part pathPart (by simp) (by simp) (by simpa [isCapture] using hc))

/-- C6. matchRoute reports a match exactly when pattern and path, split on `/`,
have the same number of segments and every pattern segment that is not a
capture equals the path segment at the same position; the pattern `/users/:id`
does not match the path `/users/42/x`. -/
theorem matchRoute_matches_iff (pattern path : String) :
    ((matchRoute pattern path).isSome = true ↔
        (Split pattern '/').length = (Split path '/').length ∧
        ∀ (i : Nat) (p q : String), (Split pattern '/')[i]? = some p → (Split path '/')[i]? = some q →
          isCapture p = false → p = q) ∧
    matchRoute "/users/:id" "/users/42/x" = none := by
  refine ⟨?_, by decide⟩
  unfold matchRoute
  simp only
  by_cases hlen : (Split pattern '/').length = (Split path '/').length
  · simp only [ne_eq, hlen, not_true_eq_false, if_false, true_and]
    exact matchParts_isSome_iff _ _ _ hlen
  · simp [hlen]

theorem matchParts_get_other (parts pathParts : List String) (params result : GoMap String)
    (h : matchParts parts pathParts params = some result) (k : String)
    (hk : k ∉ captureNames parts) : result.get k = params.get k := by
  induction parts generalizing pathParts params with
  | nil =>
    simp only [matchParts, Option.some.injEq] at h
    rw [h]
  | cons part parts ih =>
    cases pathParts with
    | nil => simp [matchParts] at h
    | cons pathPart pathParts =>
      simp only [matchParts] at h
      by_cases hc : HasPrefix part ":" = true
      · rw [if_pos hc] at h
        have hk' : k ∉ captureNames parts ∧ k ≠ dropFirst part := by
          simp only [captureNames, List.filter_cons, isCapture, hc, if_true, List.map_cons,
            List.mem_cons, not_or] at hk
          exact ⟨hk.2, hk.1⟩
        rw [ih _ _ h hk'.1]
        exact GoMap.get_set_ne _ _ hk'.2
      · rw [if_neg hc] at h
        have hk' : k ∉ captureNames parts := by
          simpa [captureNames, List.filter_cons, isCapture, hc] using hk
        by_cases hne : part = pathPart
        · simp only [ne_eq, hne, not_true_eq_false, if_false] at h
          exact ih _ _ h hk'
        · simp [hne] at h

theorem matchParts_get_capture (parts pathParts : List String) (params result : GoMap String)
    (hd : (captureNames parts).Nodup)
    (h : matchParts parts pathParts params = some result) :
    ∀ (i : Nat) (p q : String), parts[i]? = some p → pathParts[i]? = some q → isCapture p = true →
      result.get (dropFirst p) = some q := by
  induction parts generalizing pathParts params with
  | nil => simp
  | cons part parts ih =>
    cases pathParts with
    | nil => simp [matchParts] at h
    | cons pathPart pathParts =>
      simp only [matchParts] at h
      by_cases hc : HasPrefix part ":" = true
      · rw [if_pos hc] at h
        have hd' : dropFirst part ∉ captureNames parts ∧ (captureNames parts).Nodup := by
          simpa [captureNames, List.filter_cons, isCapture, hc] using hd
        intro i p q hp hq hcap
        cases i with
        | zero =>
          simp only [List.getElem?_cons_zero, Option.some.injEq] at hp hq
          subst hp hq
          rw [matchParts_get_other _ _ _ _ h _ hd'.1]
          exact GoMap.get_set_self _ _ _
        | succ i => exact ih _ _ hd'.2 h i p q (by simpa using hp) (by simpa using hq) hcap
      · rw [if_neg hc] at h
        have hd' : (captureNames parts).Nodup := by
          simpa [captureNames, List.filter_cons, isCapture, hc] using hd
        by_cases hne : part = pathPart
        · simp only [ne_eq, hne, not_true_eq_false, if_false] at h
          intro i p q hp hq hcap
          cases i with
          | zero =>
            simp only [List.getElem?_cons_zero, Option.some.injEq] at hp
            subst hp
            simp [isCapture, hc] at hcap
          | succ i => exact ih _ _ hd' h i p q (by simpa using hp) (by simpa using hq) hcap
        · simp [hne] at h

/-- C7. When a pattern with distinct capture names matches a path, the returned
params bind the name of each capture to the path segment at the capture's
position, and every key of params is the name of a capture of the pattern. -/
theorem matchRoute_params (pattern path : String) (params : GoMap String)
    (hd : (captureNames (Split pattern '/')).Nodup)
    (h : matchRoute pattern path = some params) :
    (∀ (i : Nat) (p q : String), (Split pattern '/')[i]? = some p → (Split path '/')[i]? = some q →
        isCapture p = true → params.get (dropFirst p) = some q) ∧
    (∀ k, params.has k = true →
        ∃ (i : Nat) (p : String), (Split pattern '/')[i]? = some p ∧ isCapture p = true ∧ dropFirst p = k) := by
  unfold matchRoute at h
  simp only at h
  split at h
  · exact absurd h (by simp)
  · constructor
    · exact matchParts_get_capture _ _ _ _ hd h
    · intro k hk
      by_contra hnot
      have hk' : k ∉ captureNames (Split pattern '/') := by
        intro hmem
        simp only [captureNames, List.mem_map, List.mem_filter] at hmem
        obtain ⟨p, ⟨hp, hcap⟩, hname⟩ := hmem
        obtain ⟨i, hi⟩ := List.getElem?_of_mem hp
        exact hnot ⟨i, p, hi, hcap, hname⟩
      have := matchParts_get_other _ _ _ _ h k hk'
      simp [GoMap.has, this, GoMap.get] at hk

/-- C7 at the pattern `/users/:id` and the path `/users/42`: params is the map
binding `id` to `42`. -/
theorem matchRoute_params_witness :
    matchRoute "/users/:id" "/users/42" = some [("id", "42")] ∧
    GoMap.get [("id", "42")] (dropFirst ":id") = some "42" :=
  ⟨by decide,
    (matchRoute_params "/users/:id" "/users/42" [("id", "42")] (by decide) (by decide)).1
      2 ":id" "42" (by decide) (by decide) (by decide)⟩

/-! ## Claims about dispatch -/

theorem wrap_cons (mw : MiddlewareFunc) (mws : List MiddlewareFunc) (final : HandlerFunc) :
    wrap (mw :: mws) final = mw (wrap mws final) := by
  simp [wrap, List.foldl_append]

theorem wrap_append (a b : List MiddlewareFunc) (final : HandlerFunc) :
    wrap (a ++ b) final = wrap a (wrap b final) := by
  induction a with
  | nil => simp [wrap]
  | cons mw rest ih => rw [List.cons_append, wrap_cons, wrap_cons, ih]

theorem wrap_stages (ss : List (String × Bool)) (next : HandlerFunc) (tail : List String)
    (hnext : ∀ ctx, (next ctx).1.ran = ctx.ran ++ tail) (ctx : Context) :
    (wrap (ss.map stage) next ctx).1.ran = ctx.ran ++ expectedRun ss tail := by
  induction ss generalizing ctx with
  | nil => simpa [wrap, expectedRun] using hnext ctx
  | cons s rest ih =>
    obtain ⟨l, b⟩ := s
    rw [List.map_cons, wrap_cons]
    cases b with
    | true =>
      simp only [stage, if_true, expectedRun]
      rw [ih]
      simp
    | false => simp [stage, expectedRun]

theorem expectedRun_append (a b : List (String × Bool)) (tail : List String) :
    expectedRun (a ++ b) tail = expectedRun a (expectedRun b tail) := by
  induction a with
  | nil => simp [expectedRun]
  | cons s rest ih =>
    obtain ⟨l, b'⟩ := s
    cases b' <;> simp [expectedRun, ih]

theorem expectedRun_all (ss : List (String × Bool)) (tail : List String)
    (h : ∀ s ∈ ss, s.2 = true) : expectedRun ss tail = ss.map Prod.fst ++ tail := by
  induction ss with
  | nil => simp [expectedRun]
  | cons s rest ih =>
    obtain ⟨l, b⟩ := s
    have hb : b = true := h (l, b) (List.mem_cons_self _ _)
    subst hb
    simp [expectedRun, ih (fun s hs => h s (List.mem_cons_of_mem _ hs))]

theorem findRoute_set (tbl : GoMap routeEntry) (pattern path : String) (e : routeEntry)
    (params : GoMap String) (hmatch : matchRoute pattern path = some params)
    (hothers : ∀ p e', (p, e') ∈ tbl → p ≠ pattern → matchRoute p path = none) :
    findRoute (tbl.set pattern e) path = some (params, e) := by
  induction tbl with
  | nil => simp [GoMap.set, findRoute, hmatch]
  | cons a rest ih =>
    obtain ⟨p, e'⟩ := a
    by_cases hp : p = pattern
    · simp [GoMap.set, hp, findRoute, hmatch]
    · have hnone := hothers p e' (List.mem_cons_self _ _) hp
      simp only [GoMap.set, hp, if_false, findRoute, hnone]
      exact ih (fun q e'' hmem => hothers q e'' (List.mem_cons_of_mem _ hmem))

/-- C8. A route registered on a group with route middleware `rs`, the group
having its own middleware `own` after the middleware `inh` inherited from its
parent, in an application with global middleware `g₁` and (added later by
`App.Use`) `g₂`: when dispatch matches the route, the stages that run are, in the
order global, group (inherited first), route, handler, exactly those up to and
including the first stage that does not invoke its successor; when every stage
invokes its successor they all run, followed by the handler. -/
theorem serveHTTP_runs_stages_in_order (app : App) (parent : Router)
    (pfx path reqPath method h : String) (g₁ g₂ inh own rs : List (String × Bool))
    (params : GoMap String)
    (hglobal : app.mw = g₁.map stage) (hparent : parent.middleware = inh.map stage)
    (hmatch : matchRoute (parent.routePrefix ++ pfx ++ path) reqPath = some params)
    (hothers : ∀ p e, (p, e) ∈ (app.routes.get method).getD [] →
      p ≠ parent.routePrefix ++ pfx ++ path → matchRoute p reqPath = none) :
    ((((parent.Group pfx (own.map stage)).handle app method
          ((parent.Group pfx (own.map stage)).routePrefix ++ path) (labelled h)
          (rs.map stage)).Use (g₂.map stage)).ServeHTTP method reqPath).1.ran
        = expectedRun (g₁ ++ g₂ ++ inh ++ own ++ rs) [h] ∧
    ((∀ s ∈ g₁ ++ g₂ ++ inh ++ own ++ rs, s.2 = true) →
      ((((parent.Group pfx (own.map stage)).handle app method
          ((parent.Group pfx (own.map stage)).routePrefix ++ path) (labelled h)
          (rs.map stage)).Use (g₂.map stage)).ServeHTTP method reqPath).1.ran
        = (g₁ ++ g₂ ++ inh ++ own ++ rs).map Prod.fst ++ [h]) := by
  have hfind := findRoute_set ((app.routes.get method).getD [])
    (parent.routePrefix ++ pfx ++ path) reqPath
    ⟨labelled h, ([] ++ ([] ++ (parent.middleware ++ own.map stage))) ++ rs.map stage⟩
    params hmatch hothers
  rw [hparent] at hfind
  have hrun : ((((parent.Group pfx (own.map stage)).handle app method
          ((parent.Group pfx (own.map stage)).routePrefix ++ path) (labelled h)
          (rs.map stage)).Use (g₂.map stage)).ServeHTTP method reqPath).1.ran
        = expectedRun (g₁ ++ g₂ ++ inh ++ own ++ rs) [h] := by
    simp only [App.ServeHTTP, App.Use, Router.handle, Router.Group, GoMap.get_set_self,
      Option.getD_some, hglobal, hparent, hfind]
    simp only [List.nil_append, ← List.map_append]
    rw [wrap_stages (g₁ ++ g₂) _ (expectedRun (inh ++ own ++ rs) [h])]
    · simp [freshContext, expectedRun_append]
    · intro ctx
      rw [wrap_stages (inh ++ own ++ rs) (labelled h) [h] (fun c => by simp [labelled])]
  refine ⟨hrun, fun hall => ?_⟩
  rw [hrun, expectedRun_all _ _ hall]

/-- C8 at the example of the specification: global middleware `g1`, `g2` and
route middleware `r1`, each invoking its successor, run in the order
g1, g2, r1, handler. -/
theorem serveHTTP_runs_stages_in_order_witness :
    ((((New.router.Group "/users" []).handle New "GET"
          ((New.router.Group "/users" []).routePrefix ++ "/:id") (labelled "handler")
          ([("r1", true)].map stage)).Use ([("g1", true), ("g2", true)].map stage)).ServeHTTP
        "GET" "/users/42").1.ran
      = ["g1", "g2", "r1", "handler"] :=
  (serveHTTP_runs_stages_in_order New New.router "/users" "/:id" "/users/42" "GET" "handler"
      [] [("g1", true), ("g2", true)] [] [] [("r1", true)] [("id", "42")]
      rfl rfl (by decide) (by intro p e hmem; cases hmem)).1

/-! ## Claims about the response helpers -/

/-- C9. Given a coded error, each of Unauthorized, BadInput, NotAllowed,
BadGateway and ServerError sets the context's status to the error's own HTTP
status, writes that status with the envelope of the error's code and of its
description localized in the context's locale, changes nothing else, and
returns the error. -/
theorem helpers_map_coded_error (c : Context) (e : Gapp.Error) :
    ∀ helper ∈ [Context.Unauthorized, Context.BadInput, Context.NotAllowed,
        Context.BadGateway, Context.ServerError],
      helper c (GoError.coded e)
        = (responded c e.HttpStatus (codedEnvelope e c.locale), GoError.coded e) := by
  intro helper hmem
  simp only [List.mem_cons, List.mem_singleton, List.not_mem_nil, or_false] at hmem
  rcases hmem with h | h | h | h | h <;> subst h <;> rfl

/-- C9 at ServerError and a coded error of status 401: the status set and
written is 401, not 500, and the description is the message of the locale. -/
theorem helpers_map_coded_error_witness :
    Context.ServerError (freshContext.UseLocale Bahasa) (GoError.coded sampleExpired)
      = (responded (freshContext.UseLocale Bahasa) 401
          (Json.obj [("code", Json.num 4012),
            ("data", Json.obj [("description", Json.str "token kedaluwarsa")])]),
        GoError.coded sampleExpired) :=
  helpers_map_coded_error (freshContext.UseLocale Bahasa) sampleExpired Context.ServerError
    (by simp)

theorem GoMap.set_of_not_has {α : Type} (m : GoMap α) (k : String) (v : α)
    (h : m.has k = false) : m.set k v = m ++ [(k, v)] := by
  induction m with
  | nil => rfl
  | cons a rest ih =>
    obtain ⟨k', v'⟩ := a
    by_cases hk : k' = k
    · simp [GoMap.has, GoMap.get, hk] at h
    · have h' : GoMap.has rest k = false := by simpa [GoMap.has, GoMap.get, hk] using h
      simp [GoMap.set, hk, ih h']

theorem localizeLoop_eq (tag : Tag) (errs : List (String × GoError)) (result : GoMap Json)
    (hd : (GoMap.keys errs).Nodup) (hdisj : ∀ k ∈ GoMap.keys errs, result.has k = false) :
    localizeLoop tag errs result
      = result ++ errs.map (fun kv => (kv.1, localizeValue tag kv.2)) := by
  induction errs generalizing result with
  | nil => simp [localizeLoop]
  | cons a rest ih =>
    obtain ⟨key, err⟩ := a
    simp only [GoMap.keys, List.map_cons, List.nodup_cons] at hd
    have hkey : result.has key = false := hdisj key (by simp [GoMap.keys])
    rw [localizeLoop, GoMap.set_of_not_has result key _ hkey, ih _ hd.2]
    · simp
    · intro k hk
      have hne : k ≠ key := fun h => hd.1 (h ▸ hk)
      have hres : result.has k = false := hdisj k (by
        simp only [GoMap.keys, List.map_cons, List.mem_cons]
        exact Or.inr hk)
      have hget : GoMap.get (result ++ [(key, localizeValue tag err)]) k = GoMap.get result k := by
        rw [← GoMap.set_of_not_has result key _ hkey]
        exact GoMap.get_set_ne _ _ hne
      simpa [GoMap.has, hget] using hres

theorem get_map_localize (tag : Tag) (errs : List (String × GoError)) (k : String) :
    GoMap.get (errs.map (fun kv => (kv.1, localizeValue tag kv.2))) k
      = localizedEntry tag (GoMap.get errs k) := by
  induction errs with
  | nil => rfl
  | cons a rest ih =>
    obtain ⟨key, err⟩ := a
    by_cases hk : key = k
    · simp only [List.map_cons, GoMap.get, hk, if_true]
      cases err with
      | coded e => simp [localizedEntry, localizeValue]
      | aggregate a => simp [localizedEntry, localizeValue, Errors.LocalizedError]
      | plain text => simp [localizedEntry, localizeValue]
    · simp only [List.map_cons, GoMap.get, hk, if_false]
      exact ih

/-- C10. Given an aggregate (a map, so holding no key twice), BadInput sets
status 400 and writes it with the envelope whose `code` is the text `400` and
whose `data` is the localized field map, and returns the aggregate; that map
has exactly the keys of the aggregate and maps each key to the message of its
coded error localized in the context's locale, to the localized map of its
nested aggregate, or to the text of its other error. -/
theorem badInput_maps_aggregate (c : Context) (A : Errors) (hA : (GoMap.keys A).Nodup) :
    c.BadInput (GoError.aggregate A)
      = (responded c 400 (Json.obj [("code", Json.str "400"),
          ("data", Json.obj (Errors.LocalizedError A c.locale))]), GoError.aggregate A) ∧
    GoMap.keys (Errors.LocalizedError A c.locale) = GoMap.keys A ∧
    ∀ k, GoMap.get (Errors.LocalizedError A c.locale) k
      = localizedEntry c.locale (GoMap.get A k) := by
  have hloop := localizeLoop_eq c.locale A [] hA (fun k _ => rfl)
  rw [List.nil_append] at hloop
  refine ⟨rfl, ?_, ?_⟩
  · unfold Errors.LocalizedError
    rw [hloop]
    simp [GoMap.keys]
  · intro k
    unfold Errors.LocalizedError
    rw [hloop]
    exact get_map_localize c.locale A k

/-- C10 at the example of the specification: for the aggregate mapping `name`
to the required error, in the Bahasa locale, the data written is the map of
`name` to the Bahasa message. -/
theorem badInput_maps_aggregate_witness :
    ((freshContext.UseLocale Bahasa).BadInput (GoError.aggregate [("name", sampleRequired)])).1
      = responded (freshContext.UseLocale Bahasa) 400
          (Json.obj [("code", Json.str "400"),
            ("data", Json.obj [("name", Json.str "kolom wajib diisi")])]) :=
  congrArg Prod.fst
    (badInput_maps_aggregate (freshContext.UseLocale Bahasa) [("name", sampleRequired)]
      (by decide)).1

/-- C11. Given an error that is not a coded error, Unauthorized, NotAllowed,
BadGateway and ServerError set and write the status 401, 405, 502 and 500 with
`code` the decimal text of that status and a description made of a fixed lead
followed by the text of the error, under the key `data` for the first three and
under the key `error` (the envelope having no `data` member) for ServerError;
BadInput does the same with status 400 and key `data` when the error is not an
aggregate either; each helper returns the error. -/
theorem helpers_map_other_error (c : Context) (err : GoError)
    (hcoded : ∀ e, err ≠ GoError.coded e) :
    c.Unauthorized err
      = (responded c 401
          (genericEnvelope "401" "data" ("general unautorized error: " ++ err.Error)), err) ∧
    c.NotAllowed err
      = (responded c 405
          (genericEnvelope "405" "data" ("general not allowed error: " ++ err.Error)), err) ∧
    c.BadGateway err
      = (responded c 502
          (genericEnvelope "502" "data" ("general bad gateway error: " ++ err.Error)), err) ∧
    c.ServerError err
      = (responded c 500
          (genericEnvelope "500" "error" ("general server error: " ++ err.Error)), err) ∧
    (genericEnvelope "500" "error" ("general server error: " ++ err.Error)).member "data"
      = none ∧
    ((∀ a, err ≠ GoError.aggregate a) →
      c.BadInput err
        = (responded c 400
            (genericEnvelope "400" "data" ("general input error: " ++ err.Error)), err)) := by
  cases err with
  | coded e => exact absurd rfl (hcoded e)
  | aggregate a =>
    refine ⟨rfl, rfl, rfl, rfl, rfl, fun h => absurd rfl (h a)⟩
  | plain text =>
    refine ⟨rfl, rfl, rfl, rfl, rfl, fun _ => rfl⟩

/-- C11 at ServerError and the plain error `boom`: status 500 and the
description under the key `error`. -/
theorem helpers_map_other_error_witness :
    freshContext.ServerError (GoError.plain "boom")
      = (responded freshContext 500
          (Json.obj [("code", Json.str "500"),
            ("error", Json.obj [("description", Json.str "general server error: boom")])]),
        GoError.plain "boom") :=
  (helpers_map_other_error freshContext (GoError.plain "boom")
    (fun e h => by cases h)).2.2.2.1

/-- C12 (amended). For every coded error, the `code` member of the envelope
that each response helper writes is the JSON number equal to the error's code. -/
theorem coded_envelope_code_is_number (c : Context) (e : Gapp.Error) :
    lastCode (c.mapError e) = some (Json.num e.Code) ∧
    lastCode (c.Unauthorized (GoError.coded e)).1 = some (Json.num e.Code) ∧
    lastCode (c.BadInput (GoError.coded e)).1 = some (Json.num e.Code) ∧
    lastCode (c.NotAllowed (GoError.coded e)).1 = some (Json.num e.Code) ∧
    lastCode (c.BadGateway (GoError.coded e)).1 = some (Json.num e.Code) ∧
    lastCode (c.ServerError (GoError.coded e)).1 = some (Json.num e.Code) := by
  have h : lastCode (c.mapError e) = some (Json.num e.Code) := by
    simp [lastCode, Context.mapError, Context.JSON, Json.member, GoMap.get]
  exact ⟨h, h, h, h, h, h⟩

/-- C12 as stated fails: for the sample coded error of code 4012 the `code`
member written by Unauthorized is the JSON number 4012, which is not the JSON
string `4012`. -/
theorem coded_envelope_code_counterexample :
    lastCode (freshContext.Unauthorized (GoError.coded sampleExpired)).1
        = some (Json.num 4012) ∧
      lastCode (freshContext.Unauthorized (GoError.coded sampleExpired)).1
        ≠ some (Json.str "4012") :=
  ⟨rfl, fun h => by cases h⟩

/-- C13. Success sets the status to 200 and writes status 200 with the envelope
whose `code` is the text `200` and whose `data` is the payload as given;
nothing else of the context changes. -/
theorem success_envelope (c : Context) (payload : Json) :
    c.Success payload
        = responded c 200 (Json.obj [("code", Json.str "200"), ("data", payload)]) ∧
      (c.Success payload).httpStatus = 200 ∧
      (Json.obj [("code", Json.str "200"), ("data", payload)]).member "data" = some payload :=
  ⟨rfl, rfl, rfl⟩

/-! ## Claims about the error package -/

theorem GoMap.get_set {α : Type} (m : GoMap α) (k k' : String) (v : α) :
    (m.set k v).get k' = if k = k' then some v else m.get k' := by
  by_cases h : k = k'
  · subst h
    simp [GoMap.get_set_self]
  · simp [h, GoMap.get_set_ne m v (Ne.symm h)]

theorem setMessages_get (f : String → String) (msgs : List LangPackage) (m : GoMap String)
    (tag : Tag) :
    (setMessages f msgs m).get tag
      = match messageFor msgs tag with
        | some x => some (f x)
        | none => m.get tag := by
  induction msgs generalizing m with
  | nil => simp [setMessages, messageFor]
  | cons msg rest ih =>
    rw [setMessages, ih, messageFor]
    cases hrest : messageFor rest tag with
    | some x => simp
    | none =>
      simp only [GoMap.get_set]
      by_cases htag : msg.Tag = tag <;> simp [htag]

theorem setMessages_get_nil (f : String → String) (msgs : List LangPackage) (tag : Tag) :
    (setMessages f msgs []).get tag = (messageFor msgs tag).map f := by
  rw [setMessages_get]
  cases messageFor msgs tag <;> simp [GoMap.get]

theorem messageFor_tag_mem (msgs : List LangPackage) (tag : Tag)
    (h : messageFor msgs tag ≠ none) : tag ∈ msgs.map LangPackage.Tag := by
  induction msgs with
  | nil => simp [messageFor] at h
  | cons b rest ih =>
    rw [messageFor] at h
    cases hr : messageFor rest tag with
    | some y => exact List.mem_cons_of_mem _ (ih (by simp [hr]))
    | none =>
      rw [hr] at h
      by_cases hb : b.Tag = tag
      · simp [hb]
      · simp [hb] at h

theorem messageFor_of_mem (msgs : List LangPackage) (msg : LangPackage)
    (hd : (msgs.map LangPackage.Tag).Nodup) (hmem : msg ∈ msgs) :
    messageFor msgs msg.Tag = some msg.Message := by
  induction msgs with
  | nil => simp at hmem
  | cons a rest ih =>
    simp only [List.map_cons, List.nodup_cons] at hd
    rcases List.mem_cons.1 hmem with h | h
    · subst h
      have hnone : messageFor rest msg.Tag = none := by
        by_contra hne
        exact hd.1 (messageFor_tag_mem rest msg.Tag hne)
      simp [messageFor, hnone]
    · simp [messageFor, ih hd.2 h]

theorem collectLoop_loaded (httpStatus : Int) (records : List (String × GoMap String))
    (pack : GoMap ErrAttr) (h : ∀ key a, pack.get key = some a → loadedEntry a) :
    ∀ key a, (collectLoop httpStatus records pack).get key = some a → loadedEntry a := by
  induction records generalizing pack with
  | nil => simpa [collectLoop] using h
  | cons r rest ih =>
    obtain ⟨k, val⟩ := r
    rw [collectLoop]
    apply ih
    intro key a hget
    rw [GoMap.get_set] at hget
    by_cases hk : k = key
    · rw [if_pos hk] at hget
      rw [← Option.some.inj hget]
      exact ⟨_, _, rfl⟩
    · rw [if_neg hk] at hget
      exact h key a hget

theorem loadCatalog_loaded (files : List rawYAMLErrors) :
    ∀ key a, (loadCatalog files).get key = some a → loadedEntry a := by
  have hgen : ∀ (pack : GoMap ErrAttr), (∀ key a, pack.get key = some a → loadedEntry a) →
      ∀ key a, (files.foldl (fun p raw => collectBuildinErrors raw p) pack).get key = some a →
        loadedEntry a := by
    induction files with
    | nil => intro pack h; simpa using h
    | cons raw rest ih =>
      intro pack h
      rw [List.foldl_cons]
      exact ih _ (collectLoop_loaded _ _ _ h)
  exact hgen [] (fun key a h => by simp [GoMap.get] at h)

/-- C14. For an error built by `New` from an identifier, and for an error built
by `registerBuiltinError` from a loaded catalog, LocalizedError for a tag is the
error's message for the tag when it has one, otherwise its English message when
it has one, otherwise the text of the identifier; an error built from a loaded
catalog always has an English message. -/
theorem localizedError_resolution (sprintf : String → List GoValue → String)
    (errorLangPack : GoMap ErrAttr) (files : List rawYAMLErrors) (key : String)
    (attr : Option ErrAttr) (args : List GoValue) (tag : Tag) :
    (errpkg.New sprintf errorLangPack key attr args).LocalizedError tag
        = resolveMessage (errpkg.New sprintf errorLangPack key attr args).localMessages tag key ∧
    ∀ e, registerBuiltinError sprintf (loadCatalog files) key args = some e →
      e.LocalizedError tag = resolveMessage e.localMessages tag key ∧
      e.localMessages.get English ≠ none := by
  constructor
  · have herr : (errpkg.New sprintf errorLangPack key attr args).err = some key := by
      unfold errpkg.New
      split
      · rfl
      · split <;> rfl
    unfold Error.LocalizedError Error.Error resolveMessage
    rw [herr]
  · intro e he
    unfold registerBuiltinError at he
    cases hget : (loadCatalog files).get key with
    | none => simp [hget] at he
    | some entry =>
      obtain ⟨en, id, hmsgs⟩ := loadCatalog_loaded files key entry hget
      simp only [hget, Option.some.injEq] at he
      subst he
      have hen : (setMessages (fun m => sprintf m args) entry.Messages []).get English
          = some (sprintf en args) := by
        rw [setMessages_get_nil, hmsgs]
        simp [messageFor, English, Bahasa]
      refine ⟨?_, by simp [hen]⟩
      unfold Error.LocalizedError Error.Error resolveMessage
      simp only [hen]

/-- C15 (what the code does). A record of a catalog file that has an English
message and no Bahasa message is loaded with an empty Bahasa template, so the
error built from it has a Bahasa message, the formatted empty template, and
LocalizedError for Bahasa returns that text: for the sample record the empty
string, where the English message is `field is required`. -/
theorem missing_translation_is_empty :
    (registerBuiltinError sampleSprintf (loadCatalog [sampleFile]) "ErrFieldRequired" []).map
        (fun e => (e.LocalizedError English, e.LocalizedError Bahasa))
      = some ("field is required", "") ∧
    (errpkg.New sampleSprintf (loadCatalog [sampleFile]) "ErrFieldRequired" none []).LocalizedError
        Bahasa = "" := by
  constructor <;> decide

/-- C16. registerBuiltinError panics exactly when the identifier is not in the
catalog; for an identifier in the catalog it returns an error with the entry's
HTTP status and code whose message for each tag is the entry's template for
that tag formatted with the arguments (for an entry with one package per tag:
every package of the entry gives its formatted template); and writing an entry
under another identifier changes neither this result nor that of `New`. -/
theorem registerBuiltinError_spec (sprintf : String → List GoValue → String)
    (errorLangPack : GoMap ErrAttr) (key : String) (attr : Option ErrAttr)
    (args : List GoValue) :
    (registerBuiltinError sprintf errorLangPack key args = none ↔
        errorLangPack.get key = none) ∧
    (∀ entry, errorLangPack.get key = some entry →
      ∃ e, registerBuiltinError sprintf errorLangPack key args = some e ∧
        e.HttpStatus = entry.HttpStatus ∧ e.Code = entry.Code ∧
        (∀ tag, e.localMessages.get tag
          = (messageFor entry.Messages tag).map (fun m => sprintf m args)) ∧
        ((entry.Messages.map LangPackage.Tag).Nodup →
          ∀ msg ∈ entry.Messages,
            e.localMessages.get msg.Tag = some (sprintf msg.Message args))) ∧
    (∀ other a, other ≠ key →
      registerBuiltinError sprintf (errorLangPack.set other a) key args
          = registerBuiltinError sprintf errorLangPack key args ∧
        errpkg.New sprintf (errorLangPack.set other a) key attr args
          = errpkg.New sprintf errorLangPack key attr args) := by
  refine ⟨?_, ?_, ?_⟩
  · unfold registerBuiltinError
    cases errorLangPack.get key <;> simp
  · intro entry hget
    refine ⟨{ code := entry.Code,
              err := some (((setMessages (fun m => sprintf m args) entry.Messages []).get
                English).getD ""),
              httpStatus := entry.HttpStatus,
              localMessages := setMessages (fun m => sprintf m args) entry.Messages [] },
      by simp only [registerBuiltinError, hget], rfl, rfl, ?_, ?_⟩
    · intro tag
      exact setMessages_get_nil _ _ _
    · intro hd msg hmem
      show (setMessages (fun m => sprintf m args) entry.Messages []).get msg.Tag = _
      rw [setMessages_get_nil, messageFor_of_mem _ _ hd hmem]
      rfl
  · intro other a hne
    have hget : (errorLangPack.set other a).get key = errorLangPack.get key :=
      GoMap.get_set_ne _ _ (Ne.symm hne)
    constructor
    · unfold registerBuiltinError
      rw [hget]
    · unfold errpkg.New
      rw [hget]

/-- C17. `New` always returns an error. For an identifier that is not in the
catalog its HTTP status is the caller's when attributes are given with a
non-zero status and 500 otherwise, its code is the caller's when non-zero and
500 otherwise, and its messages are the caller's messages, unformatted; for an
identifier in the catalog the status, the code and the (formatted) messages are
those of the catalog entry, whatever attributes the caller gives. -/
theorem new_spec (sprintf : String → List GoValue → String)
    (errorLangPack : GoMap ErrAttr) (key : String) (attr : Option ErrAttr)
    (args : List GoValue) :
    (errorLangPack.get key = none →
      (errpkg.New sprintf errorLangPack key attr args).HttpStatus
          = suppliedOr500 attr ErrAttr.HttpStatus ∧
        (errpkg.New sprintf errorLangPack key attr args).Code
          = suppliedOr500 attr ErrAttr.Code ∧
        ∀ tag, (errpkg.New sprintf errorLangPack key attr args).localMessages.get tag
          = suppliedMessage attr tag) ∧
    (∀ entry, errorLangPack.get key = some entry →
      (errpkg.New sprintf errorLangPack key attr args).HttpStatus = entry.HttpStatus ∧
        (errpkg.New sprintf errorLangPack key attr args).Code = entry.Code ∧
        (∀ tag, (errpkg.New sprintf errorLangPack key attr args).localMessages.get tag
          = (messageFor entry.Messages tag).map (fun m => sprintf m args)) ∧
        errpkg.New sprintf errorLangPack key attr args
          = errpkg.New sprintf errorLangPack key none args) := by
  constructor
  · intro hget
    cases attr with
    | none =>
      simp only [errpkg.New, hget]
      exact ⟨rfl, rfl, fun tag => rfl⟩
    | some a =>
      simp only [errpkg.New, hget]
      refine ⟨rfl, rfl, fun tag => ?_⟩
      show (setMessages (fun m => m) a.Messages []).get tag = messageFor a.Messages tag
      rw [setMessages_get_nil]
      cases messageFor a.Messages tag <;> rfl
  · intro entry hget
    simp only [errpkg.New, hget]
    exact ⟨rfl, rfl, fun tag => setMessages_get_nil _ _ _, trivial⟩

/-- C17 for an identifier that is not in the sample catalog, with attributes
giving the status 409, no code and one English message: status 409, code 500. -/
theorem new_spec_witness :
    (errpkg.New sampleSprintf (loadCatalog [sampleFile]) "ErrConflict"
        (some { HttpStatus := 409, Code := 0, Messages := [⟨English, "conflict"⟩] }) []).HttpStatus
      = 409 ∧
    (errpkg.New sampleSprintf (loadCatalog [sampleFile]) "ErrConflict"
        (some { HttpStatus := 409, Code := 0, Messages := [⟨English, "conflict"⟩] }) []).Code
      = 500 :=
  ⟨((new_spec sampleSprintf (loadCatalog [sampleFile]) "ErrConflict"
      (some { HttpStatus := 409, Code := 0, Messages := [⟨English, "conflict"⟩] }) []).1
      (by decide)).1,
   ((new_spec sampleSprintf (loadCatalog [sampleFile]) "ErrConflict"
      (some { HttpStatus := 409, Code := 0, Messages := [⟨English, "conflict"⟩] }) []).1
      (by decide)).2.1⟩

/-! ## Regular expressions -/

namespace Regex

theorem nullable_iff (r : Regex) : r.nullable = true ↔ r.lang [] := by
  induction r with
  | never => simp [nullable, lang]
  | empty => simp [nullable, lang]
  | cls p => simp [nullable, lang]
  | seq r s ihr ihs =>
    simp only [nullable, lang, Bool.and_eq_true, ihr, ihs]
    constructor
    · rintro ⟨hr, hs⟩
      exact ⟨[], [], rfl, hr, hs⟩
    · rintro ⟨u, v, huv, hr, hs⟩
      have hnil := List.append_eq_nil.1 huv.symm
      rw [hnil.1] at hr
      rw [hnil.2] at hs
      exact ⟨hr, hs⟩
  | alt r s ihr ihs => simp [nullable, lang, ihr, ihs]
  | star r _ =>
    simp only [nullable, lang, true_iff]
    exact ⟨[], rfl, by simp⟩

theorem deriv_iff (r : Regex) (c : Char) (w : List Char) :
    (r.deriv c).lang w ↔ r.lang (c :: w) := by
  induction r generalizing w with
  | never => simp [deriv, lang]
  | empty => simp [deriv, lang]
  | cls p =>
    by_cases hp : p c = true
    · simp only [deriv, hp, if_true, lang]
      constructor
      · intro hw
        exact ⟨c, by rw [hw], hp⟩
      · rintro ⟨c', hc, _⟩
        exact (List.cons.inj hc).2
    · simp only [deriv, hp, Bool.false_eq_true, if_false, lang, false_iff]
      rintro ⟨c', hc, hp'⟩
      rw [← (List.cons.inj hc).1] at hp'
      exact hp hp'
  | seq r s ihr ihs =>
    have hback : ∀ u v, c :: w = u ++ v → r.lang u → s.lang v →
        (∃ u' v', w = u' ++ v' ∧ (r.deriv c).lang u' ∧ s.lang v') ∨
          (r.lang [] ∧ (s.deriv c).lang w) := by
      intro u v huv hu hv
      cases u with
      | nil =>
        rw [List.nil_append] at huv
        rw [← huv] at hv
        exact Or.inr ⟨hu, (ihs w).2 hv⟩
      | cons a u' =>
        rw [List.cons_append] at huv
        obtain ⟨hac, hw⟩ := List.cons.inj huv
        rw [← hac] at hu
        exact Or.inl ⟨u', v, hw, (ihr u').2 hu, hv⟩
    by_cases hn : r.nullable = true
    · simp only [deriv, hn, if_true, lang]
      constructor
      · rintro (⟨u, v, hw, hu, hv⟩ | hs)
        · exact ⟨c :: u, v, by rw [hw, List.cons_append], (ihr u).1 hu, hv⟩
        · exact ⟨[], c :: w, rfl, (nullable_iff r).1 hn, (ihs w).1 hs⟩
      · rintro ⟨u, v, huv, hu, hv⟩
        rcases hback u v huv hu hv with h | h
        · exact Or.inl h
        · exact Or.inr h.2
    · simp only [deriv, hn, Bool.false_eq_true, if_false, lang]
      constructor
      · rintro ⟨u, v, hw, hu, hv⟩
        exact ⟨c :: u, v, by rw [hw, List.cons_append], (ihr u).1 hu, hv⟩
      · rintro ⟨u, v, huv, hu, hv⟩
        rcases hback u v huv hu hv with h | h
        · exact h
        · exact absurd ((nullable_iff r).2 h.1) hn
  | alt r s ihr ihs => simp only [deriv, lang, ihr, ihs]
  | star r ihr =>
    simp only [deriv, lang]
    constructor
    · rintro ⟨u, v, hw, hu, ws, hv, hall⟩
      refine ⟨(c :: u) :: ws, by rw [hw, hv, List.flatten_cons, List.cons_append], ?_⟩
      intro x hx
      rcases List.mem_cons.1 hx with h | h
      · rw [h]
        exact ⟨List.cons_ne_nil c u, (ihr u).1 hu⟩
      · exact hall x h
    · rintro ⟨ws, hflat, hall⟩
      cases ws with
      | nil => simp at hflat
      | cons x xs =>
        obtain ⟨hx, hrx⟩ := hall x (List.mem_cons_self x xs)
        cases x with
        | nil => exact absurd rfl hx
        | cons a u =>
          rw [List.flatten_cons, List.cons_append] at hflat
          obtain ⟨hac, hw⟩ := List.cons.inj hflat
          rw [← hac] at hrx
          exact ⟨u, xs.flatten, hw, (ihr u).2 hrx, xs, rfl,
            fun y hy => hall y (List.mem_cons_of_mem _ hy)⟩

theorem matchChars_iff (r : Regex) (w : List Char) : r.matchChars w = true ↔ r.lang w := by
  induction w generalizing r with
  | nil => simpa [matchChars] using nullable_iff r
  | cons c cs ih =>
    rw [matchChars, ih, deriv_iff]

theorem lang_star_cls (p : Char → Bool) (w : List Char) :
    (star (cls p)).lang w ↔ ∀ c ∈ w, p c = true := by
  simp only [lang]
  constructor
  · rintro ⟨ws, hw, hall⟩
    subst hw
    intro c hc
    obtain ⟨u, hu, hcu⟩ := List.mem_flatten.1 hc
    obtain ⟨_, c', hu', hp⟩ := hall u hu
    rw [hu'] at hcu
    rw [List.mem_singleton.1 hcu]
    exact hp
  · intro hall
    induction w with
    | nil => exact ⟨[], rfl, by simp⟩
    | cons c cs ih =>
      obtain ⟨ws, hws, hall'⟩ := ih (fun c' hc' => hall c' (List.mem_cons_of_mem _ hc'))
      refine ⟨[c] :: ws, by rw [List.flatten_cons, ← hws]; rfl, ?_⟩
      intro u hu
      rcases List.mem_cons.1 hu with h | h
      · rw [h]
        exact ⟨List.cons_ne_nil c [], c, rfl, hall c (List.mem_cons_self c cs)⟩
      · exact hall' u h

theorem lang_plus_cls (p : Char → Bool) (w : List Char) :
    (plus (cls p)).lang w ↔ w ≠ [] ∧ ∀ c ∈ w, p c = true := by
  unfold plus
  rw [lang]
  simp only [lang_star_cls]
  constructor
  · rintro ⟨u, v, hw, ⟨c, hu, hp⟩, hv⟩
    subst hw hu
    refine ⟨by simp, ?_⟩
    intro c' hc'
    rcases List.mem_cons.1 hc' with h | h
    · rw [h]; exact hp
    · exact hv c' h
  · rintro ⟨hne, hall⟩
    cases w with
    | nil => exact absurd rfl hne
    | cons c cs =>
      exact ⟨[c], cs, rfl, ⟨c, rfl, hall c (List.mem_cons_self c cs)⟩,
        fun c' hc' => hall c' (List.mem_cons_of_mem _ hc')⟩

theorem lang_atLeastTwo_cls (p : Char → Bool) (w : List Char) :
    (atLeastTwo (cls p)).lang w ↔ 2 ≤ w.length ∧ ∀ c ∈ w, p c = true := by
  unfold atLeastTwo
  rw [lang]
  have hplus := lang_plus_cls p
  unfold plus at hplus
  simp only [hplus]
  constructor
  · rintro ⟨u, v, hw, ⟨c, hu, hp⟩, hne, hv⟩
    subst hw hu
    cases v with
    | nil => exact absurd rfl hne
    | cons a v' =>
      refine ⟨by simp, ?_⟩
      intro c' hc'
      rcases List.mem_cons.1 hc' with h | h
      · rw [h]; exact hp
      · exact hv c' h
  · rintro ⟨hlen, hall⟩
    cases w with
    | nil => simp at hlen
    | cons c cs =>
      refine ⟨[c], cs, rfl, ⟨c, rfl, hall c (List.mem_cons_self c cs)⟩, ?_,
        fun c' hc' => hall c' (List.mem_cons_of_mem _ hc')⟩
      intro hcs
      rw [hcs] at hlen
      simp at hlen

theorem lang_seq (r s : Regex) (w : List Char) :
    (seq r s).lang w ↔ ∃ u v, w = u ++ v ∧ r.lang u ∧ s.lang v :=
  Iff.rfl

theorem lang_cls_eq (a : Char) (w : List Char) :
    (cls (fun c => decide (c = a))).lang w ↔ w = [a] := by
  simp only [lang, decide_eq_true_eq]
  constructor
  · rintro ⟨c, hw, hc⟩
    rw [hw, hc]
  · intro hw
    exact ⟨a, hw, rfl⟩

end Regex

theorem emailRe_lang_iff (w : List Char) : emailRe.lang w ↔ emailForm w := by
  unfold emailRe emailForm
  simp only [Regex.lang_seq, Regex.lang_cls_eq, Regex.lang_plus_cls,
    Regex.lang_atLeastTwo_cls]
  constructor
  · rintro ⟨l, v₁, hw, hl, a, v₂, hv₁, ha, d, v₃, hv₂, hd, b, t, hv₃, hb, ht⟩
    refine ⟨l, d, t, ?_, hl.1, hl.2, hd.1, hd.2, ht.1, ht.2⟩
    rw [hw, hv₁, ha, hv₂, hv₃, hb]
    rfl
  · rintro ⟨l, d, t, hw, hl₁, hl₂, hd₁, hd₂, ht₁, ht₂⟩
    exact ⟨l, '@' :: (d ++ '.' :: t), hw, ⟨hl₁, hl₂⟩,
      ['@'], d ++ '.' :: t, rfl, rfl, d, '.' :: t, rfl, ⟨hd₁, hd₂⟩,
      ['.'], t, rfl, rfl, ⟨ht₁, ht₂⟩⟩

/-- C20. On a string, emailRule returns no error exactly when the whole string
has the form local@domain.tld of the specification; it accepts `a@b.com` and
rejects `a@b` and the empty string. -/
theorem emailRule_accepts_iff (ErrFieldMustBeEmail : GoError) (s param : String) :
    (emailRule ErrFieldMustBeEmail (GoValue.str s) param = none ↔ emailForm s.data) ∧
    emailRule ErrFieldMustBeEmail (GoValue.str "a@b.com") param = none ∧
    emailRule ErrFieldMustBeEmail (GoValue.str "a@b") param = some ErrFieldMustBeEmail ∧
    emailRule ErrFieldMustBeEmail (GoValue.str "") param = some ErrFieldMustBeEmail := by
  refine ⟨?_, rfl, rfl, rfl⟩
  rw [← emailRe_lang_iff, ← Regex.matchChars_iff]
  unfold emailRule Regex.MatchString
  cases h : emailRe.matchChars s.data <;> simp [h]

/-! ## Claims about the length rules -/

theorem atoiDigits_fst (negative : Bool) (digits : List Char) (h₁ : digits ≠ [])
    (h₂ : digits.all isDigit = true) :
    (atoiDigits negative digits).1
      = if negative = true then
          (if decimal digits > 2 ^ 63 then -(2 ^ 63 : Int) else -(decimal digits : Int))
        else
          (if decimal digits ≥ 2 ^ 63 then (2 ^ 63 : Int) - 1 else (decimal digits : Int)) := by
  unfold atoiDigits
  have h : ¬ (digits = [] ∨ ¬ digits.all isDigit = true) := by
    rintro (h | h)
    · exact h₁ h
    · exact h h₂
  rw [if_neg h]
  cases negative
  · simp only [Bool.false_eq_true, if_false]
    split <;> rfl
  · simp only [if_true]
    split <;> rfl

theorem Atoi_unsigned (param : String) (digits : List Char) (h₁ : digits ≠ [])
    (h₂ : digits.all isDigit = true) (hdata : param.data = digits) :
    Atoi param = atoiDigits false digits := by
  unfold Atoi
  rw [hdata]
  cases digits with
  | nil => exact absurd rfl h₁
  | cons c cs =>
    have hc : isDigit c = true := by
      rw [List.all_cons, Bool.and_eq_true] at h₂
      exact h₂.1
    split
    · rename_i ds heq
      rw [(List.cons.inj heq).1] at hc
      exact absurd hc (by decide)
    · rename_i ds heq
      rw [(List.cons.inj heq).1] at hc
      exact absurd hc (by decide)
    · rfl

theorem Atoi_compare (param : String) (n k : Int) (h : denotes param n) (hk₀ : 0 ≤ k)
    (hk : k < 2 ^ 63 - 1) :
    (k < (Atoi param).1 ↔ k < n) ∧ ((Atoi param).1 < k ↔ n < k) := by
  obtain ⟨digits, h₁, h₂, hcase⟩ := h
  have h63 : (2 : Int) ^ 63 = 9223372036854775808 := by norm_num
  have h63n : (2 : Nat) ^ 63 = 9223372036854775808 := by norm_num
  rw [h63] at hk
  rcases hcase with ⟨hdata, hn⟩ | ⟨hdata, hn⟩ | ⟨hdata, hn⟩
  · rw [Atoi_unsigned param digits h₁ h₂ hdata, atoiDigits_fst false digits h₁ h₂, hn]
    simp only [Bool.false_eq_true, if_false, h63, h63n]
    split <;> constructor <;> constructor <;> intro h <;> omega
  · have hA : Atoi param = atoiDigits false digits := by
      unfold Atoi
      rw [hdata]
      rfl
    rw [hA, atoiDigits_fst false digits h₁ h₂, hn]
    simp only [Bool.false_eq_true, if_false, h63, h63n]
    split <;> constructor <;> constructor <;> intro h <;> omega
  · have hA : Atoi param = atoiDigits true digits := by
      unfold Atoi
      rw [hdata]
      rfl
    rw [hA, atoiDigits_fst true digits h₁ h₂, hn]
    simp only [if_true, h63, h63n]
    split <;> constructor <;> constructor <;> intro h <;> omega

/-- C19. For a string (of a length below the largest `int`) and a parameter that
is the decimal numeral of an integer `n`: minlenRule returns no error exactly
when the length of the string is at least `n`, and maxlenRule exactly when it is
at most `n`, the length being `len`, the number of bytes. -/
theorem minlen_maxlen_spec (ErrFieldBelowMinimum ErrFieldAboveMaximum : Int → GoError)
    (s param : String) (n : Int) (hn : denotes param n)
    (hlen : (len s : Int) < 2 ^ 63 - 1) :
    (minlenRule ErrFieldBelowMinimum (GoValue.str s) param = none ↔ n ≤ (len s : Int)) ∧
    (maxlenRule ErrFieldAboveMaximum (GoValue.str s) param = none ↔ (len s : Int) ≤ n) := by
  obtain ⟨hmin, hmax⟩ := Atoi_compare param n (len s : Int) hn (Int.ofNat_nonneg _) hlen
  constructor
  · unfold minlenRule
    simp only
    by_cases h : (len s : Int) < (Atoi param).1
    · rw [if_pos h]
      have := hmin.1 h
      constructor
      · intro h'
        exact absurd h' (by simp)
      · intro h'
        omega
    · rw [if_neg h]
      have : ¬ (len s : Int) < n := fun h' => h (hmin.2 h')
      constructor
      · intro _
        omega
      · intro _
        rfl
  · unfold maxlenRule
    simp only
    by_cases h : (len s : Int) > (Atoi param).1
    · rw [if_pos h]
      have := hmax.1 h
      constructor
      · intro h'
        exact absurd h' (by simp)
      · intro h'
        omega
    · rw [if_neg h]
      have : ¬ n < (len s : Int) := fun h' => h (hmax.2 h')
      constructor
      · intro _
        omega
      · intro _
        rfl

/-- C19 at the example of the specification: `minlen=3` accepts `abc` and
rejects `ab`. -/
theorem minlen_maxlen_spec_witness :
    minlenRule sampleBelowMinimum (GoValue.str "abc") "3" = none ∧
    minlenRule sampleBelowMinimum (GoValue.str "ab") "3" ≠ none :=
  ⟨(minlen_maxlen_spec sampleBelowMinimum sampleAboveMaximum "abc" "3" 3
      ⟨['3'], by decide, by decide, Or.inl ⟨rfl, by decide⟩⟩ (by decide)).1.2 (by decide),
   fun h => absurd
    ((minlen_maxlen_spec sampleBelowMinimum sampleAboveMaximum "ab" "3" 3
      ⟨['3'], by decide, by decide, Or.inl ⟨rfl, by decide⟩⟩ (by decide)).1.1 h)
    (by decide)⟩

/-- C16 for an identifier that is not in the sample catalog: registerBuiltinError
panics. -/
theorem registerBuiltinError_spec_witness :
    registerBuiltinError sampleSprintf (loadCatalog [sampleFile]) "ErrMissing" [] = none :=
  (registerBuiltinError_spec sampleSprintf (loadCatalog [sampleFile]) "ErrMissing" none []).1.2
    (by decide)

/-! ## Claims about the character class rules -/

theorem plusRule_iff (p : Char → Bool) (E : GoError) (s : String) :
    (if !(Regex.plus (Regex.cls p)).MatchString s then some E else none) = none ↔
      s.data ≠ [] ∧ ∀ c ∈ s.data, p c = true := by
  rw [← Regex.lang_plus_cls, ← Regex.matchChars_iff]
  unfold Regex.MatchString
  cases h : (Regex.plus (Regex.cls p)).matchChars s.data <;> simp

/-- C21. On a string, digitRule returns no error exactly when the string is not
empty and each of its characters is in `[0-9]`; alphanunRule exactly when it is
not empty and each character is in `[A-Za-z0-9]`; alphabetRule exactly when it
is not empty and each character is in `[A-Za-z]`. Digits followed by a newline
and a string of Arabic-Indic digits are rejected by digitRule. -/
theorem classRules_accept_iff (ErrFieldMustBeDigit ErrFieldMustBeAlphanum
    ErrFieldMustBeAlphabet : GoError) (s param : String) :
    (digitRule ErrFieldMustBeDigit (GoValue.str s) param = none ↔
        s.data ≠ [] ∧ ∀ c ∈ s.data, isDigit c = true) ∧
    (alphanunRule ErrFieldMustBeAlphanum (GoValue.str s) param = none ↔
        s.data ≠ [] ∧ ∀ c ∈ s.data, isAlphanum c = true) ∧
    (alphabetRule ErrFieldMustBeAlphabet (GoValue.str s) param = none ↔
        s.data ≠ [] ∧ ∀ c ∈ s.data, isLetter c = true) ∧
    digitRule ErrFieldMustBeDigit (GoValue.str "123\n") param = some ErrFieldMustBeDigit ∧
    digitRule ErrFieldMustBeDigit (GoValue.str "١٢٣") param = some ErrFieldMustBeDigit ∧
    digitRule ErrFieldMustBeDigit (GoValue.str "") param = some ErrFieldMustBeDigit ∧
    digitRule ErrFieldMustBeDigit (GoValue.str "123") param = none :=
  ⟨plusRule_iff isDigit _ s, plusRule_iff isAlphanum _ s, plusRule_iff isLetter _ s,
    rfl, rfl, rfl, rfl⟩

/-- C28. On a value that is not of the native string type, whatever the
parameter, emailRule, minlenRule and maxlenRule return no error, and digitRule,
alphanunRule and alphabetRule return their error. -/
theorem rules_on_non_string (ErrFieldBelowMinimum ErrFieldAboveMaximum : Int → GoError)
    (ErrFieldMustBeEmail ErrFieldMustBeDigit ErrFieldMustBeAlphanum
      ErrFieldMustBeAlphabet : GoError)
    (v : GoValue) (param : String) (hv : ∀ s, v ≠ GoValue.str s) :
    emailRule ErrFieldMustBeEmail v param = none ∧
    minlenRule ErrFieldBelowMinimum v param = none ∧
    maxlenRule ErrFieldAboveMaximum v param = none ∧
    digitRule ErrFieldMustBeDigit v param = some ErrFieldMustBeDigit ∧
    alphanunRule ErrFieldMustBeAlphanum v param = some ErrFieldMustBeAlphanum ∧
    alphabetRule ErrFieldMustBeAlphabet v param = some ErrFieldMustBeAlphabet := by
  cases v with
  | str s => exact absurd rfl (hv s)
  | nil => exact ⟨rfl, rfl, rfl, rfl, rfl, rfl⟩
  | int n => exact ⟨rfl, rfl, rfl, rfl, rfl, rfl⟩
  | uint n => exact ⟨rfl, rfl, rfl, rfl, rfl, rfl⟩
  | bool b => exact ⟨rfl, rfl, rfl, rfl, rfl, rfl⟩
  | named typ s => exact ⟨rfl, rfl, rfl, rfl, rfl, rfl⟩
  | nilPtr => exact ⟨rfl, rfl, rfl, rfl, rfl, rfl⟩
  | ptrTo elem => exact ⟨rfl, rfl, rfl, rfl, rfl, rfl⟩

/-- C28 at a `types.Integer` holding the digits `123` and at the integer 5:
digitRule rejects both, minlenRule with the parameter 10 accepts both. -/
theorem rules_on_non_string_witness :
    digitRule (GoError.plain "digit") (GoValue.named "types.Integer" "123") ""
        = some (GoError.plain "digit") ∧
      minlenRule sampleBelowMinimum (GoValue.int 5) "10" = none :=
  ⟨(rules_on_non_string sampleBelowMinimum sampleAboveMaximum (GoError.plain "email")
      (GoError.plain "digit") (GoError.plain "alphanum") (GoError.plain "alphabet")
      (GoValue.named "types.Integer" "123") "" (fun s h => by cases h)).2.2.2.1,
   (rules_on_non_string sampleBelowMinimum sampleAboveMaximum (GoError.plain "email")
      (GoError.plain "digit") (GoError.plain "alphanum") (GoError.plain "alphabet")
      (GoValue.int 5) "10" (fun s h => by cases h)).2.1⟩

/-! ## Claims about display names, locales and captures -/

/-- C23 (what the code does). The display name is the identifier when the json
tag is empty or `-`; for a json tag that carries options only, such as
`,omitempty`, it is the empty text before the comma, not the identifier, and the
error of the field is recorded under the empty key. -/
theorem fieldName_options_only (f : StructField) :
    (f.jsonTag = "" ∨ f.jsonTag = "-" → fieldName f = f.Name) ∧
    fieldName (sampleField "Name" "name,omitempty" "required" (GoValue.str "")) = "name" ∧
    fieldName (sampleField "Name" ",omitempty" "required" (GoValue.str "")) = "" ∧
    keysOf (ValidateStruct sampleValidators
        [sampleField "Name" ",omitempty" "required" (GoValue.str "")]) = [""] := by
  refine ⟨fun h => ?_, by decide, by decide, rfl⟩
  unfold fieldName
  rw [if_pos h]

/-- C26 (what the code does). The context the dispatcher creates has the empty
tag as its locale, not the English tag: `Locale()` returns the empty string
until `UseLocale` is called, as a handler reached through `ServeHTTP` observes. -/
theorem fresh_context_locale_is_empty :
    freshContext.Locale = "" ∧ freshContext.Locale ≠ English ∧
    ((New.router.handle New "GET" "/ping" reportLocale []).ServeHTTP "GET" "/ping").1.ran
      = [""] := by
  refine ⟨rfl, by decide, by decide⟩

theorem localizedError_of_messages (e : Gapp.Error) (en id raw : String)
    (hen : e.localMessages.get English = some en)
    (hid : e.localMessages.get Bahasa = some id)
    (honly : ∀ tag, e.localMessages.has tag = true → tag = English ∨ tag = Bahasa)
    (herr : e.err = some raw) (tag : Tag) :
    e.LocalizedError tag = if tag = Bahasa then id else en := by
  unfold Error.LocalizedError
  by_cases hb : tag = Bahasa
  · rw [if_pos hb, hb, hid]
  · rw [if_neg hb]
    by_cases he : tag = English
    · rw [he, hen]
    · have hnone : e.localMessages.get tag = none := by
        cases hg : e.localMessages.get tag with
        | none => rfl
        | some m =>
          rcases honly tag (by simp [GoMap.has, hg]) with h | h
          · exact absurd h he
          · exact absurd h hb
      rw [hnone]
      unfold Error.Error
      rw [herr, hen]

/-- C25. For a context with the locale the dispatcher gives it and a coded error
(wrapping an error, as the constructors build it) with an English and a Bahasa
message and no message for another tag: behind LocaleWrapper, the description
each response helper writes is the Bahasa message when the `lang` selector is
the Bahasa tag and the English message for every other selector; LocaleWrapper
always invokes the next stage, with the locale changed to the selector when it
is one of the two supported tags and with the context unchanged otherwise. -/
theorem localeWrapper_selects_message (c : Context) (e : Gapp.Error)
    (lang en id raw : String) (hc : c.locale = freshContext.locale)
    (hen : e.localMessages.get English = some en)
    (hid : e.localMessages.get Bahasa = some id)
    (honly : ∀ tag, e.localMessages.has tag = true → tag = English ∨ tag = Bahasa)
    (herr : e.err = some raw) :
    (∀ next, LocaleWrapper lang next c
        = next (if lang = Bahasa ∨ lang = English then c.UseLocale lang else c)) ∧
    lastDescription (LocaleWrapper lang (answerWith Context.Unauthorized e) c).1
        = some (Json.str (if lang = Bahasa then id else en)) ∧
    lastDescription (LocaleWrapper lang (answerWith Context.BadInput e) c).1
        = some (Json.str (if lang = Bahasa then id else en)) ∧
    lastDescription (LocaleWrapper lang (answerWith Context.NotAllowed e) c).1
        = some (Json.str (if lang = Bahasa then id else en)) ∧
    lastDescription (LocaleWrapper lang (answerWith Context.BadGateway e) c).1
        = some (Json.str (if lang = Bahasa then id else en)) ∧
    lastDescription (LocaleWrapper lang (answerWith Context.ServerError e) c).1
        = some (Json.str (if lang = Bahasa then id else en)) := by
  have hwrap : ∀ next, LocaleWrapper lang next c
      = next (if lang = Bahasa ∨ lang = English then c.UseLocale lang else c) := by
    intro next
    unfold LocaleWrapper
    simp only
    split <;> rfl
  have hloc := localizedError_of_messages e en id raw hen hid honly herr
  have hmap : ∀ c' : Context,
      lastDescription (c'.mapError e) = some (Json.str (e.LocalizedError c'.locale)) := by
    intro c'
    simp [lastDescription, Context.mapError, Context.JSON, Json.member, GoMap.get]
  have hdesc : lastDescription
      ((if lang = Bahasa ∨ lang = English then c.UseLocale lang else c).mapError e)
        = some (Json.str (if lang = Bahasa then id else en)) := by
    rw [hmap, hloc]
    by_cases hb : lang = Bahasa
    · simp [hb, Context.UseLocale]
    · by_cases he : lang = English
      · simp [he, Context.UseLocale, English, Bahasa]
      · have hfresh : c.locale ≠ Bahasa := by
          rw [hc]
          decide
        simp [hb, he, hfresh]
  refine ⟨hwrap, ?_, ?_, ?_, ?_, ?_⟩ <;>
  · rw [hwrap]
    exact hdesc

theorem sampleExpired_tags (tag : String)
    (h : sampleExpired.localMessages.has tag = true) : tag = English ∨ tag = Bahasa := by
  have hk := (GoMap.has_iff_mem_keys _ _).1 h
  simpa [sampleExpired, GoMap.keys, English, Bahasa] using hk

/-- C25 at the sample coded error: the selector `id` gives the Bahasa message,
the unsupported selector `fr` the English one. -/
theorem localeWrapper_selects_message_witness :
    lastDescription (LocaleWrapper "id" (answerWith Context.Unauthorized sampleExpired)
        freshContext).1 = some (Json.str "token kedaluwarsa") ∧
    lastDescription (LocaleWrapper "fr" (answerWith Context.Unauthorized sampleExpired)
        freshContext).1 = some (Json.str "token expired") :=
  ⟨(localeWrapper_selects_message freshContext sampleExpired "id" "token expired"
      "token kedaluwarsa" "token expired" rfl rfl rfl sampleExpired_tags rfl).2.1,
   (localeWrapper_selects_message freshContext sampleExpired "fr" "token expired"
      "token kedaluwarsa" "token expired" rfl rfl rfl sampleExpired_tags rfl).2.1⟩

theorem not_mem_captureNames (parts : List String) (k : String)
    (h : ∀ (j : Nat) (p : String), parts[j]? = some p → isCapture p = true → dropFirst p ≠ k) :
    k ∉ captureNames parts := by
  intro hk
  simp only [captureNames, List.mem_map, List.mem_filter] at hk
  obtain ⟨p, ⟨hp, hcap⟩, hname⟩ := hk
  obtain ⟨j, hj⟩ := List.getElem?_of_mem hp
  exact h j p hj hcap hname

theorem matchParts_get_last (parts pathParts : List String) (params result : GoMap String)
    (h : matchParts parts pathParts params = some result) :
    ∀ (i : Nat) (p q : String), parts[i]? = some p → pathParts[i]? = some q → isCapture p = true →
      (∀ (j : Nat) (r : String), i < j → parts[j]? = some r → isCapture r = true →
        dropFirst r ≠ dropFirst p) →
      result.get (dropFirst p) = some q := by
  induction parts generalizing pathParts params with
  | nil => simp
  | cons part parts ih =>
    cases pathParts with
    | nil => simp [matchParts] at h
    | cons pathPart pathParts =>
      simp only [matchParts] at h
      intro i p q hp hq hcap hlast
      cases i with
      | zero =>
        simp only [List.getElem?_cons_zero, Option.some.injEq] at hp hq
        subst hp hq
        have hc : HasPrefix part ":" = true := hcap
        rw [if_pos hc] at h
        have hnot : dropFirst part ∉ captureNames parts :=
          not_mem_captureNames parts _ (fun j r hr hrc =>
            hlast (j + 1) r (Nat.succ_pos j) (by simpa using hr) hrc)
        rw [matchParts_get_other _ _ _ _ h _ hnot]
        exact GoMap.get_set_self _ _ _
      | succ i =>
        have hlast' : ∀ (j : Nat) (r : String), i < j → parts[j]? = some r →
            isCapture r = true → dropFirst r ≠ dropFirst p := fun j r hij hr hrc =>
          hlast (j + 1) r (Nat.succ_lt_succ hij) (by simpa using hr) hrc
        by_cases hc : HasPrefix part ":" = true
        · rw [if_pos hc] at h
          exact ih _ _ h i p q (by simpa using hp) (by simpa using hq) hcap hlast'
        · rw [if_neg hc] at h
          by_cases hne : part = pathPart
          · simp only [ne_eq, hne, not_true_eq_false, if_false] at h
            exact ih _ _ h i p q (by simpa using hp) (by simpa using hq) hcap hlast'
          · simp [hne] at h

/-- C29. A capture segment also matches an empty path segment: when pattern and
path have the same number of segments and agree at the literal positions,
matchRoute succeeds, whatever the path holds at the capture positions; a capture
at position i whose name no later capture repeats is then bound to the path
segment at position i, in particular to the empty string when that segment is
empty. -/
theorem matchRoute_capture_matches_empty (pattern path : String)
    (hlen : (Split pattern '/').length = (Split path '/').length)
    (hlit : ∀ (i : Nat) (p q : String), (Split pattern '/')[i]? = some p →
      (Split path '/')[i]? = some q → isCapture p = false → p = q) :
    ∃ params, matchRoute pattern path = some params ∧
      ∀ (i : Nat) (p : String), (Split pattern '/')[i]? = some p → isCapture p = true →
        (Split path '/')[i]? = some "" →
        (∀ (j : Nat) (r : String), i < j → (Split pattern '/')[j]? = some r →
          isCapture r = true → dropFirst r ≠ dropFirst p) →
        params.get (dropFirst p) = some "" := by
  have hsome := (matchParts_isSome_iff _ _ [] hlen).2 hlit
  obtain ⟨params, hparams⟩ := Option.isSome_iff_exists.1 hsome
  refine ⟨params, ?_, ?_⟩
  · unfold matchRoute
    simp only [ne_eq, hlen, not_true_eq_false, if_false]
    exact hparams
  · intro i p hp hcap hq hlast
    exact matchParts_get_last _ _ _ _ hparams i p "" hp hq hcap hlast

/-- C29 at the pattern `/users/:id` and the path `/users/`: the match succeeds
and binds `id` to the empty string. -/
theorem matchRoute_capture_matches_empty_witness :
    matchRoute "/users/:id" "/users/" = some [("id", "")] ∧
    ∃ params, matchRoute "/users/:id" "/users/" = some params ∧
      ∀ (i : Nat) (p : String), (Split "/users/:id" '/')[i]? = some p → isCapture p = true →
        (Split "/users/" '/')[i]? = some "" →
        (∀ (j : Nat) (r : String), i < j → (Split "/users/:id" '/')[j]? = some r →
          isCapture r = true → dropFirst r ≠ dropFirst p) →
        params.get (dropFirst p) = some "" :=
  ⟨by decide,
   matchRoute_capture_matches_empty "/users/:id" "/users/" (by decide) (by
    intro i p q hp hq hcap
    have hsplit : Split "/users/:id" '/' = ["", "users", ":id"] := by decide
    have hsplit' : Split "/users/" '/' = ["", "users", ""] := by decide
    rw [hsplit] at hp
    rw [hsplit'] at hq
    match i with
    | 0 => simp at hp hq; rw [← hp, ← hq]
    | 1 => simp at hp hq; rw [← hp, ← hq]
    | 2 =>
      simp at hp
      subst hp
      exact absurd hcap (by decide)
    | n + 3 => simp at hp)⟩

/-! ## Claims about the text of an aggregate -/

theorem char_eq_of_toNat_eq (a b : Char) (h : a.toNat = b.toNat) : a = b := by
  have := congrArg Char.ofNat h
  simpa using this

theorem ltChars_irrefl (a : List Char) : ltChars a a = false := by
  induction a with
  | nil => rfl
  | cons c cs ih => simp [ltChars, ih]

theorem ltChars_trans (a b c : List Char) (hab : ltChars a b = true)
    (hbc : ltChars b c = true) : ltChars a c = true := by
  induction a generalizing b c with
  | nil =>
    cases b with
    | nil => simp [ltChars] at hab
    | cons y ys =>
      cases c with
      | nil => simp [ltChars] at hbc
      | cons z zs => simp [ltChars]
  | cons x xs ih =>
    cases b with
    | nil => simp [ltChars] at hab
    | cons y ys =>
      cases c with
      | nil => simp [ltChars] at hbc
      | cons z zs =>
        simp only [ltChars] at hab hbc ⊢
        by_cases h₁ : x.toNat < y.toNat
        · by_cases h₂ : y.toNat < z.toNat
          · rw [if_pos (by omega)]
          · rw [if_neg h₂] at hbc
            by_cases h₃ : z.toNat < y.toNat
            · simp [h₃] at hbc
            · rw [if_pos (by omega)]
        · rw [if_neg h₁] at hab
          by_cases h₁' : y.toNat < x.toNat
          · simp [h₁'] at hab
          · rw [if_neg h₁'] at hab
            by_cases h₂ : y.toNat < z.toNat
            · rw [if_pos (by omega)]
            · rw [if_neg h₂] at hbc
              by_cases h₃ : z.toNat < y.toNat
              · simp [h₃] at hbc
              · rw [if_neg h₃] at hbc
                rw [if_neg (by omega), if_neg (by omega)]
                exact ih _ _ hab hbc

theorem ltChars_total (a b : List Char) (hab : ltChars a b = false)
    (hba : ltChars b a = false) : a = b := by
  induction a generalizing b with
  | nil =>
    cases b with
    | nil => rfl
    | cons y ys => simp [ltChars] at hab
  | cons x xs ih =>
    cases b with
    | nil => simp [ltChars] at hba
    | cons y ys =>
      simp only [ltChars] at hab hba
      by_cases h₁ : x.toNat < y.toNat
      · simp [h₁] at hab
      · rw [if_neg h₁] at hab
        by_cases h₂ : y.toNat < x.toNat
        · simp [h₂] at hba
        · rw [if_neg h₂] at hab
          rw [if_neg h₂, if_neg h₁] at hba
          rw [char_eq_of_toNat_eq x y (by omega), ih _ hab hba]

theorem keyLt_of_not (a b : String × String) (h : ¬ keyLt a b) (hne : a.1 ≠ b.1) :
    keyLt b a := by
  unfold keyLt at h ⊢
  cases hba : ltChars b.1.data a.1.data with
  | true => rfl
  | false =>
    have hab : ltChars a.1.data b.1.data = false := by simpa using h
    exact absurd (String.ext (ltChars_total _ _ hab hba)) hne

theorem keyLt_trans (a b c : String × String) (hab : keyLt a b) (hbc : keyLt b c) :
    keyLt a c :=
  ltChars_trans _ _ _ hab hbc

theorem keyLt_asymm (a b : String × String) (hab : keyLt a b) : ¬ keyLt b a := by
  intro hba
  have h := ltChars_trans _ _ _ hab hba
  rw [ltChars_irrefl] at h
  exact absurd h (by decide)

theorem insertKey_perm (k : String × String) (l : List (String × String)) :
    (insertKey k l).Perm (k :: l) := by
  induction l with
  | nil => exact List.Perm.refl _
  | cons a rest ih =>
    simp only [insertKey]
    split
    · exact List.Perm.refl _
    · exact ((List.Perm.cons a ih).trans (List.Perm.swap k a rest))

theorem sortByKey_perm (l : List (String × String)) : (sortByKey l).Perm l := by
  induction l with
  | nil => exact List.Perm.refl _
  | cons a rest ih =>
    simp only [sortByKey]
    exact (insertKey_perm a _).trans (List.Perm.cons a ih)

theorem insertKey_sorted (k : String × String) (l : List (String × String))
    (hl : l.Pairwise keyLt) (hk : ∀ a ∈ l, a.1 ≠ k.1) : (insertKey k l).Pairwise keyLt := by
  induction l with
  | nil => simp [insertKey]
  | cons a rest ih =>
    rw [List.pairwise_cons] at hl
    simp only [insertKey]
    by_cases hlt : ltChars k.1.data a.1.data = true
    · rw [if_pos hlt]
      refine List.pairwise_cons.2 ⟨?_, List.pairwise_cons.2 hl⟩
      intro b hb
      rcases List.mem_cons.1 hb with h | h
      · rw [h]
        exact hlt
      · exact keyLt_trans _ _ _ hlt (hl.1 b h)
    · rw [if_neg hlt]
      refine List.pairwise_cons.2 ⟨?_, ih hl.2 (fun b hb => hk b (List.mem_cons_of_mem _ hb))⟩
      intro b hb
      rcases List.mem_cons.1 ((insertKey_perm k rest).mem_iff.1 hb) with h | h
      · rw [h]
        exact keyLt_of_not k a hlt (fun h' => hk a (List.mem_cons_self _ _) h'.symm)
      · exact hl.1 b h

theorem sortByKey_sorted (l : List (String × String)) (hl : (l.map Prod.fst).Nodup) :
    (sortByKey l).Pairwise keyLt := by
  induction l with
  | nil => simp [sortByKey]
  | cons a rest ih =>
    rw [List.map_cons, List.nodup_cons] at hl
    simp only [sortByKey]
    refine insertKey_sorted a _ (ih hl.2) ?_
    intro b hb hba
    exact hl.1 (hba ▸ List.mem_map_of_mem Prod.fst ((sortByKey_perm rest).mem_iff.1 hb))

theorem errorEntries_eq_map (A : List (String × GoError)) :
    errorEntries A = A.map (fun p => (p.1, expectedEntry p.1 p.2)) := by
  induction A with
  | nil => simp [errorEntries]
  | cons p rest ih =>
    obtain ⟨key, err⟩ := p
    cases err with
    | coded e => simp [errorEntries, expectedEntry, ih]
    | aggregate ers => simp [errorEntries, expectedEntry, ih]
    | plain text => simp [errorEntries, expectedEntry, ih]

theorem aggregate_error_eq (A : List (String × GoError)) (hA : A ≠ []) :
    (GoError.aggregate A).Error
      = joinEntries ((sortByKey (errorEntries A)).map Prod.snd) ++ "." := by
  cases A with
  | nil => exact absurd rfl hA
  | cons p rest => simp [GoError.Error]

theorem sortByKey_perm_eq (l l' : List (String × String)) (hl : (l.map Prod.fst).Nodup)
    (hp : l.Perm l') : sortByKey l = sortByKey l' := by
  haveI : IsAntisymm (String × String) keyLt :=
    ⟨fun a b hab hba => absurd hba (keyLt_asymm a b hab)⟩
  have hl' : (l'.map Prod.fst).Nodup := (hp.map Prod.fst).nodup_iff.1 hl
  exact List.eq_of_perm_of_sorted
    (((sortByKey_perm l).trans hp).trans (sortByKey_perm l').symm)
    (sortByKey_sorted l hl) (sortByKey_sorted l' hl')

/-- C27. The text of the empty aggregate is the empty string. For a non-empty
aggregate (a map, so with distinct keys) the text is the entries `key: message`
of its keys, one per key and in ascending key order, joined by `"; "` and closed
by `"."`, the text of a nested aggregate standing in parentheses; two listings
of the same map in different orders give the same text. -/
theorem errors_text_sorted (A A' : List (String × GoError))
    (hA : (A.map Prod.fst).Nodup) :
    (GoError.aggregate []).Error = "" ∧
    (A ≠ [] → ∃ entries : List (String × String),
        entries.Perm (A.map (fun p => (p.1, expectedEntry p.1 p.2))) ∧
        entries.Pairwise keyLt ∧
        (GoError.aggregate A).Error = joinEntries (entries.map Prod.snd) ++ ".") ∧
    (A.Perm A' → (GoError.aggregate A').Error = (GoError.aggregate A).Error) ∧
    (GoError.aggregate [("b", GoError.plain "x"),
        ("a", GoError.aggregate [("c", GoError.plain "y")])]).Error
      = "a: (c: y.); b: x." := by
  have hkeys : ((errorEntries A).map Prod.fst).Nodup := by
    rw [errorEntries_eq_map, List.map_map]
    exact hA
  refine ⟨by simp [GoError.Error], fun hne => ?_, fun hp => ?_, by decide⟩
  · refine ⟨sortByKey (errorEntries A), ?_, sortByKey_sorted _ hkeys,
      aggregate_error_eq A hne⟩
    rw [← errorEntries_eq_map]
    exact sortByKey_perm _
  · cases A with
    | nil =>
      rw [List.nil_perm.1 hp]
    | cons p rest =>
      have hne' : A' ≠ [] := by
        intro h
        rw [h] at hp
        exact absurd hp.symm (by simp)
      rw [aggregate_error_eq _ hne', aggregate_error_eq _ (List.cons_ne_nil _ _)]
      have hperm : (errorEntries (p :: rest)).Perm (errorEntries A') := by
        rw [errorEntries_eq_map, errorEntries_eq_map]
        exact hp.map _
      rw [sortByKey_perm_eq _ _ hkeys hperm]

/-- C27 at a map with the keys `b` and `a`, the latter holding a nested
aggregate: both listings give the text with `a` first. -/
theorem errors_text_sorted_witness :
    (GoError.aggregate [("a", GoError.aggregate [("c", GoError.plain "y")]),
        ("b", GoError.plain "x")]).Error
      = (GoError.aggregate [("b", GoError.plain "x"),
        ("a", GoError.aggregate [("c", GoError.plain "y")])]).Error :=
  (errors_text_sorted
    [("b", GoError.plain "x"), ("a", GoError.aggregate [("c", GoError.plain "y")])]
    [("a", GoError.aggregate [("c", GoError.plain "y")]), ("b", GoError.plain "x")]
    (by decide)).2.2.1 (List.Perm.swap _ _ _)

/-! ## Claims about form binding -/

theorem bindFormField_eq {F : Type} (ParseFloat : String → F × Bool)
    (values : GoMap (List String)) (field : FormField F)
    (hexp : field.formTag ≠ "" → field.exported = true) :
    bindFormField ParseFloat values field = some (boundField ParseFloat values field) := by
  obtain ⟨name, exp, tag, typ, value⟩ := field
  unfold bindFormField boundField formValue
  by_cases htag : tag = ""
  · simp [htag]
  · have he : exp = true := hexp htag
    subst he
    simp only [htag, if_false]
    cases hv : values.get tag with
    | none => rfl
    | some val =>
      cases val with
      | nil => rfl
      | cons val0 rest =>
        simp only
        cases typ with
        | scalar kind =>
          cases kind <;> simp [FormField.set, boundValue, coerced]
        | ptr elem =>
          cases elem <;> simp [FormField.set, boundValue, coerced]

theorem bindFormFields_eq {F : Type} (ParseFloat : String → F × Bool)
    (values : GoMap (List String)) (dest : List (FormField F))
    (hexp : ∀ f ∈ dest, f.formTag ≠ "" → f.exported = true) :
    bindFormFields ParseFloat values dest = some (dest.map (boundField ParseFloat values)) := by
  induction dest with
  | nil => rfl
  | cons field rest ih =>
    simp only [bindFormFields]
    rw [bindFormField_eq ParseFloat values field (hexp field (List.mem_cons_self _ _)),
      ih (fun f hf => hexp f (List.mem_cons_of_mem _ hf))]
    rfl

theorem ParseInt_failure (raw : String) (h : (ParseInt raw).2 = false) :
    (ParseInt raw).1 = 0 ∨ (ParseInt raw).1 = 2 ^ 63 - 1 ∨ (ParseInt raw).1 = -(2 ^ 63) := by
  have hd : ∀ (negative : Bool) (digits : List Char), (atoiDigits negative digits).2 = false →
      (atoiDigits negative digits).1 = 0 ∨ (atoiDigits negative digits).1 = 2 ^ 63 - 1 ∨
        (atoiDigits negative digits).1 = -(2 ^ 63) := by
    intro negative digits hf
    unfold atoiDigits at hf ⊢
    split_ifs at hf ⊢ <;> simp at hf ⊢
  unfold ParseInt Atoi at h ⊢
  split at h <;> exact hd _ _ h

/-- C24 (amended). For every destination record whose fields with a form tag are
exported, and every form: bindFormValues returns the bound record together with
the error of the validation pass on it, so no error is raised for a failed
coercion. A field without form tag, or whose key has no value in the form, is
unchanged. A field whose key has a value keeps name, tag and type and holds the
coerced first value, behind a fresh pointer when the field is optional, whether
or not the text denotes a value of the type: a text that is no boolean gives
false, a text that is no integer gives 0 or, out of range, a bound of the
64-bit integers. -/
theorem bindFormValues_overwrites {F : Type} (ParseFloat : String → F × Bool)
    (validate : List (FormField F) → Option GoError)
    (values : GoMap (List String)) (dest : List (FormField F))
    (hexp : ∀ f ∈ dest, f.formTag ≠ "" → f.exported = true) :
    ∃ bound, bindFormValues ParseFloat validate values dest = some (bound, validate bound) ∧
      bound.length = dest.length ∧
      (∀ (i : Nat) (f : FormField F), dest[i]? = some f →
        ∃ g, bound[i]? = some g ∧ g.Name = f.Name ∧ g.exported = f.exported ∧
          g.formTag = f.formTag ∧ g.typ = f.typ ∧
          (f.formTag = "" ∨ formValue values f.formTag = none → g = f) ∧
          (∀ raw, f.formTag ≠ "" → formValue values f.formTag = some raw →
            g.value = boundValue ParseFloat f.typ raw f.value)) ∧
      (∀ raw, (ParseBool raw).2 = false → (ParseBool raw).1 = false) ∧
      (∀ raw, (ParseInt raw).2 = false →
        (ParseInt raw).1 = 0 ∨ (ParseInt raw).1 = 2 ^ 63 - 1 ∨ (ParseInt raw).1 = -(2 ^ 63)) := by
  refine ⟨dest.map (boundField ParseFloat values), ?_, by simp, ?_, ?_, ParseInt_failure⟩
  · unfold bindFormValues
    rw [bindFormFields_eq ParseFloat values dest hexp]
  · intro i f hf
    refine ⟨boundField ParseFloat values f, by simp [List.getElem?_map, hf], ?_⟩
    unfold boundField
    by_cases htag : f.formTag = ""
    · simp [htag]
    · cases hv : formValue values f.formTag with
      | none => simp [htag]
      | some raw => simp [htag]
  · intro raw h
    unfold ParseBool at h ⊢
    split_ifs at h ⊢
    rfl

/-- C24 at the sample record and form: the record is bound without error. -/
theorem bindFormValues_overwrites_witness :
    ∃ bound, bindFormValues (fun _ => ((), false)) (fun _ => none) sampleValues sampleForm
        = some (bound, none) ∧ bound.length = 3 := by
  obtain ⟨bound, h₁, h₂, _⟩ := bindFormValues_overwrites (fun _ => ((), false))
    (fun _ => none) sampleValues sampleForm (by decide)
  exact ⟨bound, h₁, h₂⟩

/-- C24 as stated fails: the integer field holding 7 is bound to the text `abc`
and the absent optional boolean field to the text `maybe`: neither text coerces,
yet after binding the integer field holds 0 and the optional field points to
false; the field without form tag is unchanged. -/
theorem bindFormValues_counterexample :
    (ParseInt "abc").2 = false ∧ (ParseBool "maybe").2 = false ∧
    bindFormValues (fun _ => ((), false)) (fun _ => none) sampleValues sampleForm
      = some ([⟨"Age", true, "age", FormType.scalar FormKind.int, FormValue.int 0⟩,
          ⟨"Active", true, "active", FormType.ptr FormKind.bool,
            FormValue.ptr (FormValue.bool false)⟩,
          ⟨"Note", true, "", FormType.scalar FormKind.string, FormValue.str "n"⟩], none) := by
  refine ⟨by decide, by decide, rfl⟩

/-! ## Claims about dates and times -/

theorem isDigit_iff (c : Char) : isDigit c = true ↔ 48 ≤ c.toNat ∧ c.toNat ≤ 57 := by
  simp [isDigit]

theorem digitChar_toNat (k : Nat) (hk : k ≤ 9) : (digitChar k).toNat = 48 + k := by
  interval_cases k <;> rfl

theorem isDigit_digitChar (k : Nat) (hk : k ≤ 9) : isDigit (digitChar k) = true := by
  interval_cases k <;> rfl

theorem digit_digitChar (k : Nat) (hk : k ≤ 9) : time.digit (digitChar k) = (k : Int) := by
  interval_cases k <;> rfl

theorem digitChar_of_isDigit (c : Char) (h : isDigit c = true) :
    ∃ k : Nat, k ≤ 9 ∧ c = digitChar k ∧ c.toNat - 48 = k := by
  rw [isDigit_iff] at h
  refine ⟨c.toNat - 48, by omega, ?_, rfl⟩
  apply char_eq_of_toNat_eq
  rw [digitChar_toNat _ (by omega)]
  omega

theorem pad2_of_digits (ka kb : Nat) (hb : kb ≤ 9) :
    pad2 (ka * 10 + kb) = [digitChar ka, digitChar kb] := by
  have h₁ : (ka * 10 + kb) / 10 = ka := by omega
  have h₂ : (ka * 10 + kb) % 10 = kb := by omega
  simp [pad2, h₁, h₂]

theorem getnum_pad2 (k : Nat) (hk : k < 100) (rest : List Char) ( fixed : Bool) :
    time.getnum (pad2 k ++ rest) fixed = some ((k : Int), rest) := by
  have h₁ : k / 10 ≤ 9 := by omega
  have h₂ : k % 10 ≤ 9 := by omega
  simp only [pad2, List.cons_append, List.nil_append, time.getnum,
    isDigit_digitChar _ h₁, isDigit_digitChar _ h₂, digit_digitChar _ h₁,
    digit_digitChar _ h₂, Bool.not_true, Bool.false_eq_true, if_false]
  congr 2
  omega

theorem getnum_fixed_iff (value rest : List Char) (n : Int) :
    time.getnum value true = some (n, rest) ↔
      ∃ k : Nat, k < 100 ∧ n = (k : Int) ∧ value = pad2 k ++ rest := by
  constructor
  · intro h
    match value with
    | [] => simp [time.getnum] at h
    | [a] =>
      simp only [time.getnum] at h
      split at h <;> simp at h
    | a :: b :: rest2 =>
      simp only [time.getnum] at h
      by_cases ha : isDigit a = true
      · by_cases hb : isDigit b = true
        · simp only [ha, hb, Bool.not_true, Bool.false_eq_true, if_false, Option.some.injEq,
            Prod.mk.injEq] at h
          obtain ⟨ka, hka, rfl, -⟩ := digitChar_of_isDigit a ha
          obtain ⟨kb, hkb, rfl, -⟩ := digitChar_of_isDigit b hb
          refine ⟨ka * 10 + kb, by omega, ?_, ?_⟩
          · rw [← h.1, digit_digitChar _ hka, digit_digitChar _ hkb]
            push_cast
            ring
          · rw [pad2_of_digits ka kb hkb, ← h.2]
            rfl
        · simp [ha, hb] at h
      · simp [ha] at h
  · rintro ⟨k, hk, rfl, rfl⟩
    exact getnum_pad2 k hk rest true

theorem getnum_free_iff (value rest : List Char) (n : Int) :
    time.getnum value false = some (n, rest) ↔
      ∃ k : Nat, n = (k : Int) ∧
        ((k < 100 ∧ value = pad2 k ++ rest) ∨
         (k < 10 ∧ value = digitChar k :: rest ∧ time.isDigit rest 0 = false)) := by
  constructor
  · intro h
    match value with
    | [] => simp [time.getnum] at h
    | [a] =>
      simp only [time.getnum] at h
      by_cases ha : isDigit a = true
      · simp only [ha, Bool.not_true, Bool.false_eq_true, if_false, Option.some.injEq,
          Prod.mk.injEq] at h
        obtain ⟨ka, hka, rfl, -⟩ := digitChar_of_isDigit a ha
        refine ⟨ka, ?_, Or.inr ⟨by omega, ?_, ?_⟩⟩
        · rw [← h.1, digit_digitChar _ hka]
        · rw [← h.2]
        · rw [← h.2]
          rfl
      · simp [ha] at h
    | a :: b :: rest2 =>
      simp only [time.getnum] at h
      by_cases ha : isDigit a = true
      · obtain ⟨ka, hka, rfl, -⟩ := digitChar_of_isDigit a ha
        by_cases hb : isDigit b = true
        · simp only [ha, hb, Bool.not_true, Bool.false_eq_true, if_false, Option.some.injEq,
            Prod.mk.injEq] at h
          obtain ⟨kb, hkb, rfl, -⟩ := digitChar_of_isDigit b hb
          refine ⟨ka * 10 + kb, ?_, Or.inl ⟨by omega, ?_⟩⟩
          · rw [← h.1, digit_digitChar _ hka, digit_digitChar _ hkb]
            push_cast
            ring
          · rw [pad2_of_digits ka kb hkb, ← h.2]
            rfl
        · simp only [ha, hb, Bool.not_true, Bool.false_eq_true, if_false, Bool.not_false,
            if_true, Option.some.injEq, Prod.mk.injEq] at h
          refine ⟨ka, ?_, Or.inr ⟨by omega, ?_, ?_⟩⟩
          · rw [← h.1, digit_digitChar _ hka]
          · rw [← h.2]
          · rw [← h.2]
            simpa [time.isDigit] using hb
      · simp [ha] at h
  · rintro ⟨k, rfl, h | h⟩
    · obtain ⟨hk, rfl⟩ := h
      exact getnum_pad2 k hk rest false
    · obtain ⟨hk, rfl, hrest⟩ := h
      have hd := isDigit_digitChar k (by omega)
      have hv := digit_digitChar k (by omega)
      match rest, hrest with
      | [], _ => simp [time.getnum, hd, hv]
      | b :: rest2, hrest =>
        have hb : isDigit b = false := by simpa [time.isDigit] using hrest
        simp [time.getnum, hd, hv, hb]

theorem cutspace_replicate (k : Nat) (rest : List Char) (h : rest.head? ≠ some ' ') :
    time.cutspace (List.replicate k ' ' ++ rest) = rest := by
  induction k with
  | zero =>
    cases rest with
    | nil => rfl
    | cons c rest2 =>
      have hc : c ≠ ' ' := by simpa using h
      simp [time.cutspace, hc]
  | succ k ih => simpa [List.replicate_succ, time.cutspace] using ih

theorem cutspace_eq (value : List Char) :
    ∃ k, value = List.replicate k ' ' ++ time.cutspace value ∧
      (time.cutspace value).head? ≠ some ' ' := by
  induction value with
  | nil => exact ⟨0, rfl, by simp [time.cutspace]⟩
  | cons c rest ih =>
    by_cases hc : c = ' '
    · obtain ⟨k, hk, hh⟩ := ih
      refine ⟨k + 1, ?_, ?_⟩
      · simp only [time.cutspace, hc, if_true, List.replicate_succ, List.cons_append]
        rw [← hk]
      · simpa [time.cutspace, hc] using hh
    · exact ⟨0, by simp [time.cutspace, hc], by simp [time.cutspace, hc]⟩

theorem skip_nil (value : List Char) : time.skip value [] = some value := by
  simp [time.skip, time.skipLoop]

theorem skip_char (c : Char) (hc : c ≠ ' ') (value rest : List Char) :
    time.skip value [c] = some rest ↔ value = c :: rest := by
  cases value with
  | nil => simp [time.skip, time.skipLoop, hc]
  | cons v value =>
    by_cases hv : v = c
    · simp [time.skip, time.skipLoop, hc, hv]
    · simp [time.skip, time.skipLoop, hc, hv]

theorem skip_space (value : List Char) :
    time.skip value [' '] =
      if value ≠ [] ∧ value.head? ≠ some ' ' then none else some (time.cutspace value) := by
  simp only [time.skip, List.length_singleton, time.skipLoop, if_true]
theorem leadingIntLoop_digits (digits : List Char) (x : Nat)
    (hd : digits.all isDigit = true) (hb : (x + 1) * 10 ^ digits.length ≤ 2 ^ 63) :
    time.leadingIntLoop digits x
        = some (digits.foldl (fun n c => n * 10 + (c.toNat - 48)) x, []) ∧
      digits.foldl (fun n c => n * 10 + (c.toNat - 48)) x + 1 ≤ (x + 1) * 10 ^ digits.length := by
  induction digits generalizing x with
  | nil => simp [time.leadingIntLoop]
  | cons c rest ih =>
    simp only [List.all_cons, Bool.and_eq_true] at hd
    have hc := (isDigit_iff c).1 hd.1
    have hpow : (x + 1) * 10 ^ (c :: rest).length = (x * 10 + 10) * 10 ^ rest.length := by
      rw [List.length_cons, pow_succ]
      ring
    rw [hpow] at hb ⊢
    have hpos : 1 ≤ 10 ^ rest.length := Nat.one_le_pow _ _ (by norm_num)
    have hx : x * 10 + 10 ≤ 2 ^ 63 :=
      le_trans (Nat.le_mul_of_pos_right _ hpos) hb
    have h63 : (2 : Nat) ^ 63 = 9223372036854775808 := by norm_num
    rw [h63] at hx
    have hnext : (x * 10 + (c.toNat - 48) + 1) * 10 ^ rest.length ≤ 2 ^ 63 :=
      le_trans (Nat.mul_le_mul_right _ (by omega)) hb
    obtain ⟨ih₁, ih₂⟩ := ih (x * 10 + (c.toNat - 48)) hd.2 hnext
    refine ⟨?_, ?_⟩
    · simp only [time.leadingIntLoop, hd.1, Bool.not_true, Bool.false_eq_true, if_false,
        List.foldl_cons]
      rw [if_neg (by rw [h63]; omega), if_neg (by rw [h63]; omega)]
      exact ih₁
    · simp only [List.foldl_cons]
      exact le_trans ih₂ (Nat.mul_le_mul_right _ (by omega))

theorem leadingIntLoop_rem (s : List Char) (x q : Nat)
    (h : time.leadingIntLoop s x = some (q, [])) : s.all isDigit = true := by
  induction s generalizing x with
  | nil => rfl
  | cons c rest ih =>
    simp only [time.leadingIntLoop] at h
    by_cases hc : isDigit c = true
    · simp only [hc, Bool.not_true, Bool.false_eq_true, if_false] at h
      split at h
      · exact absurd h (by simp)
      · split at h
        · exact absurd h (by simp)
        · simp [hc, ih _ h]
    · simp [hc] at h

theorem not_sign_of_isDigit (s : List Char) (h : s.all isDigit = true) :
    ¬ (s.head? = some '-' ∨ s.head? = some '+') := by
  cases s with
  | nil => simp
  | cons c rest =>
    simp only [List.all_cons, Bool.and_eq_true] at h
    have hc := (isDigit_iff c).1 h.1
    simp only [List.head?_cons, Option.some.injEq]
    rintro (rfl | rfl)
    · exact absurd hc (by decide)
    · exact absurd hc (by decide)

theorem atoi_digits (digits : List Char) (hd : digits.all isDigit = true)
    (hlen : digits.length ≤ 9) : time.atoi digits = some ((decimal digits : Nat) : Int) := by
  have hpow : (0 + 1) * 10 ^ digits.length ≤ 2 ^ 63 := by
    rw [Nat.zero_add, Nat.one_mul]
    calc 10 ^ digits.length ≤ 10 ^ 9 := Nat.pow_le_pow_right (by norm_num) hlen
      _ ≤ 2 ^ 63 := by norm_num
  obtain ⟨h₁, h₂⟩ := leadingIntLoop_digits digits 0 hd hpow
  have hsign := not_sign_of_isDigit digits hd
  have hneg : ¬ digits.head? = some '-' := fun h => hsign (Or.inl h)
  have hq : decimal digits < 2 ^ 63 := by
    unfold decimal
    omega
  have h63 : (2 : Int) ^ 63 = 9223372036854775808 := by norm_num
  have h64 : (2 : Int) ^ 64 = 18446744073709551616 := by norm_num
  have h63n : (2 : Nat) ^ 63 = 9223372036854775808 := by norm_num
  rw [h63n] at hq
  have hwrap : time.wrap ((decimal digits : Nat) : Int) = ((decimal digits : Nat) : Int) := by
    unfold time.wrap
    rw [h63, h64]
    omega
  have hplus : ¬ digits.head? = some '+' := fun h => hsign (Or.inr h)
  unfold time.atoi
  simp only [hneg, hplus, or_self, if_false, decide_False, time.leadingInt, h₁, ne_eq,
    not_true_eq_false, Bool.false_eq_true]
  exact congrArg some hwrap

theorem atoi_isSome_digits (s : List Char) (y : Int) (hhead : time.isDigit s 0 = true)
    (h : time.atoi s = some y) : s.all isDigit = true := by
  cases s with
  | nil => rfl
  | cons c rest =>
    have hc : isDigit c = true := by simpa [time.isDigit] using hhead
    have hc' := (isDigit_iff c).1 hc
    have hsign : ¬ ((c :: rest).head? = some '-' ∨ (c :: rest).head? = some '+') := by
      simp only [List.head?_cons, Option.some.injEq]
      rintro (rfl | rfl)
      · exact absurd hc' (by decide)
      · exact absurd hc' (by decide)
    unfold time.atoi at h
    simp only [hsign, if_false, time.leadingInt] at h
    cases hl : time.leadingIntLoop (c :: rest) 0 with
    | none => simp [hl] at h
    | some r =>
      obtain ⟨q, rem⟩ := r
      simp only [hl] at h
      by_cases hrem : rem = []
      · subst hrem
        exact leadingIntLoop_rem _ _ _ hl
      · simp [hrem] at h

theorem pad4_digits (y : Nat) (hy : y ≤ 9999) :
    (pad4 y).all isDigit = true ∧ decimal (pad4 y) = y := by
  have h₁ : y / 1000 ≤ 9 := by omega
  have h₂ : y / 100 % 10 ≤ 9 := by omega
  have h₃ : y / 10 % 10 ≤ 9 := by omega
  have h₄ : y % 10 ≤ 9 := by omega
  refine ⟨by simp [pad4, isDigit_digitChar, h₁, h₂, h₃, h₄], ?_⟩
  simp only [pad4, decimal, List.foldl_cons, List.foldl_nil, digitChar_toNat _ h₁,
    digitChar_toNat _ h₂, digitChar_toNat _ h₃, digitChar_toNat _ h₄]
  omega

theorem digits4_eq_pad4 (digits : List Char) (hlen : digits.length = 4)
    (hd : digits.all isDigit = true) :
    decimal digits ≤ 9999 ∧ digits = pad4 (decimal digits) := by
  match digits, hlen with
  | [a, b, c, d], _ =>
    simp only [List.all_cons, List.all_nil, Bool.and_true, Bool.and_eq_true] at hd
    obtain ⟨ka, hka, rfl, -⟩ := digitChar_of_isDigit a hd.1
    obtain ⟨kb, hkb, rfl, -⟩ := digitChar_of_isDigit b hd.2.1
    obtain ⟨kc, hkc, rfl, -⟩ := digitChar_of_isDigit c hd.2.2.1
    obtain ⟨kd, hkd, rfl, -⟩ := digitChar_of_isDigit d hd.2.2.2
    have hval : decimal [digitChar ka, digitChar kb, digitChar kc, digitChar kd]
        = ((ka * 10 + kb) * 10 + kc) * 10 + kd := by
      simp only [decimal, List.foldl_cons, List.foldl_nil, digitChar_toNat _ hka,
        digitChar_toNat _ hkb, digitChar_toNat _ hkc, digitChar_toNat _ hkd]
      omega
    rw [hval]
    refine ⟨by omega, ?_⟩
    have e₁ : (((ka * 10 + kb) * 10 + kc) * 10 + kd) / 1000 = ka := by omega
    have e₂ : (((ka * 10 + kb) * 10 + kc) * 10 + kd) / 100 % 10 = kb := by omega
    have e₃ : (((ka * 10 + kb) * 10 + kc) * 10 + kd) / 10 % 10 = kc := by omega
    have e₄ : (((ka * 10 + kb) * 10 + kc) * 10 + kd) % 10 = kd := by omega
    simp only [pad4, e₁, e₂, e₃, e₄]

theorem parseStd_year_iff (value rest : List Char) (t r : time.Time) :
    time.parseStd time.Std.stdLongYear value t = some (r, rest) ↔
      ∃ y : Nat, y ≤ 9999 ∧ value = pad4 y ++ rest ∧ r = { t with year := (y : Int) } := by
  constructor
  · intro h
    simp only [time.parseStd] at h
    split at h
    · exact absurd h (by simp)
    · rename_i hcond
      rw [not_or] at hcond
      have hlen : 4 ≤ value.length := by omega
      have hhead : time.isDigit value 0 = true := by simpa using hcond.2
      have hhead4 : time.isDigit (value.take 4) 0 = true := by
        cases value with
        | nil => simp at hlen
        | cons c rest2 => simpa [time.isDigit] using hhead
      cases ha : time.atoi (value.take 4) with
      | none => simp [ha] at h
      | some year =>
        simp only [ha, Option.some.injEq, Prod.mk.injEq] at h
        have hd := atoi_isSome_digits _ _ hhead4 ha
        have hl4 : (value.take 4).length = 4 := by simp [hlen]
        rw [atoi_digits _ hd (by omega)] at ha
        obtain ⟨hy, hpad⟩ := digits4_eq_pad4 _ hl4 hd
        refine ⟨decimal (value.take 4), hy, ?_, ?_⟩
        · rw [← hpad, ← h.2, List.take_append_drop]
        · rw [← h.1]
          simp only [Option.some.injEq] at ha
          rw [ha]
  · rintro ⟨y, hy, rfl, rfl⟩
    obtain ⟨hd, hval⟩ := pad4_digits y hy
    have hl : (pad4 y).length = 4 := rfl
    have htake : (pad4 y ++ rest).take 4 = pad4 y := by
      rw [List.take_append_of_le_length (by omega), List.take_of_length_le (by omega)]
    have hdrop : (pad4 y ++ rest).drop 4 = rest := by
      rw [← hl, List.drop_left]
    have hhead : time.isDigit (pad4 y ++ rest) 0 = true := by
      simp [pad4, time.isDigit, isDigit_digitChar _ (show y / 1000 ≤ 9 by omega)]
    have hlen : ¬ ((pad4 y ++ rest).length < 4 ∨ time.isDigit (pad4 y ++ rest) 0 = false) := by
      simp [hhead, hl]
    simp only [time.parseStd, hlen, if_false, htake, atoi_digits _ hd (by omega), hval, hdrop]

theorem daysIn_eq (y m : Nat) (h₁ : 1 ≤ m) (h₂ : m ≤ 12) :
    time.daysIn (m : Int) (y : Int) = (calendarDays y m : Int) := by
  have hleap : time.isLeap (y : Int) = true ↔
      (y % 4 = 0 ∧ (y % 100 ≠ 0 ∨ y % 400 = 0)) := by
    simp only [time.isLeap, Bool.and_eq_true, Bool.or_eq_true, decide_eq_true_eq, ne_eq]
    omega
  unfold time.daysIn calendarDays
  by_cases hl : (y % 4 = 0 ∧ (y % 100 ≠ 0 ∨ y % 400 = 0))
  · have hl' := hleap.2 hl
    interval_cases m <;> simp [hl', hl, time.daysBefore]
  · have hl' : ¬ time.isLeap (y : Int) = true := fun h => hl (hleap.1 h)
    interval_cases m <;> simp [hl', hl, time.daysBefore]
theorem parseStd_month_iff (value rest : List Char) (t r : time.Time) :
    time.parseStd time.Std.stdZeroMonth value t = some (r, rest) ↔
      ∃ m : Nat, 1 ≤ m ∧ m ≤ 12 ∧ value = pad2 m ++ rest ∧ r = { t with month := (m : Int) } := by
  constructor
  · intro h
    simp only [time.parseStd] at h
    cases hg : time.getnum value true with
    | none => simp [hg] at h
    | some p =>
      obtain ⟨n, v⟩ := p
      obtain ⟨k, hk, rfl, rfl⟩ := (getnum_fixed_iff _ _ _).1 hg
      simp only [hg] at h
      split at h
      · exact absurd h (by simp)
      · rename_i hcond
        simp only [Option.some.injEq, Prod.mk.injEq] at h
        refine ⟨k, by omega, by omega, ?_, h.1.symm⟩
        rw [h.2]
  · rintro ⟨m, h₁, h₂, rfl, rfl⟩
    have hcond : ¬ ((m : Int) ≤ 0 ∨ 12 < (m : Int)) := by omega
    simp only [time.parseStd, getnum_pad2 m (by omega), hcond, if_false]

theorem parseStd_day_iff (value rest : List Char) (t r : time.Time) :
    time.parseStd time.Std.stdZeroDay value t = some (r, rest) ↔
      ∃ d : Nat, d < 100 ∧ value = pad2 d ++ rest ∧ r = { t with day := (d : Int) } := by
  constructor
  · intro h
    simp only [time.parseStd] at h
    cases hg : time.getnum value true with
    | none => simp [hg] at h
    | some p =>
      obtain ⟨n, v⟩ := p
      obtain ⟨k, hk, rfl, rfl⟩ := (getnum_fixed_iff _ _ _).1 hg
      simp only [hg, Option.some.injEq, Prod.mk.injEq] at h
      refine ⟨k, hk, ?_, h.1.symm⟩
      rw [h.2]
  · rintro ⟨d, h₁, rfl, rfl⟩
    simp only [time.parseStd, getnum_pad2 d h₁]

theorem parseStd_minute_iff (value rest : List Char) (t r : time.Time) :
    time.parseStd time.Std.stdZeroMinute value t = some (r, rest) ↔
      ∃ mi : Nat, mi < 60 ∧ value = pad2 mi ++ rest ∧ r = { t with min := (mi : Int) } := by
  constructor
  · intro h
    simp only [time.parseStd] at h
    cases hg : time.getnum value true with
    | none => simp [hg] at h
    | some p =>
      obtain ⟨n, v⟩ := p
      obtain ⟨k, hk, rfl, rfl⟩ := (getnum_fixed_iff _ _ _).1 hg
      simp only [hg] at h
      split at h
      · exact absurd h (by simp)
      · rename_i hcond
        simp only [Option.some.injEq, Prod.mk.injEq] at h
        refine ⟨k, by omega, ?_, h.1.symm⟩
        rw [h.2]
  · rintro ⟨m, h₁, rfl, rfl⟩
    have hcond : ¬ ((m : Int) < 0 ∨ 60 ≤ (m : Int)) := by omega
    simp only [time.parseStd, getnum_pad2 m (by omega), hcond, if_false]

theorem parseStd_hour_iff (value rest : List Char) (t r : time.Time) :
    time.parseStd time.Std.stdHour value t = some (r, rest) ↔
      ∃ h : Nat, h < 24 ∧ r = { t with hour := (h : Int) } ∧
        (value = pad2 h ++ rest ∨
         (h < 10 ∧ value = digitChar h :: rest ∧ time.isDigit rest 0 = false)) := by
  constructor
  · intro h
    simp only [time.parseStd] at h
    cases hg : time.getnum value false with
    | none => simp [hg] at h
    | some p =>
      obtain ⟨n, v⟩ := p
      obtain ⟨k, rfl, hk⟩ := (getnum_free_iff _ _ _).1 hg
      simp only [hg] at h
      split at h
      · exact absurd h (by simp)
      · rename_i hcond
        simp only [Option.some.injEq, Prod.mk.injEq] at h
        refine ⟨k, by omega, h.1.symm, ?_⟩
        rw [← h.2]
        rcases hk with hk | hk
        · exact Or.inl hk.2
        · exact Or.inr hk
  · rintro ⟨h, h₁, rfl, hv⟩
    have hcond : ¬ ((h : Int) < 0 ∨ 24 ≤ (h : Int)) := by omega
    have hg : time.getnum value false = some ((h : Int), rest) := by
      rw [getnum_free_iff]
      refine ⟨h, rfl, ?_⟩
      rcases hv with hv | hv
      · exact Or.inl ⟨by omega, hv⟩
      · exact Or.inr hv
    simp only [time.parseStd, hg, hcond, if_false]

theorem all_isDigit_take (l : List Char) (k : Nat) (h : l.all isDigit = true) :
    (l.take k).all isDigit = true := by
  rw [List.all_eq_true] at h ⊢
  intro c hc
  exact h c (List.mem_of_mem_take hc)

theorem parseNanoseconds_isSome (sep : Char) (digits : List Char)
    (hsep : time.commaOrPeriod sep = true) (hd : digits.all isDigit = true) :
    ∃ ns, time.parseNanoseconds (sep :: digits) (1 + digits.length) = some ns := by
  have hat : ∀ ds : List Char, ds.all isDigit = true → ds.length ≤ 9 →
      ∀ k : Nat, ∃ ns, (match time.atoi ds with
        | none => none
        | some ns => if ns < 0 then none else some (ns * 10 ^ k)) = some ns := by
    intro ds h₁ h₂ k
    rw [atoi_digits ds h₁ h₂]
    have hn : ¬ (((decimal ds : Nat) : Int) < 0) := by omega
    refine ⟨((decimal ds : Nat) : Int) * 10 ^ k, ?_⟩
    simp only [hn, if_false]
  unfold time.parseNanoseconds
  simp only [List.headD_cons, hsep, Bool.not_true, Bool.false_eq_true, if_false]
  by_cases hn : 1 + digits.length > 10
  · simp only [hn, if_true]
    have he : ((List.take 10 (sep :: digits)).take 10).drop 1 = digits.take 9 := by
      simp [List.take_take]
    rw [he]
    exact hat _ (all_isDigit_take _ _ hd) (by simp) _
  · simp only [hn, if_false]
    have he : ((sep :: digits).take (1 + digits.length)).drop 1 = digits := by
      rw [Nat.add_comm]
      simp
    rw [he]
    exact hat _ hd (by omega) _

theorem takeWhile_of_all (l : List Char) (h : l.all isDigit = true) :
    l.takeWhile isDigit = l := by
  induction l with
  | nil => rfl
  | cons c rest ih =>
    simp only [List.all_cons, Bool.and_eq_true] at h
    simp [List.takeWhile, h.1, ih h.2]

theorem all_of_drop_takeWhile (l : List Char)
    (h : l.drop (l.takeWhile isDigit).length = []) : l.all isDigit = true := by
  induction l with
  | nil => rfl
  | cons c rest ih =>
    by_cases hc : isDigit c = true
    · simp only [List.takeWhile, hc, List.length_cons, List.drop_succ_cons] at h
      simp [hc, ih h]
    · simp [List.takeWhile, hc] at h

theorem parseStd_second_elim (value : List Char) (t r : time.Time)
    (h : time.parseStd time.Std.stdZeroSecond value t = some (r, [])) :
    ∃ (sec : Nat) (frac : List Char), sec < 60 ∧ fractionText frac ∧
      value = pad2 sec ++ frac ∧ ∃ nsec, r = { t with sec := (sec : Int), nsec := nsec } := by
  simp only [time.parseStd] at h
  cases hg : time.getnum value true with
  | none => simp [hg] at h
  | some p =>
    obtain ⟨n, v⟩ := p
    obtain ⟨k, hk, rfl, rfl⟩ := (getnum_fixed_iff _ _ _).1 hg
    simp only [hg] at h
    split at h
    · exact absurd h (by simp)
    · rename_i hcond
      split at h
      · rename_i hfrac
        obtain ⟨hlen, hsep, hdig⟩ := hfrac
        match v, hlen, hsep, hdig, h with
        | sep :: d₁ :: tail, _, hsep, hdig, h =>
          have hd2 : List.drop 2 (sep :: d₁ :: tail) = tail := rfl
          rw [hd2] at h
          cases hp : time.parseNanoseconds (sep :: d₁ :: tail)
              (2 + (tail.takeWhile isDigit).length) with
          | none =>
            rw [hp] at h
            exact absurd h (by simp)
          | some ns =>
            rw [hp] at h
            simp only [Option.some.injEq, Prod.mk.injEq] at h
            have hdrop : tail.drop (tail.takeWhile isDigit).length = [] := by
              have := h.2
              rw [Nat.add_comm] at this
              simpa using this
            have htail := all_of_drop_takeWhile tail hdrop
            have hd₁ : isDigit d₁ = true := by simpa [time.isDigit] using hdig
            have hsep' : sep = '.' ∨ sep = ',' := by
              simpa [time.commaOrPeriod] using hsep
            refine ⟨k, sep :: d₁ :: tail, by omega, Or.inr ⟨sep, d₁ :: tail, hsep', by simp,
              by simp [hd₁, htail], rfl⟩, rfl, ns, h.1.symm⟩
      · simp only [Option.some.injEq, Prod.mk.injEq] at h
        refine ⟨k, [], by omega, Or.inl rfl, ?_, t.nsec, h.1.symm⟩
        rw [h.2]

theorem parseStd_second_intro (sec : Nat) (frac : List Char) (t : time.Time)
    (hsec : sec < 60) (hfrac : fractionText frac) :
    ∃ nsec, time.parseStd time.Std.stdZeroSecond (pad2 sec ++ frac) t
      = some ({ t with sec := (sec : Int), nsec := nsec }, []) := by
  have hcond : ¬ ((sec : Int) < 0 ∨ 60 ≤ (sec : Int)) := by omega
  rcases hfrac with rfl | ⟨sep, digits, hsep, hne, hd, rfl⟩
  · refine ⟨t.nsec, ?_⟩
    have hg : time.getnum (pad2 sec) true = some ((sec : Int), []) := by
      simpa using getnum_pad2 sec (by omega) [] true
    simp [time.parseStd, hg, hsec]
  · match digits, hne, hd with
    | d₁ :: tail, _, hd =>
      have hsep' : time.commaOrPeriod sep = true := by
        rcases hsep with rfl | rfl <;> rfl
      simp only [List.all_cons, Bool.and_eq_true] at hd
      obtain ⟨ns, hns⟩ := parseNanoseconds_isSome sep (d₁ :: tail) hsep'
        (by simp [hd.1, hd.2])
      have hn : 1 + (d₁ :: tail).length = 2 + tail.length := by
        simp only [List.length_cons]
        omega
      rw [hn] at hns
      have hfr : (sep :: d₁ :: tail).length ≥ 2 ∧
          time.commaOrPeriod ((sep :: d₁ :: tail).headD ' ') = true ∧
          time.isDigit (sep :: d₁ :: tail) 1 = true :=
        ⟨by simp, hsep', by simpa [time.isDigit] using hd.1⟩
      have hd2 : List.drop 2 (sep :: d₁ :: tail) = tail := rfl
      have hdrop : List.drop (2 + tail.length) (sep :: d₁ :: tail) = [] := by
        rw [Nat.add_comm]
        simp
      refine ⟨ns, ?_⟩
      simp only [time.parseStd, getnum_pad2 sec (by omega), hcond, if_false, hfr, and_self,
        if_true, hd2, takeWhile_of_all tail hd.2, hns, hdrop]
theorem parseLoop_cons_iff (pre : List Char) (std : time.Std)
    (layout : List (List Char × time.Std)) (value : List Char) (t : time.Time)
    (out : time.Time × List Char) :
    time.parseLoop ((pre, std) :: layout) value t = some out ↔
      ∃ v₁ t₁ v₂, time.skip value pre = some v₁ ∧ time.parseStd std v₁ t = some (t₁, v₂) ∧
        time.parseLoop layout v₂ t₁ = some out := by
  constructor
  · intro h
    simp only [time.parseLoop] at h
    cases hs : time.skip value pre with
    | none => simp [hs] at h
    | some v₁ =>
      cases hp : time.parseStd std v₁ t with
      | none => simp [hs, hp] at h
      | some p =>
        obtain ⟨t₁, v₂⟩ := p
        simp only [hs, hp] at h
        exact ⟨v₁, t₁, v₂, rfl, hp, h⟩
  · rintro ⟨v₁, t₁, v₂, hs, hp, h⟩
    simp only [time.parseLoop, hs, hp]
    exact h

theorem parseLoop_append (l₁ l₂ : List (List Char × time.Std)) (value : List Char)
    (t : time.Time) (out : time.Time × List Char) :
    time.parseLoop (l₁ ++ l₂) value t = some out ↔
      ∃ t₁ v₁, time.parseLoop l₁ value t = some (t₁, v₁) ∧
        time.parseLoop l₂ v₁ t₁ = some out := by
  induction l₁ generalizing value t with
  | nil =>
    simp only [List.nil_append, time.parseLoop, Option.some.injEq, Prod.mk.injEq]
    constructor
    · intro h
      exact ⟨t, value, ⟨rfl, rfl⟩, h⟩
    · rintro ⟨_, _, ⟨rfl, rfl⟩, h⟩
      exact h
  | cons c rest ih =>
    obtain ⟨pre, std⟩ := c
    rw [List.cons_append, parseLoop_cons_iff]
    constructor
    · rintro ⟨v₁, t₁, v₂, hs, hp, hl⟩
      obtain ⟨t₂, v₃, h₁, h₂⟩ := (ih _ _).1 hl
      exact ⟨t₂, v₃, (parseLoop_cons_iff _ _ _ _ _ _).2 ⟨v₁, t₁, v₂, hs, hp, h₁⟩, h₂⟩
    · rintro ⟨t₂, v₃, h₁, h₂⟩
      obtain ⟨v₁, t₁, v₂, hs, hp, hl⟩ := (parseLoop_cons_iff _ _ _ _ _ _).1 h₁
      exact ⟨v₁, t₁, v₂, hs, hp, (ih _ _).2 ⟨t₂, v₃, hl, h₂⟩⟩

theorem parseLoop_date_iff (value rest : List Char) (t r : time.Time) :
    time.parseLoop dateLayout value t = some (r, rest) ↔
      ∃ y m d : Nat, y ≤ 9999 ∧ 1 ≤ m ∧ m ≤ 12 ∧ d < 100 ∧
        value = dateText y m d ++ rest ∧
        r = { t with year := (y : Int), month := (m : Int), day := (d : Int) } := by
  unfold dateLayout
  constructor
  · intro h
    obtain ⟨v₁, t₁, v₂, hs₁, hp₁, h⟩ := (parseLoop_cons_iff _ _ _ _ _ _).1 h
    obtain ⟨v₃, t₂, v₄, hs₂, hp₂, h⟩ := (parseLoop_cons_iff _ _ _ _ _ _).1 h
    obtain ⟨v₅, t₃, v₆, hs₃, hp₃, h⟩ := (parseLoop_cons_iff _ _ _ _ _ _).1 h
    simp only [time.parseLoop, Option.some.injEq, Prod.mk.injEq] at h
    rw [skip_nil, Option.some.injEq] at hs₁
    rw [skip_char '-' (by decide)] at hs₂ hs₃
    obtain ⟨y, hy, rfl, rfl⟩ := (parseStd_year_iff _ _ _ _).1 hp₁
    obtain ⟨m, hm₁, hm₂, rfl, rfl⟩ := (parseStd_month_iff _ _ _ _).1 hp₂
    obtain ⟨d, hd, rfl, rfl⟩ := (parseStd_day_iff _ _ _ _).1 hp₃
    refine ⟨y, m, d, hy, hm₁, hm₂, hd, ?_, h.1.symm⟩
    rw [hs₁, hs₂, hs₃, h.2]
    simp [dateText]
  · rintro ⟨y, m, d, hy, hm₁, hm₂, hd, rfl, rfl⟩
    refine (parseLoop_cons_iff _ _ _ _ _ _).2 ⟨_, _, _, skip_nil _,
      (parseStd_year_iff _ ('-' :: pad2 m ++ '-' :: pad2 d ++ rest) _ _).2
        ⟨y, hy, by simp [dateText], rfl⟩, ?_⟩
    refine (parseLoop_cons_iff _ _ _ _ _ _).2 ⟨_, _, _,
      (skip_char '-' (by decide) _ _).2 rfl,
      (parseStd_month_iff _ ('-' :: pad2 d ++ rest) _ _).2 ⟨m, hm₁, hm₂, by simp, rfl⟩, ?_⟩
    refine (parseLoop_cons_iff _ _ _ _ _ _).2 ⟨_, _, _,
      (skip_char '-' (by decide) _ _).2 rfl,
      (parseStd_day_iff _ rest _ _).2 ⟨d, hd, rfl, rfl⟩, ?_⟩
    simp [time.parseLoop]

theorem parse_date_iff (s : String) : (time.Parse dateLayout s).isSome = true ↔ isDate s := by
  unfold time.Parse isDate
  constructor
  · intro h
    cases hl : time.parseLoop dateLayout s.data ⟨0, -1, -1, 0, 0, 0, 0⟩ with
    | none => simp [hl] at h
    | some p =>
      obtain ⟨r, rest⟩ := p
      obtain ⟨y, m, d, hy, hm₁, hm₂, hd, hval, rfl⟩ := (parseLoop_date_iff _ _ _ _).1 hl
      simp only [hl] at h
      by_cases hrest : rest = []
      · subst hrest
        have hm : ¬ ((m : Int) < 0) := by omega
        have hd0 : ¬ ((d : Int) < 0) := by omega
        simp only [ne_eq, not_true_eq_false, if_false, hm, hd0, daysIn_eq y m hm₁ hm₂] at h
        split at h
        · simp at h
        · rename_i hday
          refine ⟨y, m, d, ⟨hy, hm₁, hm₂, by omega, by omega⟩, ?_⟩
          simpa using hval
      · simp [hrest] at h
  · rintro ⟨y, m, d, ⟨hy, hm₁, hm₂, hd₁, hd₂⟩, hval⟩
    have hdays : calendarDays y m ≤ 31 := by
      unfold calendarDays
      split_ifs <;> omega
    have hl := (parseLoop_date_iff s.data [] ⟨0, -1, -1, 0, 0, 0, 0⟩ _).2
      ⟨y, m, d, hy, hm₁, hm₂, by omega, by simpa using hval, rfl⟩
    have hm : ¬ ((m : Int) < 0) := by omega
    have hd0 : ¬ ((d : Int) < 0) := by omega
    have hday : ¬ ((d : Int) < 1 ∨ (d : Int) > (calendarDays y m : Int)) := by omega
    simp only [hl, ne_eq, not_true_eq_false, if_false, hm, hd0, daysIn_eq y m hm₁ hm₂, hday,
      Option.isSome_some]
theorem digitChar_ne_space (k : Nat) (hk : k ≤ 9) : digitChar k ≠ ' ' := by
  interval_cases k <;> decide

theorem parseLoop_clock_elim (v₁ : List Char) (t r : time.Time)
    (h : time.parseLoop [([' '], time.Std.stdHour), ([':'], time.Std.stdZeroMinute),
      ([':'], time.Std.stdZeroSecond)] v₁ t = some (r, [])) :
    ∃ (k hh mi sec : Nat) (ht frac : List Char), validClock hh mi sec ∧ hourText hh ht ∧
      fractionText frac ∧
      v₁ = List.replicate (k + 1) ' ' ++ ht ++ ':' :: pad2 mi ++ ':' :: pad2 sec ++ frac ∧
      r.year = t.year ∧ r.month = t.month ∧ r.day = t.day := by
  obtain ⟨v₂, t₁, v₃, hs₁, hp₁, h⟩ := (parseLoop_cons_iff _ _ _ _ _ _).1 h
  obtain ⟨v₄, t₂, v₅, hs₂, hp₂, h⟩ := (parseLoop_cons_iff _ _ _ _ _ _).1 h
  obtain ⟨v₆, t₃, v₇, hs₃, hp₃, h⟩ := (parseLoop_cons_iff _ _ _ _ _ _).1 h
  simp only [time.parseLoop, Option.some.injEq, Prod.mk.injEq] at h
  obtain ⟨rfl, rfl⟩ := h
  rw [skip_char ':' (by decide)] at hs₂ hs₃
  obtain ⟨hh, hhh, rfl, hv₂⟩ := (parseStd_hour_iff _ _ _ _).1 hp₁
  obtain ⟨mi, hmi, rfl, rfl⟩ := (parseStd_minute_iff _ _ _ _).1 hp₂
  obtain ⟨sec, frac, hsec, hfrac, rfl, nsec, rfl⟩ := parseStd_second_elim _ _ _ hp₃
  rw [skip_space] at hs₁
  split at hs₁
  · exact absurd hs₁ (by simp)
  · rename_i hcond
    simp only [Option.some.injEq] at hs₁
    obtain ⟨k, hk, hhead⟩ := cutspace_eq v₁
    rw [hs₁] at hk hhead
    have hne : v₂ ≠ [] := by
      rcases hv₂ with hv | ⟨_, hv, _⟩ <;> rw [hv] <;> simp [pad2]
    have hk0 : k ≠ 0 := by
      intro hk0
      rw [hk0] at hk
      simp only [List.replicate_zero, List.nil_append] at hk
      rw [hk] at hcond
      exact hcond ⟨hne, hhead⟩
    obtain ⟨k', rfl⟩ := Nat.exists_eq_succ_of_ne_zero hk0
    rcases hv₂ with hv | ⟨hlt, hv, _⟩
    · refine ⟨k', hh, mi, sec, pad2 hh, frac, ⟨hhh, hmi, hsec⟩, Or.inl rfl, hfrac, ?_,
        rfl, rfl, rfl⟩
      rw [hk, hv, hs₂, hs₃]
      simp
    · refine ⟨k', hh, mi, sec, [digitChar hh], frac, ⟨hhh, hmi, hsec⟩, Or.inr ⟨hlt, rfl⟩,
        hfrac, ?_, rfl, rfl, rfl⟩
      rw [hk, hv, hs₂, hs₃]
      simp

theorem parseLoop_clock_intro (k hh mi sec : Nat) (ht frac : List Char) (t : time.Time)
    (hclock : validClock hh mi sec) (hht : hourText hh ht) (hfrac : fractionText frac) :
    ∃ r, time.parseLoop [([' '], time.Std.stdHour), ([':'], time.Std.stdZeroMinute),
        ([':'], time.Std.stdZeroSecond)]
        (List.replicate (k + 1) ' ' ++ ht ++ ':' :: pad2 mi ++ ':' :: pad2 sec ++ frac) t
          = some (r, []) ∧
      r.year = t.year ∧ r.month = t.month ∧ r.day = t.day := by
  obtain ⟨hhh, hmi, hsec⟩ := hclock
  obtain ⟨nsec, hns⟩ := parseStd_second_intro sec frac
    { t with hour := (hh : Int), min := (mi : Int) } hsec hfrac
  have hhead : (ht ++ ':' :: pad2 mi ++ ':' :: pad2 sec ++ frac).head? ≠ some ' ' := by
    rcases hht with rfl | ⟨hlt, rfl⟩
    · simpa [pad2] using digitChar_ne_space (hh / 10) (by omega)
    · simpa using digitChar_ne_space hh (by omega)
  have hskip : time.skip
      (List.replicate (k + 1) ' ' ++ ht ++ ':' :: pad2 mi ++ ':' :: pad2 sec ++ frac) [' ']
        = some (ht ++ ':' :: pad2 mi ++ ':' :: pad2 sec ++ frac) := by
    rw [skip_space]
    have hc : ¬ ((List.replicate (k + 1) ' ' ++ ht ++ ':' :: pad2 mi ++ ':' :: pad2 sec
        ++ frac) ≠ [] ∧ (List.replicate (k + 1) ' ' ++ ht ++ ':' :: pad2 mi ++ ':' :: pad2 sec
        ++ frac).head? ≠ some ' ') := by
      simp [List.replicate_succ]
    rw [if_neg hc]
    have hassoc : List.replicate (k + 1) ' ' ++ ht ++ ':' :: pad2 mi ++ ':' :: pad2 sec ++ frac
        = List.replicate (k + 1) ' ' ++ (ht ++ ':' :: pad2 mi ++ ':' :: pad2 sec ++ frac) := by
      simp
    rw [hassoc, cutspace_replicate _ _ hhead]
  have hhour : time.parseStd time.Std.stdHour
      (ht ++ ':' :: pad2 mi ++ ':' :: pad2 sec ++ frac) t
        = some ({ t with hour := (hh : Int) }, ':' :: pad2 mi ++ ':' :: pad2 sec ++ frac) := by
    rw [parseStd_hour_iff]
    refine ⟨hh, hhh, rfl, ?_⟩
    rcases hht with rfl | ⟨hlt, rfl⟩
    · exact Or.inl (by simp)
    · exact Or.inr ⟨hlt, by simp, rfl⟩
  refine ⟨{ t with hour := (hh : Int), min := (mi : Int), sec := (sec : Int), nsec := nsec },
    (parseLoop_cons_iff _ _ _ _ _ _).2 ⟨_, _, _, hskip, hhour, ?_⟩, ?_⟩
  · refine (parseLoop_cons_iff _ _ _ _ _ _).2 ⟨_, _, _,
      (skip_char ':' (by decide) _ _).2 rfl,
      (parseStd_minute_iff _ (':' :: pad2 sec ++ frac) _ _).2 ⟨mi, hmi, by simp, rfl⟩, ?_⟩
    refine (parseLoop_cons_iff _ _ _ _ _ _).2 ⟨_, _, _,
      (skip_char ':' (by decide) _ _).2 rfl, hns, ?_⟩
    simp only [time.parseLoop]
  · exact ⟨rfl, rfl, rfl⟩

theorem parse_datetime_iff (s : String) :
    (time.Parse datetimeLayout s).isSome = true ↔ isLenientDatetime s := by
  unfold time.Parse isLenientDatetime datetimeLayout
  constructor
  · intro h
    cases hl : time.parseLoop (dateLayout ++ [([' '], time.Std.stdHour),
        ([':'], time.Std.stdZeroMinute), ([':'], time.Std.stdZeroSecond)]) s.data
        ⟨0, -1, -1, 0, 0, 0, 0⟩ with
    | none => simp [hl] at h
    | some p =>
      obtain ⟨r, rest⟩ := p
      simp only [hl] at h
      by_cases hrest : rest = []
      · subst hrest
        obtain ⟨t₁, v₁, hdate, hclock⟩ := (parseLoop_append _ _ _ _ _).1 hl
        obtain ⟨y, m, d, hy, hm₁, hm₂, hd, hval, rfl⟩ := (parseLoop_date_iff _ _ _ _).1 hdate
        obtain ⟨k, hh, mi, sec, ht, frac, hc, hht, hfrac, rfl, hry, hrm, hrd⟩ :=
          parseLoop_clock_elim _ _ _ hclock
        simp only at hry hrm hrd
        have hm : ¬ ((m : Int) < 0) := by omega
        have hd0 : ¬ ((d : Int) < 0) := by omega
        simp only [ne_eq, not_true_eq_false, if_false, hry, hrm, hrd, hm, hd0,
          daysIn_eq y m hm₁ hm₂] at h
        split at h
        · simp at h
        · rename_i hday
          refine ⟨y, m, d, k, hh, mi, sec, ht, frac, ⟨hy, hm₁, hm₂, by omega, by omega⟩, hc,
            hht, hfrac, ?_⟩
          rw [hval]
          simp
      · simp [hrest] at h
  · rintro ⟨y, m, d, k, hh, mi, sec, ht, frac, ⟨hy, hm₁, hm₂, hd₁, hd₂⟩, hc, hht, hfrac, hval⟩
    have hdays : calendarDays y m ≤ 31 := by
      unfold calendarDays
      split_ifs <;> omega
    obtain ⟨r, hclock, hry, hrm, hrd⟩ := parseLoop_clock_intro k hh mi sec ht frac
      { (⟨0, -1, -1, 0, 0, 0, 0⟩ : time.Time) with
        year := (y : Int), month := (m : Int), day := (d : Int) } hc hht hfrac
    have hdate := (parseLoop_date_iff
      (dateText y m d ++ (List.replicate (k + 1) ' ' ++ ht ++ ':' :: pad2 mi ++
        ':' :: pad2 sec ++ frac))
      (List.replicate (k + 1) ' ' ++ ht ++ ':' :: pad2 mi ++ ':' :: pad2 sec ++ frac)
      ⟨0, -1, -1, 0, 0, 0, 0⟩ _).2 ⟨y, m, d, hy, hm₁, hm₂, by omega, rfl, rfl⟩
    have hl := (parseLoop_append dateLayout _ _ _ _).2 ⟨_, _, hdate, hclock⟩
    have hdata : s.data = dateText y m d ++ (List.replicate (k + 1) ' ' ++ ht ++
        ':' :: pad2 mi ++ ':' :: pad2 sec ++ frac) := by
      rw [hval]
      simp
    rw [← hdata] at hl
    simp only at hry hrm hrd
    have hm : ¬ ((m : Int) < 0) := by omega
    have hd0 : ¬ ((d : Int) < 0) := by omega
    have hday : ¬ ((d : Int) < 1 ∨ (d : Int) > (calendarDays y m : Int)) := by omega
    simp only [hl, ne_eq, not_true_eq_false, if_false, hry, hrm, hrd, hm, hd0,
      daysIn_eq y m hm₁ hm₂, hday, Option.isSome_some]

theorem isDatetime_lenient (s : String) (h : isDatetime s) : isLenientDatetime s := by
  obtain ⟨y, m, d, hh, mi, sec, hdate, hclock, hval⟩ := h
  refine ⟨y, m, d, 0, hh, mi, sec, pad2 hh, [], hdate, hclock, Or.inl rfl, Or.inl rfl, ?_⟩
  rw [hval]
  simp

theorem isDatetime_length (s : String) (h : isDatetime s) : s.data.length = 19 := by
  obtain ⟨y, m, d, hh, mi, sec, -, -, hval⟩ := h
  rw [hval]
  simp [dateText, pad2, pad4]
theorem dateRule_eq (E : GoError) (rendering : GoValue → Option String) (v : GoValue)
    (param s : String) (h : rendersAs rendering v s) :
    dateRule E rendering v param = if (time.Parse dateLayout s).isNone then some E else none := by
  rcases h with rfl | ⟨hv, hr⟩
  · rfl
  · cases v with
    | str t => exact absurd rfl (hv t)
    | _ => simp only [dateRule, hr]

theorem datetimeRule_eq (E : GoError) (rendering : GoValue → Option String) (v : GoValue)
    (param s : String) (h : rendersAs rendering v s) :
    datetimeRule E rendering v param
      = if (time.Parse datetimeLayout s).isNone then some E else none := by
  rcases h with rfl | ⟨hv, hr⟩
  · rfl
  · cases v with
    | str t => exact absurd rfl (hv t)
    | _ => simp only [datetimeRule, hr]

theorem ite_isNone_iff (o : Option time.Time) (E : GoError) :
    (if o.isNone then some E else none) = none ↔ o.isSome = true := by
  cases o <;> simp

/-- C22 (amended). For every value that is a native string or has a `String()`
rendering, with text s: dateRule returns no error iff s is exactly a valid
calendar date written `YYYY-MM-DD`; datetimeRule returns no error iff s is a
valid date `YYYY-MM-DD`, one or more spaces, the hour with one or two digits,
`:`, the minute with two digits, `:`, the second with two digits and optionally
a period or comma with one or more digits, which every valid
`YYYY-MM-DD hh:mm:ss` is. Every value that is neither a string nor
string-rendering is rejected by both rules. -/
theorem date_rules_accept_iff (ErrFieldMustBeDate ErrFieldMustBeDatetime : GoError)
    (rendering : GoValue → Option String) (v : GoValue) (param : String) :
    (∀ s, rendersAs rendering v s →
      (dateRule ErrFieldMustBeDate rendering v param = none ↔ isDate s) ∧
      (datetimeRule ErrFieldMustBeDatetime rendering v param = none ↔ isLenientDatetime s)) ∧
    (∀ s, isDatetime s → isLenientDatetime s) ∧
    ((∀ s, v ≠ GoValue.str s) → rendering v = none →
      dateRule ErrFieldMustBeDate rendering v param = some ErrFieldMustBeDate ∧
      datetimeRule ErrFieldMustBeDatetime rendering v param = some ErrFieldMustBeDatetime) := by
  refine ⟨fun s hs => ⟨?_, ?_⟩, isDatetime_lenient, fun hv hr => ?_⟩
  · rw [dateRule_eq _ _ _ _ _ hs, ite_isNone_iff, parse_date_iff]
  · rw [datetimeRule_eq _ _ _ _ _ hs, ite_isNone_iff, parse_datetime_iff]
  · cases v with
    | str t => exact absurd rfl (hv t)
    | _ => simp only [dateRule, datetimeRule, hr, and_self]

/-- C22 at the leap day of 2024, held by a `types.Date`, and at an integer. -/
theorem date_rules_accept_iff_witness :
    isDate "2024-02-29" ∧
    dateRule (GoError.plain "date") typesRendering (GoValue.int 5) ""
      = some (GoError.plain "date") :=
  ⟨((date_rules_accept_iff (GoError.plain "date") (GoError.plain "datetime") typesRendering
      (GoValue.named "types.Date" "2024-02-29") "").1 "2024-02-29"
        (Or.inr ⟨fun _ h => GoValue.noConfusion h, rfl⟩)).1.1 rfl,
   ((date_rules_accept_iff (GoError.plain "date") (GoError.plain "datetime") typesRendering
      (GoValue.int 5) "").2.2 (fun _ h => GoValue.noConfusion h) rfl).1⟩

/-- C22 as stated fails: datetimeRule returns no error for a text with an hour
of one digit, for a text with a fraction of a second after the seconds and for
a text with two spaces between date and time; none of them is written
`YYYY-MM-DD hh:mm:ss`. -/
theorem datetimeRule_counterexample :
    datetimeRule (GoError.plain "datetime") typesRendering
      (GoValue.str "2024-02-29 5:04:05") "" = none ∧
    ¬ isDatetime "2024-02-29 5:04:05" ∧
    datetimeRule (GoError.plain "datetime") typesRendering
      (GoValue.named "types.Datetime" "2024-02-29 15:04:05.123") "" = none ∧
    ¬ isDatetime "2024-02-29 15:04:05.123" ∧
    datetimeRule (GoError.plain "datetime") typesRendering
      (GoValue.str "2024-02-29  15:04:05") "" = none ∧
    ¬ isDatetime "2024-02-29  15:04:05" := by
  refine ⟨rfl, fun h => ?_, rfl, fun h => ?_, rfl, fun h => ?_⟩
  · exact absurd (isDatetime_length _ h) (by decide)
  · exact absurd (isDatetime_length _ h) (by decide)
  · exact absurd (isDatetime_length _ h) (by decide)

end Gapp
